import Mathlib

/-!
# Semigroups kernel module (`src/semigroups.cc`)

A shallow embedding of the three graph routines `GABOW_SCC`,
`SCC_UNION_LEFT_RIGHT_CAYLEY_GRAPHS`, `FIND_HCLASSES` and of the Froidure-Pin
enumerator `Data` (constructor and `enumerate`), followed by theorems about them.

Conventions of the embedding.

* GAP plain lists are Lean lists read and written at 1-based positions
  (`ELM_PLIST`, `SET_ELM_PLIST`).
* A C array used as a stack together with its height (`stack1`/`end1`,
  `stack2`/`end2`, `frames`/`level`) is a list of its live entries, top first;
  the height is the length of the list.
* Reading a stack below its first entry, reading or writing a word outside the bag
  `seen`, `std::vector::at` outside the vector, and a `while` loop that is still running
  when its iteration budget is used up are results of type `Fault`.
-/

namespace Semigroups

/-! # Definitions -/

/-- Ways in which a run can fail to produce a result. -/
inductive Fault where
  | outOfRange
  | outOfFuel
  deriving DecidableEq, Repr

/-- The record returned by the three graph routines. -/
structure SCCResult where
  id : List Nat
  comps : List (List Nat)
  deriving DecidableEq, Repr

/-- Entry `i` (1-based) of a plain list of integers; `0` outside the list. -/
def ELM_PLIST (l : List Nat) (i : Nat) : Nat :=
  match i with
  | 0 => 0
  | k + 1 => l.getD k 0

/-- The plain list `l` with entry `i` (1-based) replaced by `v`. -/
def SET_ELM_PLIST (l : List Nat) (i v : Nat) : List Nat :=
  match i with
  | 0 => l
  | k + 1 => l.set k v

/-- Entry `i` (1-based) of a plain list of plain lists; empty outside the list. -/
def ELM_PLIST2 (l : List (List Nat)) (i : Nat) : List Nat :=
  match i with
  | 0 => []
  | k + 1 => l.getD k []

/-! ## GABOW_SCC -/

/-- One entry of the explicit call stack: `frames[0]` (vertex), `frames[1]` (1-based
cursor into the adjacency list) and `frames[2]` (the adjacency list). -/
structure Frame where
  v : Nat
  idx : Nat
  adj : List Nat
  deriving DecidableEq, Repr

/-- The local variables of `GABOW_SCC` that change during the search. `stack1`, `stack2`
and `frames` hold the live entries, top first, so `end1 = stack1.length`,
`end2 = stack2.length` and `level = frames.length`. -/
structure GabowState where
  id : List Nat
  stack1 : List Nat
  stack2 : List Nat
  frames : List Frame
  count : Nat
  comps : List (List Nat)
  deriving DecidableEq, Repr

/-- The `do { nr++; w = stack1[end1--]; id[w] = count; } while (w != frames[0]);` loop
followed by the `memcpy` of the popped entries: returns the remaining `stack1`, the new
`id` and the component, in the order in which its vertices lay in `stack1`. -/
def popComponent (root count : Nat) :
    List Nat → List Nat → List Nat → Except Fault (List Nat × List Nat × List Nat)
  | [], _, _ => .error .outOfRange
  | w :: rest, id, comp =>
    if w = root then .ok (rest, SET_ELM_PLIST id w count, w :: comp)
    else popComponent root count rest (SET_ELM_PLIST id w count) (w :: comp)

/-- The `while (stack2[end2] > idw) end2--;` loop. -/
def popBoundaries (idw : Nat) : List Nat → Except Fault (List Nat)
  | [] => .error .outOfRange
  | b :: rest => if b > idw then popBoundaries idw rest else .ok (b :: rest)

/-- One pass through the body of `while (1)`. The boolean is `true` when the pass ends in
`break` (the frame of the root was popped). -/
def gabowStep (digraph : List (List Nat)) (s : GabowState) :
    Except Fault (GabowState × Bool) :=
  match s.frames with
  | [] => .error .outOfRange
  | f :: fs =>
    if f.idx > f.adj.length then
      match s.stack2 with
      | [] => .error .outOfRange
      | b :: bs =>
        if b = ELM_PLIST s.id f.v then
          match popComponent f.v (s.count + 1) s.stack1 s.id [] with
          | .error e => .error e
          | .ok (st1, id1, comp) =>
            .ok ({ id := id1, stack1 := st1, stack2 := bs, frames := fs,
                   count := s.count + 1, comps := s.comps ++ [comp] }, fs.isEmpty)
        else
          .ok ({ s with frames := fs }, fs.isEmpty)
    else
      let w := ELM_PLIST f.adj f.idx
      let f1 : Frame := { f with idx := f.idx + 1 }
      let idw := ELM_PLIST s.id w
      if idw = 0 then
        let end1 := s.stack1.length + 1
        .ok ({ s with
                frames := { v := w, idx := 1, adj := ELM_PLIST2 digraph w } :: f1 :: fs,
                stack1 := w :: s.stack1,
                stack2 := end1 :: s.stack2,
                id := SET_ELM_PLIST s.id w end1 }, false)
      else
        match popBoundaries idw s.stack2 with
        | .error e => .error e
        | .ok st2 => .ok ({ s with frames := f1 :: fs, stack2 := st2 }, false)

/-- The `while (1)` loop, with an iteration budget. -/
def gabowLoop (digraph : List (List Nat)) : Nat → GabowState → Except Fault GabowState
  | 0, _ => .error .outOfFuel
  | fuel + 1, s =>
    match gabowStep digraph s with
    | .error e => .error e
    | .ok (s1, true) => .ok s1
    | .ok (s1, false) => gabowLoop digraph fuel s1

/-- The state at the top of `while (1)` for a new root `v`. -/
def gabowPush (digraph : List (List Nat)) (s : GabowState) (v : Nat) : GabowState :=
  { s with
    frames := [{ v := v, idx := 1, adj := ELM_PLIST2 digraph v }],
    stack1 := v :: s.stack1,
    stack2 := (s.stack1.length + 1) :: s.stack2,
    id := SET_ELM_PLIST s.id v (s.stack1.length + 1) }

/-- The `for (v = 1; v <= n; v++)` loop over the roots, here over the list of the
vertices still to be tried. -/
def gabowRoots (digraph : List (List Nat)) (fuel : Nat) :
    List Nat → GabowState → Except Fault GabowState
  | [], s => .ok s
  | v :: vs, s =>
    if ELM_PLIST s.id v = 0 then
      match gabowLoop digraph fuel (gabowPush digraph s v) with
      | .error e => .error e
      | .ok s1 => gabowRoots digraph fuel vs s1
    else gabowRoots digraph fuel vs s

/-- Iteration budget given to each `while (1)` loop: for every vertex one pass plus one
pass per entry of its adjacency list. -/
def gabowFuel (digraph : List (List Nat)) : Nat :=
  ((List.range' 1 digraph.length).map (fun v => (ELM_PLIST2 digraph v).length + 1)).sum

/-- The routine `GABOW_SCC`. The final loop subtracts `n` from every entry of `id`. -/
def GABOW_SCC (digraph : List (List Nat)) : Except Fault SCCResult :=
  let n := digraph.length
  if n = 0 then .ok { id := [], comps := [] }
  else
    let s0 : GabowState :=
      { id := List.replicate n 0, stack1 := [], stack2 := [], frames := [],
        count := n, comps := [] }
    match gabowRoots digraph (gabowFuel digraph) (List.range' 1 n) s0 with
    | .error e => .error e
    | .ok s => .ok { id := s.id.map (fun x => x - n), comps := s.comps }

/-! ## SCC_UNION_LEFT_RIGHT_CAYLEY_GRAPHS -/

/-- A `for` loop whose body can fault: the body `f` is run on the entries of the list in
order, and the first fault ends the loop. -/
def forEach {σ α : Type} (f : σ → α → Except Fault σ) : List α → σ → Except Fault σ
  | [], s => .ok s
  | x :: xs, s =>
    match f s x with
    | .error e => .error e
    | .ok s1 => forEach f xs s1

/-- The locals of `SCC_UNION_LEFT_RIGHT_CAYLEY_GRAPHS` that change in its loops. `seen` is
the word array of the bag `seen`, word `k` at list position `k`; the bag is created with
`LEN_PLIST(comps2)+1` words, so the words `0 .. LEN_PLIST(comps2)` exist. Reading or writing
a word at a position that is not below `seen.length` is the fault `outOfRange`. -/
structure UnionState where
  id : List Nat
  seen : List Nat
  nr : Nat
  comps : List (List Nat)
  new_comp : List Nat
  deriving DecidableEq, Repr

/-- Body of the loop `for(i=1;i<=n;i++)` under `//init id`:
`SET_ELM_PLIST(id, i, INTOBJ_INT(0)); ptr[i] = 0;`, where `ptr` is the word array of
`seen`. -/
def unionInitStep (s : UnionState) (i : Nat) : Except Fault UnionState :=
  if i < s.seen.length then
    .ok { s with id := SET_ELM_PLIST s.id i 0, seen := s.seen.set i 0 }
  else .error .outOfRange

/-- Body of `for (l = 1; l <= LEN_PLIST(comp2); l++)`: `x` is `comp2[l]`. -/
def unionAddVertex (s : UnionState) (x : Nat) : UnionState :=
  { s with id := SET_ELM_PLIST s.id x s.nr, new_comp := s.new_comp ++ [x] }

/-- Body of `for (j = 1; j <= LEN_PLIST(comp1); j++)`: `y` is `comp1[j]`. The word `k` of
`seen` is read, and written when it is `0`. -/
def unionVisit (id2 : List Nat) (comps2 : List (List Nat)) (s : UnionState) (y : Nat) :
    Except Fault UnionState :=
  let k := ELM_PLIST id2 y
  if k < s.seen.length then
    if s.seen.getD k 0 = 0 then
      .ok ((ELM_PLIST2 comps2 k).foldl unionAddVertex { s with seen := s.seen.set k 1 })
    else .ok s
  else .error .outOfRange

/-- Body of `for (i = 1; i <= LEN_PLIST(comps1); i++)`: `comp1` is `comps1[i]`. -/
def unionComponent (id2 : List Nat) (comps2 : List (List Nat)) (s : UnionState)
    (comp1 : List Nat) : Except Fault UnionState :=
  if ELM_PLIST s.id (ELM_PLIST comp1 1) = 0 then
    match forEach (unionVisit id2 comps2) comp1 { s with nr := s.nr + 1, new_comp := [] } with
    | .error e => .error e
    | .ok s1 => .ok { s1 with comps := s1.comps ++ [s1.new_comp] }
  else .ok s

/-- The routine `SCC_UNION_LEFT_RIGHT_CAYLEY_GRAPHS`: the return for `n == 0`, the creation
of `id` (`n` entries) and of `seen` (`LEN_PLIST(comps2)+1` words), the loop that
initialises them for `i = 1..n`, and the loop over the components of `scc1`. -/
def SCC_UNION_LEFT_RIGHT_CAYLEY_GRAPHS (scc1 scc2 : SCCResult) : Except Fault SCCResult :=
  let n := scc1.id.length
  if n = 0 then .ok { id := [], comps := [] }
  else
    let s0 : UnionState :=
      { id := List.replicate n 0, seen := List.replicate (scc2.comps.length + 1) 0,
        nr := 0, comps := [], new_comp := [] }
    match forEach unionInitStep (List.range' 1 n) s0 with
    | .error e => .error e
    | .ok s1 =>
      match forEach (unionComponent scc2.id scc2.comps) scc1.comps s1 with
      | .error e => .error e
      | .ok s => .ok { id := s.id, comps := s.comps }

/-! ## FIND_HCLASSES -/

/-- The loop `for (i = 2; i <= nrcomps; i++) nextpos[i] = nextpos[i-1] + LEN_PLIST(comps[i-1])`
after `nextpos[1] = 1`. -/
def initNextpos (comps : List (List Nat)) : List Nat :=
  (List.range' 2 (comps.length - 1)).foldl
    (fun nextpos i =>
      SET_ELM_PLIST nextpos i (ELM_PLIST nextpos (i - 1) + (ELM_PLIST2 comps (i - 1)).length))
    (SET_ELM_PLIST (List.replicate comps.length 0) 1 1)

/-- The three regions `nextpos`, `sorted`, `lookup` of the bag `buf`. -/
structure HBuf where
  nextpos : List Nat
  sorted : List Nat
  lookup : List Nat
  deriving DecidableEq, Repr

/-- Body of the first `for (i = 1; i <= n; i++)` loop: one step of the bucket sort. -/
def bucketStep (rightid : List Nat) (b : HBuf) (i : Nat) : HBuf :=
  let j := ELM_PLIST rightid i
  { nextpos := SET_ELM_PLIST b.nextpos j (ELM_PLIST b.nextpos j + 1),
    sorted := SET_ELM_PLIST b.sorted (ELM_PLIST b.nextpos j) i,
    lookup := SET_ELM_PLIST b.lookup i 0 }

/-- The locals of the second `for (i = 1; i <= n; i++)` loop of `FIND_HCLASSES`. -/
structure HState where
  hindex : Nat
  rindex : Nat
  init : Nat
  lookup : List Nat
  comps : List (List Nat)
  id : List Nat
  deriving DecidableEq, Repr

/-- The `AssPlist(comp, len, j)` on `comp = comps[k]`: vertex `j` appended to component `k`. -/
def appendAt : List (List Nat) → Nat → Nat → List (List Nat)
  | [], _, _ => []
  | cs, 0, _ => cs
  | c :: cs, 1, j => (c ++ [j]) :: cs
  | c :: cs, k + 2, j => c :: appendAt cs (k + 1) j

/-- Body of the second loop: `j` is `sorted[i]`. -/
def hclassStep (rightid leftid : List Nat) (s : HState) (j : Nat) : HState :=
  let k := ELM_PLIST rightid j
  let s1 : HState := if k > s.rindex then { s with rindex := k, init := s.hindex } else s
  let k := ELM_PLIST leftid j
  let s2 : HState :=
    if ELM_PLIST s1.lookup k ≤ s1.init then
      { s1 with hindex := s1.hindex + 1,
                lookup := SET_ELM_PLIST s1.lookup k (s1.hindex + 1),
                comps := s1.comps ++ [[]] }
    else s1
  let k := ELM_PLIST s2.lookup k
  { s2 with comps := appendAt s2.comps k j, id := SET_ELM_PLIST s2.id j k }

/-- The routine `FIND_HCLASSES`. -/
def FIND_HCLASSES (right left : SCCResult) : SCCResult :=
  let rightid := right.id
  let leftid := left.id
  let n := rightid.length
  if n = 0 then { id := [], comps := [] }
  else
    let b0 : HBuf :=
      { nextpos := initNextpos right.comps, sorted := List.replicate n 0,
        lookup := List.replicate n 0 }
    let b := (List.range' 1 n).foldl (bucketStep rightid) b0
    let s0 : HState :=
      { hindex := 0, rindex := 0, init := 0, lookup := b.lookup, comps := [],
        id := List.replicate n 0 }
    let s := b.sorted.foldl (hclassStep rightid leftid) s0
    { id := s.id, comps := s.comps }

/-! ## The enumerator `Data` -/

/-- Modelled from the spec: the element capability, class `Element<T>` of `semigroups.h`
(not part of the sources at hand). `mul a b` is the value `tmp` holds after
`tmp.redefine(a, b)`, `hash` is `hash_value()` and `degree` is `degree()`; equality of
elements is equality in `α`, so equal elements hash equal. -/
structure ElementOps (α H : Type) where
  mul : α → α → α
  hash : α → H
  degree : α → Nat

/-- Modelled from the spec: the table type `RecVec<T>` of `semigroups.h` (not part of the
sources at hand): a table with a fixed number of columns that grows by one row of default
entries per `expand()`, read and written at (row, column) with `get` and `set`. An access
outside the table is a `Fault`, as `std::vector::at` is. -/
structure RecVec (T : Type) where
  nrcols : Nat
  dflt : T
  rows : List (List T)
  deriving DecidableEq, Repr

/-- The call `RecVec<T>(nrcols)`: no rows yet. -/
def RecVec.new {T : Type} (nrcols : Nat) (dflt : T) : RecVec T :=
  { nrcols := nrcols, dflt := dflt, rows := [] }

/-- The call `expand()`. -/
def RecVec.expand {T : Type} (t : RecVec T) : RecVec T :=
  { t with rows := t.rows ++ [List.replicate t.nrcols t.dflt] }

/-- The call `get(i, j)`. -/
def RecVec.get {T : Type} (t : RecVec T) (i j : Nat) : Except Fault T :=
  match t.rows[i]? with
  | none => .error .outOfRange
  | some row =>
    match row[j]? with
    | none => .error .outOfRange
    | some x => .ok x

/-- The call `set(i, j, val)`. -/
def RecVec.set {T : Type} (t : RecVec T) (i j : Nat) (val : T) : Except Fault (RecVec T) :=
  match t.rows[i]? with
  | none => .error .outOfRange
  | some row =>
    if j < row.length then .ok { t with rows := t.rows.set i (row.set j val) }
    else .error .outOfRange

/-- The call `v.at(i)` of a `std::vector`, as a read. -/
def vecAt {T : Type} (v : List T) (i : Nat) : Except Fault T :=
  match v[i]? with
  | none => .error .outOfRange
  | some x => .ok x

/-- The assignment `v.at(i) = x` of a `std::vector`. -/
def vecSet {T : Type} (v : List T) (i : Nat) (x : T) : Except Fault (List T) :=
  if i < v.length then .ok (v.set i x) else .error .outOfRange

/-- The call `_map.find(h)` of the `std::unordered_map` from hash values to positions:
`none` is `_map.end()`. -/
def mapFind {H : Type} [DecidableEq H] : List (H × Nat) → H → Option Nat
  | [], _ => none
  | (k, p) :: m, h => if k = h then some p else mapFind m h

/-- The call `_map.insert(std::make_pair(h, p))`; an entry already stored under `h` stays
the one that `find` returns. -/
def mapInsert {H : Type} (m : List (H × Nat)) (h : H) (p : Nat) : List (H × Nat) :=
  m ++ [(h, p)]

/-- The data members of `Data<T>`. The member `_id` is left out: it is never assigned (the
constructor declares a local of the same name) and is only compared, in conditions
that guard the two expression statements `_pos_one == _nr; _found_one == true;`, which
change nothing. -/
structure Data (α H : Type) where
  degree : Nat
  elements : List α
  final : List Nat
  first : List Nat
  found_one : Bool
  gens : List α
  genslookup : List Nat
  left : RecVec Nat
  lenindex : List Nat
  map : List (H × Nat)
  nr : Nat
  nrgens : Nat
  nrrules : Nat
  pos : Nat
  pos_one : Nat
  prefix_ : List Nat
  reduced : RecVec Bool
  right : RecVec Nat
  rules : List (List Nat)
  schreiergen : List Nat
  schreierpos : List Nat
  suffix : List Nat
  undefined : Nat
  wordlen : Nat

/-- Body of the constructor loop `for (size_t i = 0; i < _nrgens; i++)` that adds the
generators. The statement `if (!_found_one && x == _id) { _pos_one == _nr; _found_one ==
true; }` of the second branch consists of comparisons only and writes nothing, so it has no
counterpart here. -/
def addGenerator {α H : Type} [DecidableEq H]
    (ops : ElementOps α H) (d : Data α H) (i : Nat) : Except Fault (Data α H) :=
  match vecAt d.gens i with
  | .error e => .error e
  | .ok x =>
    match mapFind d.map (ops.hash x) with
    | some p =>
      match vecSet d.genslookup i p with
      | .error e => .error e
      | .ok gl =>
        .ok { d with genslookup := gl, nrrules := d.nrrules + 1,
                     rules := d.rules ++ [[d.undefined, i, p]] }
    | none =>
      match vecSet d.genslookup i d.nr with
      | .error e => .error e
      | .ok gl =>
        .ok { d with
              genslookup := gl,
              map := mapInsert d.map (ops.hash x) d.nr,
              elements := d.elements ++ [x],
              schreiergen := d.schreiergen ++ [i],
              schreierpos := d.schreierpos ++ [0],
              first := d.first ++ [i + 1],
              final := d.final ++ [i + 1],
              prefix_ := d.prefix_ ++ [i + 1],
              suffix := d.suffix ++ [i + 1],
              left := d.left.expand,
              right := d.right.expand,
              reduced := d.reduced.expand,
              nr := d.nr + 1 }

/-- The constructor loop over the generator indices. -/
def addGenerators {α H : Type} [DecidableEq H]
    (ops : ElementOps α H) : List Nat → Data α H → Except Fault (Data α H)
  | [], d => .ok d
  | i :: is, d =>
    match addGenerator ops d i with
    | .error e => .error e
    | .ok d1 => addGenerators ops is d1

/-- The constructor `Data (gens)`. The member initialiser `gens.at(0)` and the
`assert(_nrgens != 0)` fail on an empty list. -/
def Data.new {α H : Type} [DecidableEq H]
    (ops : ElementOps α H) (gens : List α) : Except Fault (Data α H) :=
  match vecAt gens 0 with
  | .error e => .error e
  | .ok g0 =>
    let d0 : Data α H :=
      { degree := ops.degree g0, elements := [], final := [], first := [],
        found_one := false, gens := gens, genslookup := List.replicate gens.length 0,
        left := RecVec.new gens.length 0, lenindex := [0], map := [], nr := 0,
        nrgens := gens.length, nrrules := 0, pos := 0, pos_one := 0, prefix_ := [],
        reduced := RecVec.new gens.length false, right := RecVec.new gens.length 0,
        rules := [], schreiergen := [], schreierpos := [], suffix := [],
        undefined := gens.length + 1, wordlen := 0 }
    match addGenerators ops (List.range gens.length) d0 with
    | .error e => .error e
    | .ok d => .ok { d with lenindex := d.lenindex ++ [d.nr] }

/-- The branch of the generator loop taken when `s != 0 && !_reduced.get(s, j)`: the
product is read off the tables. -/
def shortcut {α H : Type} (d : Data α H) (b s j : Nat) : Except Fault (Data α H) := do
  let r ← d.right.get s j
  let reduced ← d.reduced.set d.pos j false
  let p ← vecAt d.prefix_ r
  if p ≠ 0 then
    let l ← d.left.get p b
    let f ← vecAt d.final r
    let x ← d.right.get l f
    let right ← d.right.set d.pos j x
    pure { d with reduced := reduced, right := right }
  else if d.found_one && r == d.pos_one then
    let x ← vecAt d.genslookup b
    let right ← d.right.set d.pos j x
    pure { d with reduced := reduced, right := right }
  else
    let g ← vecAt d.genslookup b
    let f ← vecAt d.final r
    let x ← d.right.get g f
    let right ← d.right.set d.pos j x
    pure { d with reduced := reduced, right := right }

/-- The value pushed on `_suffix` for a new element: `_right.get(s, j)` if `s != 0`, else
`_genslookup.at(j)`. -/
def newSuffix {α H : Type} (d : Data α H) (s j : Nat) : Except Fault Nat :=
  if s ≠ 0 then d.right.get s j else vecAt d.genslookup j

/-- The other branch: the product `_elements.at(_pos) * _gens.at(j)` is computed and looked
up in `_map`. The second component is the new value of `stop`. The statement
`if (!_found_one && tmp == _id) { _pos_one == _nr; _found_one == true; }` of the miss case
consists of comparisons only and writes nothing, so it has no counterpart here. -/
def multiply {α H : Type} [DecidableEq H]
    (ops : ElementOps α H) (limit : Nat) (d : Data α H) (b s j : Nat) (stop : Bool) :
    Except Fault (Data α H × Bool) := do
  let x ← vecAt d.elements d.pos
  let g ← vecAt d.gens j
  let tmp := ops.mul x g
  match mapFind d.map (ops.hash tmp) with
  | some p =>
    let right ← d.right.set d.pos j p
    pure ({ d with nrrules := d.nrrules + 1, rules := d.rules ++ [[d.pos, j, p]],
                   right := right }, stop)
  | none =>
    let lenindex1 := if d.lenindex.length ≤ d.wordlen + 1 then d.lenindex ++ [d.nr]
                     else d.lenindex
    let lenindex2 := lenindex1 ++ [d.pos]
    let suf ← newSuffix d s j
    let reduced ← d.reduced.set d.pos j true
    let right ← d.right.set d.pos j d.nr
    pure ({ d with
            lenindex := lenindex2,
            map := mapInsert d.map (ops.hash tmp) d.nr,
            elements := d.elements ++ [tmp],
            schreiergen := d.schreiergen ++ [j],
            schreierpos := d.schreierpos ++ [d.pos + 1],
            first := d.first ++ [b],
            final := d.final ++ [j + 1],
            prefix_ := d.prefix_ ++ [d.pos + 1],
            suffix := d.suffix ++ [suf],
            reduced := reduced.expand,
            right := right.expand,
            left := d.left.expand,
            nr := d.nr + 1 }, decide (d.nr + 1 ≥ limit))

/-- Body of `for (size_t j = 0; j < _nrgens; j++)` in `enumerate`. -/
def applyGen {α H : Type} [DecidableEq H]
    (ops : ElementOps α H) (limit : Nat) (b s : Nat) (d : Data α H) (stop : Bool)
    (j : Nat) : Except Fault (Data α H × Bool) :=
  if s = 0 then multiply ops limit d b s j stop
  else
    match d.reduced.get s j with
    | .error e => .error e
    | .ok red =>
      if !red then
        match shortcut d b s j with
        | .error e => .error e
        | .ok d1 => .ok (d1, stop)
      else multiply ops limit d b s j stop

/-- The loop `for (size_t j = 0; j < _nrgens; j++)` in `enumerate`, over the list of the
generator indices still to be applied. -/
def applyGens {α H : Type} [DecidableEq H] (ops : ElementOps α H) (limit : Nat) (b s : Nat) :
    List Nat → Data α H → Bool → Except Fault (Data α H × Bool)
  | [], d, stop => .ok (d, stop)
  | j :: js, d, stop =>
    match applyGen ops limit b s d stop j with
    | .error e => .error e
    | .ok (d1, stop1) => applyGens ops limit b s js d1 stop1

/-- Body of the inner `while` loop of `enumerate`: all generators are applied to the
element at `_pos`, then `_pos++`. -/
def processPos {α H : Type} [DecidableEq H]
    (ops : ElementOps α H) (limit : Nat) (d : Data α H) (stop : Bool) :
    Except Fault (Data α H × Bool) := do
  let b ← vecAt d.first d.pos
  let s ← vecAt d.suffix d.pos
  let (d1, stop1) ← applyGens ops limit b s (List.range d.nrgens) d stop
  pure ({ d1 with pos := d1.pos + 1 }, stop1)

/-- The loop `while (_pos < _lenindex.at(_wordlen + 1) && !stop)`, with an iteration
budget. -/
def enumInner {α H : Type} [DecidableEq H] (ops : ElementOps α H) (limit : Nat) :
    Nat → Data α H → Bool → Except Fault (Data α H × Bool)
  | 0, d, stop =>
    match vecAt d.lenindex (d.wordlen + 1) with
    | .error e => .error e
    | .ok bound => if d.pos < bound && !stop then .error .outOfFuel else .ok (d, stop)
  | fuel + 1, d, stop =>
    match vecAt d.lenindex (d.wordlen + 1) with
    | .error e => .error e
    | .ok bound =>
      if d.pos < bound && !stop then
        match processPos ops limit d stop with
        | .error e => .error e
        | .ok (d1, stop1) => enumInner ops limit fuel d1 stop1
      else .ok (d, stop)

/-- The loop `for (size_t j = 0; j < _nrgens; j++)` that fills row `i` of `_left` when
`_wordlen > 1`. -/
def fillLeftLong {α H : Type} (p b i : Nat) : List Nat → Data α H → Except Fault (Data α H)
  | [], d => .ok d
  | j :: js, d =>
    match (do
      let l ← d.left.get p j
      let x ← d.right.get l b
      d.left.set i j x) with
    | .error e => .error e
    | .ok left => fillLeftLong p b i js { d with left := left }

/-- The loop `for (size_t j = 0; j < _nrgens; j++)` that fills row `i` of `_left` when
`_wordlen == 1`. -/
def fillLeftShort {α H : Type} (b i : Nat) : List Nat → Data α H → Except Fault (Data α H)
  | [], d => .ok d
  | j :: js, d =>
    match (do
      let g ← vecAt d.genslookup j
      let x ← d.right.get g b
      d.left.set i j x) with
    | .error e => .error e
    | .ok left => fillLeftShort b i js { d with left := left }

/-- The loop `for (size_t i = _lenindex.at(_wordlen); i < _pos; i++)` of the branch
`_wordlen > 1`. -/
def closeLong {α H : Type} : List Nat → Data α H → Except Fault (Data α H)
  | [], d => .ok d
  | i :: is, d =>
    match (do
      let p ← vecAt d.prefix_ i
      let b ← vecAt d.final i
      fillLeftLong p b i (List.range d.nrgens) d) with
    | .error e => .error e
    | .ok d1 => closeLong is d1

/-- The loop `for (size_t i = _lenindex.at(_wordlen); i < _pos; i++)` of the branch
`_wordlen == 1`. -/
def closeShort {α H : Type} : List Nat → Data α H → Except Fault (Data α H)
  | [], d => .ok d
  | i :: is, d =>
    match (do
      let b ← vecAt d.final i
      fillLeftShort b i (List.range d.nrgens) d) with
    | .error e => .error e
    | .ok d1 => closeShort is d1

/-- The condition `_pos > _nr || _pos == _lenindex.at(_wordlen + 1)` tested after the
inner loop. -/
def levelDone {α H : Type} (d : Data α H) : Except Fault Bool :=
  if d.pos > d.nr then .ok true
  else
    match vecAt d.lenindex (d.wordlen + 1) with
    | .error e => .error e
    | .ok bound => .ok (d.pos == bound)

/-- The statement `if (_pos > _nr || _pos == _lenindex.at(_wordlen + 1)) { ... }` that
follows the inner loop: the rows of `_left` of the level just finished are filled and
`_wordlen` is incremented. -/
def closeLevel {α H : Type} (d : Data α H) : Except Fault (Data α H) :=
  match levelDone d with
  | .error e => .error e
  | .ok false => .ok d
  | .ok true =>
    if d.wordlen > 1 then
      match vecAt d.lenindex d.wordlen with
      | .error e => .error e
      | .ok start =>
        match closeLong (List.range' start (d.pos - start)) d with
        | .error e => .error e
        | .ok d1 => .ok { d1 with wordlen := d1.wordlen + 1 }
    else if d.wordlen = 1 then
      match vecAt d.lenindex d.wordlen with
      | .error e => .error e
      | .ok start =>
        match closeShort (List.range' start (d.pos - start)) d with
        | .error e => .error e
        | .ok d1 => .ok { d1 with wordlen := d1.wordlen + 1 }
    else .ok { d with wordlen := d.wordlen + 1 }

/-- The loop `while (_pos < _nr && !stop)`, with an iteration budget (the same budget is
given to each run of the inner loop). -/
def enumOuter {α H : Type} [DecidableEq H] (ops : ElementOps α H) (limit : Nat) (fuel : Nat) :
    Nat → Data α H → Bool → Except Fault (Data α H)
  | 0, d, stop => if d.pos < d.nr && !stop then .error .outOfFuel else .ok d
  | k + 1, d, stop =>
    if d.pos < d.nr && !stop then
      match enumInner ops limit fuel d stop with
      | .error e => .error e
      | .ok (d1, stop1) =>
        match closeLevel d1 with
        | .error e => .error e
        | .ok d2 => enumOuter ops limit fuel k d2 stop1
    else .ok d

/-- The member function `enumerate (limit)`; `fuel` is the iteration budget of its `while`
loops. -/
def Data.enumerate {α H : Type} [DecidableEq H]
    (ops : ElementOps α H) (fuel : Nat) (d : Data α H) (limit : Nat) :
    Except Fault (Data α H) :=
  if d.pos > d.nr then .ok d else enumOuter ops limit fuel fuel d false

/-! ## The shape of an SCC record -/

/-- The shape of the record `(id, comps)` over the vertices `1..n`: `id` has `n` entries,
each the index of a component; component `k` is a non-empty list without repetition whose
members are exactly the vertices `x` with `id[x] = k`. -/
def ValidSCC (n : Nat) (r : SCCResult) : Prop :=
  r.id.length = n ∧
  (∀ v, 1 ≤ v → v ≤ n → 1 ≤ ELM_PLIST r.id v ∧ ELM_PLIST r.id v ≤ r.comps.length) ∧
  (∀ k, 1 ≤ k → k ≤ r.comps.length →
    (ELM_PLIST2 r.comps k).Nodup ∧ ELM_PLIST2 r.comps k ≠ [] ∧
    ∀ x, x ∈ ELM_PLIST2 r.comps k ↔ (1 ≤ x ∧ x ≤ n ∧ ELM_PLIST r.id x = k))

/-! ## GABOW_SCC: the graph and the invariants of the search -/

/-- The digraph has an edge from `u` to `v`: `v` is an entry of the adjacency list of `u`. -/
def Edge (digraph : List (List Nat)) (u v : Nat) : Prop :=
  v ∈ ELM_PLIST2 digraph u

/-- There is a directed path (possibly empty) from `u` to `v`. -/
def Reach (digraph : List (List Nat)) (u v : Nat) : Prop :=
  Relation.ReflTransGen (Edge digraph) u v

/-- The adjacency lists are those of a digraph on the vertices `1..n`, `n` the number of
lists: every entry lies in `1..n`. -/
def ValidDigraph (digraph : List (List Nat)) : Prop :=
  ∀ adj ∈ digraph, ∀ w ∈ adj, 1 ≤ w ∧ w ≤ digraph.length

/-- The entries of `id` at the vertices of `l` set to `c`. -/
def setAll (id : List Nat) (l : List Nat) (c : Nat) : List Nat :=
  l.foldl (fun id w => SET_ELM_PLIST id w c) id

/-- The structural invariant of the search at the top of `while (1)`: `id` classifies the
vertices (0: not yet seen; `1..end1`: position in `stack1`; above `n`: number of a finished
component), `comps` lists the finished components, `stack2` is an increasing sequence of
positions of frame vertices starting with position 1, and the frames lie on `stack1` in
the order of their positions. -/
structure GInv (g : List (List Nat)) (s : GabowState) : Prop where
  idlen : s.id.length = g.length
  st_pos : ∀ a v b, s.stack1 = a ++ v :: b →
    1 ≤ v ∧ v ≤ g.length ∧ ELM_PLIST s.id v = b.length + 1
  cls : ∀ v, 1 ≤ v → v ≤ g.length →
    ELM_PLIST s.id v = 0 ∨ v ∈ s.stack1 ∨
      (g.length < ELM_PLIST s.id v ∧ ELM_PLIST s.id v ≤ s.count)
  cnt : s.count = g.length + s.comps.length
  comps : ∀ k, 1 ≤ k → k ≤ s.comps.length →
    (ELM_PLIST2 s.comps k).Nodup ∧ ELM_PLIST2 s.comps k ≠ [] ∧
    ∀ x, x ∈ ELM_PLIST2 s.comps k ↔
      (1 ≤ x ∧ x ≤ g.length ∧ ELM_PLIST s.id x = g.length + k)
  b_sorted : s.stack2.Pairwise (· > ·)
  b_frame : ∀ b ∈ s.stack2, ∃ f ∈ s.frames, ELM_PLIST s.id f.v = b
  b_one : s.frames ≠ [] → 1 ∈ s.stack2
  f_stack : ∀ f ∈ s.frames, f.v ∈ s.stack1 ∧ f.adj = ELM_PLIST2 g f.v ∧ 1 ≤ f.idx
  f_sorted : s.frames.Pairwise (fun f f' => ELM_PLIST s.id f.v > ELM_PLIST s.id f'.v)

/-- The state after the pass that descends to the unvisited neighbour `w` of the top
frame `f`. -/
def pushedState (g : List (List Nat)) (s : GabowState) (f : Frame) (fs : List Frame)
    (w : Nat) : GabowState :=
  { s with
    frames := { v := w, idx := 1, adj := ELM_PLIST2 g w } :: { f with idx := f.idx + 1 } :: fs,
    stack1 := w :: s.stack1,
    stack2 := (s.stack1.length + 1) :: s.stack2,
    id := SET_ELM_PLIST s.id w (s.stack1.length + 1) }

/-- The state after the pass that meets a neighbour with id `idw`, not 0: the boundaries
above `idw` are gone. -/
def mergedState (s : GabowState) (f : Frame) (fs : List Frame) (idw : Nat) : GabowState :=
  { s with frames := { f with idx := f.idx + 1 } :: fs,
           stack2 := s.stack2.filter (fun b => decide (b ≤ idw)) }

/-- The state after the pass that leaves an exhausted frame whose vertex does not start a
component. -/
def returnedState (s : GabowState) (fs : List Frame) : GabowState :=
  { s with frames := fs }

/-- The state after the pass that leaves an exhausted frame whose vertex `root` starts a
component: `a` are the vertices above `root` in `stack1` and `rest` those below. -/
def poppedState (s : GabowState) (fs : List Frame) (a : List Nat) (root : Nat)
    (rest bs : List Nat) : GabowState :=
  { id := setAll s.id (a ++ [root]) (s.count + 1), stack1 := rest, stack2 := bs,
    frames := fs, count := s.count + 1, comps := s.comps ++ [(a ++ [root]).reverse] }

/-- The edge `u → w` has been examined: `u` is the vertex of a frame whose cursor has
passed `w`, or `u` has no frame (its frame was left) and `w` is any of its neighbours. -/
def Examined (g : List (List Nat)) (s : GabowState) (u w : Nat) : Prop :=
  (∃ f ∈ s.frames, f.v = u ∧ w ∈ f.adj.take (f.idx - 1)) ∨
  ((∀ f ∈ s.frames, f.v ≠ u) ∧ w ∈ ELM_PLIST2 g u)

/-- No boundary of `stack2` lies strictly above position `p` and at or below position `q`:
the positions `p ≤ q` belong to the same tentative component. -/
def SameSegment (s : GabowState) (p q : Nat) : Prop :=
  ∀ b ∈ s.stack2, ¬ (p < b ∧ b ≤ q)

/-- The semantic invariant of the search: examined edges from `stack1` lead to finished
vertices or to a vertex on `stack1` that is not in an earlier tentative component; the
finished vertices are closed under edges and their ids are exactly their strongly connected
components; along `stack1` every vertex reaches the ones above it, and within a tentative
component also the ones below. -/
structure GSem (g : List (List Nat)) (s : GabowState) : Prop where
  ex : ∀ u ∈ s.stack1, ∀ w, Examined g s u w →
    g.length < ELM_PLIST s.id w ∨
      (w ∈ s.stack1 ∧ SameSegment s (ELM_PLIST s.id w) (ELM_PLIST s.id u))
  fin_closed : ∀ x, 1 ≤ x → x ≤ g.length → g.length < ELM_PLIST s.id x →
    ∀ w ∈ ELM_PLIST2 g x, g.length < ELM_PLIST s.id w
  fin_scc : ∀ x y, 1 ≤ x → x ≤ g.length → 1 ≤ y → y ≤ g.length →
    g.length < ELM_PLIST s.id x →
    (ELM_PLIST s.id x = ELM_PLIST s.id y ↔ Reach g x y ∧ Reach g y x)
  fwd : ∀ u ∈ s.stack1, ∀ w ∈ s.stack1, ELM_PLIST s.id u ≤ ELM_PLIST s.id w → Reach g u w
  bwd : ∀ u ∈ s.stack1, ∀ w ∈ s.stack1, ELM_PLIST s.id u ≤ ELM_PLIST s.id w →
    SameSegment s (ELM_PLIST s.id u) (ELM_PLIST s.id w) → Reach g w u

/-! ## GABOW_SCC: the measure of the search -/

/-- Passes still owed to a frame: one per adjacency entry at or after its cursor, and one
to leave it. -/
def frameWeight (f : Frame) : Nat := f.adj.length + 1 - f.idx + 1

/-- Passes still owed to the vertices not yet seen. -/
def unvisitedWeight (g : List (List Nat)) (id : List Nat) : Nat :=
  ((List.range' 1 g.length).map
    (fun v => if ELM_PLIST id v = 0 then (ELM_PLIST2 g v).length + 1 else 0)).sum

/-- Upper bound on the number of passes of `while (1)` still to come. -/
def gabowMeasure (g : List (List Nat)) (s : GabowState) : Nat :=
  (s.frames.map frameWeight).sum + unvisitedWeight g s.id

/-- The state between two roots: the invariants hold and the stacks are empty. -/
structure RootInv (g : List (List Nat)) (s : GabowState) : Prop where
  inv : GInv g s
  sem : GSem g s
  frames : s.frames = []
  stack1 : s.stack1 = []
  stack2 : s.stack2 = []

/-- The digraph `[[2,3],[1],[2]]` with the edges 1→2, 1→3, 2→1 and 3→2. -/
def triangle : List (List Nat) := [[2, 3], [1], [2]]

/-! ## Counting vertices by component -/

/-- Number of vertices among `1..t` whose entry in `rid` is `k`. -/
def cnt (rid : List Nat) (t k : Nat) : Nat :=
  (List.range' 1 t).countP (fun v => decide (ELM_PLIST rid v = k))

/-- First position of bucket `k` in `sorted`: one more than the number of vertices among
`1..n` whose entry in `rid` is smaller than `k`. -/
def start (rid : List Nat) (n k : Nat) : Nat :=
  1 + (List.range' 1 n).countP (fun v => decide (ELM_PLIST rid v < k))

/-- What the bucket sort has established after the vertices `1..c`. -/
def BucketInv (r : SCCResult) (n c : Nat) (b : HBuf) : Prop :=
  b.nextpos.length = r.comps.length ∧ b.sorted.length = n ∧ b.lookup = List.replicate n 0 ∧
  (∀ k, 1 ≤ k → k ≤ r.comps.length → ELM_PLIST b.nextpos k = start r.id n k + cnt r.id c k) ∧
  (∀ v, 1 ≤ v → v ≤ c → ∃ p, start r.id n (ELM_PLIST r.id v) ≤ p ∧
      p < ELM_PLIST b.nextpos (ELM_PLIST r.id v) ∧ ELM_PLIST b.sorted p = v)

/-- The properties of `sorted` that the second loop of `FIND_HCLASSES` relies on. -/
structure SortedSpec (rid : List Nat) (n : Nat) (sorted : List Nat) : Prop where
  perm : sorted.Perm (List.range' 1 n)
  mono : sorted.Pairwise (fun u w => ELM_PLIST rid u ≤ ELM_PLIST rid w)

/-- What the second loop of `FIND_HCLASSES` has established after the vertices of the
list `P` (a prefix of `sorted`). -/
structure ScanInv (rid lid : List Nat) (n : Nat) (P : List Nat) (s : HState) : Prop where
  hlen : s.hindex = s.comps.length
  idlen : s.id.length = n
  lklen : s.lookup.length = n
  init_le : s.init ≤ s.hindex
  same : ∀ u ∈ P, ∀ v ∈ P, (ELM_PLIST s.id u = ELM_PLIST s.id v ↔
    ELM_PLIST rid u = ELM_PLIST rid v ∧ ELM_PLIST lid u = ELM_PLIST lid v)
  idrange : ∀ v ∈ P, 1 ≤ ELM_PLIST s.id v ∧ ELM_PLIST s.id v ≤ s.hindex
  comps : ∀ c, 1 ≤ c → c ≤ s.hindex →
    ELM_PLIST2 s.comps c = P.filter (fun v => decide (ELM_PLIST s.id v = c))
  surj : ∀ c, 1 ≤ c → c ≤ s.hindex → ∃ v ∈ P, ELM_PLIST s.id v = c
  lk_ge : ∀ v ∈ P, ELM_PLIST s.id v ≤ ELM_PLIST s.lookup (ELM_PLIST lid v)
  lk_src : ∀ l, ELM_PLIST s.lookup l = 0 ∨
    ∃ w ∈ P, ELM_PLIST lid w = l ∧ ELM_PLIST s.id w = ELM_PLIST s.lookup l
  cur : ∀ v ∈ P, (s.init < ELM_PLIST s.id v ↔ ELM_PLIST rid v = s.rindex)
  rmax : ∀ v ∈ P, ELM_PLIST rid v ≤ s.rindex
  rsrc : s.rindex = 0 ∨ ∃ v ∈ P, ELM_PLIST rid v = s.rindex

/-! ## Chains and bridges of two partitions -/

/-- The relation computed by `SCC_UNION_LEFT_RIGHT_CAYLEY_GRAPHS`: some vertex `x` shares
its `scc1` component with `u` and its `scc2` component with `v`. -/
def Bridged (n : Nat) (scc1 scc2 : SCCResult) (u v : Nat) : Prop :=
  ∃ x, 1 ≤ x ∧ x ≤ n ∧ ELM_PLIST scc1.id u = ELM_PLIST scc1.id x ∧
    ELM_PLIST scc2.id x = ELM_PLIST scc2.id v

/-- The two partitions commute: whenever `u` shares an `scc1` component with some `x` that
shares an `scc2` component with `v`, then `u` shares an `scc2` component with some `y` that
shares an `scc1` component with `v`. -/
def Commuting (n : Nat) (scc1 scc2 : SCCResult) : Prop :=
  ∀ u x v, 1 ≤ u → u ≤ n → 1 ≤ x → x ≤ n → 1 ≤ v → v ≤ n →
    ELM_PLIST scc1.id u = ELM_PLIST scc1.id x → ELM_PLIST scc2.id x = ELM_PLIST scc2.id v →
    ∃ y, 1 ≤ y ∧ y ≤ n ∧ ELM_PLIST scc2.id u = ELM_PLIST scc2.id y ∧
      ELM_PLIST scc1.id y = ELM_PLIST scc1.id v

/-- What the loop over `comp1` has established after the vertices of the list `Y` (a prefix
of `comp1`), relative to the state `s` in which the loop was entered. -/
structure VisitInv (n : Nat) (scc2 : SCCResult) (s : UnionState) (Y : List Nat)
    (s1 : UnionState) : Prop where
  nr : s1.nr = s.nr + 1
  comps : s1.comps = s.comps
  idlen : s1.id.length = n
  seenlen : s1.seen.length = s.seen.length
  id_new : ∀ v, 1 ≤ v → v ≤ n → (∃ y ∈ Y, ELM_PLIST scc2.id y = ELM_PLIST scc2.id v) →
    ELM_PLIST s1.id v = s.nr + 1
  id_old : ∀ v, 1 ≤ v → v ≤ n → (¬ ∃ y ∈ Y, ELM_PLIST scc2.id y = ELM_PLIST scc2.id v) →
    ELM_PLIST s1.id v = ELM_PLIST s.id v
  seen_iff : ∀ k, s1.seen.getD k 0 ≠ 0 ↔
    (s.seen.getD k 0 ≠ 0 ∨ ∃ y ∈ Y, ELM_PLIST scc2.id y = k)
  newcomp : ∀ x, x ∈ s1.new_comp ↔
    (1 ≤ x ∧ x ≤ n ∧ ∃ y ∈ Y, ELM_PLIST scc2.id y = ELM_PLIST scc2.id x)

/-- What the loop over the components of `scc1` has established after its first `t`
components. -/
structure UnionInv (n : Nat) (scc1 scc2 : SCCResult) (t : Nat) (s : UnionState) : Prop where
  nr_eq : s.nr = s.comps.length
  idlen : s.id.length = n
  seenlen : s.seen.length = scc2.comps.length + 1
  id_le : ∀ v, 1 ≤ v → v ≤ n → ELM_PLIST s.id v ≤ s.nr
  same : ∀ u v, 1 ≤ u → u ≤ n → 1 ≤ v → v ≤ n → ELM_PLIST s.id u ≠ 0 →
    (ELM_PLIST s.id u = ELM_PLIST s.id v ↔ Bridged n scc1 scc2 u v)
  seen_iff : ∀ k, 1 ≤ k → k ≤ scc2.comps.length →
    (s.seen.getD k 0 ≠ 0 ↔
      ∃ v, 1 ≤ v ∧ v ≤ n ∧ ELM_PLIST scc2.id v = k ∧ ELM_PLIST s.id v ≠ 0)
  done : ∀ v, 1 ≤ v → v ≤ n → ELM_PLIST scc1.id v ≤ t → ELM_PLIST s.id v ≠ 0
  comps : ∀ c, 1 ≤ c → c ≤ s.nr → ∀ x, x ∈ ELM_PLIST2 s.comps c ↔
    (1 ≤ x ∧ x ≤ n ∧ ELM_PLIST s.id x = c)

/-- A terminating test for `ValidSCC`, used to establish it for concrete records. -/
def checkSCC (n : Nat) (r : SCCResult) : Bool :=
  decide (r.id.length = n) &&
  (List.range' 1 n).all (fun v =>
    decide (1 ≤ ELM_PLIST r.id v) && decide (ELM_PLIST r.id v ≤ r.comps.length)) &&
  (List.range' 1 r.comps.length).all (fun k =>
    decide (ELM_PLIST2 r.comps k).Nodup && !(ELM_PLIST2 r.comps k).isEmpty &&
    (ELM_PLIST2 r.comps k).all (fun x =>
      decide (1 ≤ x) && decide (x ≤ n) && decide (ELM_PLIST r.id x = k)) &&
    (List.range' 1 n).all (fun x =>
      decide (ELM_PLIST r.id x = k → x ∈ ELM_PLIST2 r.comps k)))

/-- A terminating test for `Commuting`, used to establish it for concrete records. -/
def checkCommuting (n : Nat) (scc1 scc2 : SCCResult) : Bool :=
  (List.range' 1 n).all (fun u => (List.range' 1 n).all (fun x => (List.range' 1 n).all (fun v =>
    !(decide (ELM_PLIST scc1.id u = ELM_PLIST scc1.id x) &&
      decide (ELM_PLIST scc2.id x = ELM_PLIST scc2.id v)) ||
    (List.range' 1 n).any (fun y =>
      decide (ELM_PLIST scc2.id u = ELM_PLIST scc2.id y) &&
      decide (ELM_PLIST scc1.id y = ELM_PLIST scc1.id v)))))

/-- The partition `{1,2}, {3,4}` of four vertices. -/
def rowsSCC : SCCResult := { id := [1, 1, 2, 2], comps := [[1, 2], [3, 4]] }

/-- The partition `{1,3}, {2,4}` of four vertices. -/
def colsSCC : SCCResult := { id := [1, 2, 1, 2], comps := [[1, 3], [2, 4]] }

/-- The part of the state that the hash-index invariant and the stopping rule read. -/
structure Core (α H : Type) where
  elements : List α
  map : List (H × Nat)
  nr : Nat

/-- Projection of a state on its `Core`. -/
def Data.core {α H : Type} (d : Data α H) : Core α H := ⟨d.elements, d.map, d.nr⟩

/-- The only change `enumerate` makes to the core: a product whose hash is not in the map
is appended at position `nr`. -/
def Core.push {α H : Type} (ops : ElementOps α H) (c : Core α H) (tmp : α) : Core α H :=
  ⟨c.elements ++ [tmp], mapInsert c.map (ops.hash tmp) c.nr, c.nr + 1⟩

/-- A predicate on (core, stop) that survives every append of a product with a new hash. -/
def PushStable {α H : Type} [DecidableEq H] (ops : ElementOps α H) (limit : Nat)
    (P : Core α H → Bool → Prop) : Prop :=
  ∀ c stop tmp, P c stop → mapFind c.map (ops.hash tmp) = none →
    P (c.push ops tmp) (decide (c.nr + 1 ≥ limit))

/-- The cyclic group of order 3, written additively on `0, 1, 2`; an element is its own
hash value. -/
def cyclic3 : ElementOps Nat Nat :=
  { mul := fun a b => (a + b) % 3, hash := fun a => a, degree := fun _ => 3 }

/-- Invariant 1 of the enumeration state: `elements` has `nr` entries, no two of them
equal, the hash map sends the hash of the element at position `i` to `i`, and every key of
the map is the hash of the element stored at the position the map gives. -/
def HashIndexed {α H : Type} [DecidableEq H] (ops : ElementOps α H) (d : Data α H) : Prop :=
  d.elements.length = d.nr ∧
  (∀ (i j : Nat) (x : α), d.elements[i]? = some x → d.elements[j]? = some x → i = j) ∧
  (∀ (i : Nat) (x : α), d.elements[i]? = some x → mapFind d.map (ops.hash x) = some i) ∧
  (∀ h p, mapFind d.map h = some p → ∃ x, d.elements[p]? = some x ∧ ops.hash x = h)

/-- The part of `HashIndexed` from which the rest follows, on the core of a state. -/
def Core.Indexed {α H : Type} [DecidableEq H] (ops : ElementOps α H) (c : Core α H) : Prop :=
  c.elements.length = c.nr ∧
  (∀ (i : Nat) (x : α), c.elements[i]? = some x → mapFind c.map (ops.hash x) = some i) ∧
  (∀ h p, mapFind c.map h = some p → ∃ x, c.elements[p]? = some x ∧ ops.hash x = h)

/-! ## The state the constructor leaves -/

/-- The shape of the state while the constructor adds the generators, once the first one is
in: `first`, `final`, `prefix_` and `suffix` all hold, for the element at position `p`, one
more than the index of the generator it came from, and the three tables hold only their
default entry. -/
structure Seeded {α H : Type} (d : Data α H) : Prop where
  nrgens_eq : d.nrgens = d.gens.length
  first_eq : d.first = d.suffix
  final_eq : d.final = d.suffix
  prefix_eq : d.prefix_ = d.suffix
  nr_eq : d.nr = d.suffix.length
  right_eq : d.right = ⟨d.nrgens, 0, List.replicate d.nr (List.replicate d.nrgens 0)⟩
  left_eq : d.left = ⟨d.nrgens, 0, List.replicate d.nr (List.replicate d.nrgens 0)⟩
  reduced_eq :
    d.reduced = ⟨d.nrgens, false, List.replicate d.nr (List.replicate d.nrgens false)⟩
  head : d.suffix[0]? = some 1
  lower : ∀ (p x : Nat), d.suffix[p]? = some x → p + 1 ≤ x
  upper : ∀ (p x : Nat), d.suffix[p]? = some x → x ≤ d.nrgens
  wordlen_eq : d.wordlen = 0

/-- The state of the generator `1` of `cyclic3` in the form `enumerate` expects of a
generator: as built by `Data.new cyclic3 [1]`, but with `0` (no suffix, no prefix) in
`suffix` and `prefix_`. -/
def cyclicSeed : Data Nat Nat :=
  { degree := 3, elements := [1], final := [1], first := [1], found_one := false,
    gens := [1], genslookup := [0], left := ⟨1, 0, [[0]]⟩, lenindex := [0, 1],
    map := [(1, 0)], nr := 1, nrgens := 1, nrrules := 0, pos := 0, pos_one := 0,
    prefix_ := [0], reduced := ⟨1, false, [[false]]⟩, right := ⟨1, 0, [[0]]⟩, rules := [],
    schreiergen := [0], schreierpos := [0], suffix := [0], undefined := 2, wordlen := 0 }

/-- The same for the generator `0` of `cyclic3`, which generates a one-element semigroup. -/
def trivialSeed : Data Nat Nat :=
  { cyclicSeed with elements := [0], gens := [0], map := [(0, 0)] }

/-! ## The constructor, generator by generator -/

/-- Generator `g` repeats an earlier one: its hash value is the hash value of some
`gens[k]` with `k < g`. -/
def seenBefore {α H : Type} [DecidableEq H] (ops : ElementOps α H) (gens : List α)
    (g : Nat) : Bool :=
  match gens[g]? with
  | none => false
  | some x => decide (ops.hash x ∈ (gens.take g).map ops.hash)

/-- The indices below `i` of the generators that do not repeat an earlier one, in order. -/
def freshGens {α H : Type} [DecidableEq H] (ops : ElementOps α H) (gens : List α)
    (i : Nat) : List Nat :=
  (List.range i).filter (fun g => !seenBefore ops gens g)

/-- The indices below `i` of the generators that repeat an earlier one, in order. -/
def dupGens {α H : Type} [DecidableEq H] (ops : ElementOps α H) (gens : List α)
    (i : Nat) : List Nat :=
  (List.range i).filter (fun g => seenBefore ops gens g)

/-- The state of the constructor after the generators with index below `i` have been
handled. -/
structure CtorInv {α H : Type} [DecidableEq H] (ops : ElementOps α H) (gens : List α)
    (i : Nat) (d : Data α H) : Prop where
  gens_eq : d.gens = gens
  nrgens_eq : d.nrgens = gens.length
  undefined_eq : d.undefined = gens.length + 1
  lookup_len : d.genslookup.length = gens.length
  schreiergen_eq : d.schreiergen = freshGens ops gens i
  nr_eq : d.nr = (freshGens ops gens i).length
  first_eq : d.first = (freshGens ops gens i).map (fun g => g + 1)
  final_eq : d.final = (freshGens ops gens i).map (fun g => g + 1)
  prefix_eq : d.prefix_ = (freshGens ops gens i).map (fun g => g + 1)
  suffix_eq : d.suffix = (freshGens ops gens i).map (fun g => g + 1)
  schreierpos_eq : d.schreierpos = (freshGens ops gens i).map (fun _ => 0)
  elements_eq : d.elements.map some = (freshGens ops gens i).map (fun g => gens[g]?)
  keys : ∀ h, mapFind d.map h ≠ none ↔ h ∈ (gens.take i).map ops.hash
  indexed : d.core.Indexed ops
  nrrules_eq : d.nrrules = d.rules.length
  rules_len : d.rules.length = (dupGens ops gens i).length
  rules_at : ∀ (m g : Nat), (dupGens ops gens i)[m]? = some g →
    ∃ x p, gens[g]? = some x ∧ mapFind d.map (ops.hash x) = some p ∧
      d.rules[m]? = some [gens.length + 1, g, p] ∧ d.genslookup[g]? = some p
  lookup_fresh : ∀ g, g < i → seenBefore ops gens g = false →
    d.genslookup[g]? = some (freshGens ops gens g).length
  right_eq : d.right = ⟨gens.length, 0, List.replicate d.nr (List.replicate gens.length 0)⟩
  left_eq : d.left = ⟨gens.length, 0, List.replicate d.nr (List.replicate gens.length 0)⟩
  reduced_eq :
    d.reduced = ⟨gens.length, false, List.replicate d.nr (List.replicate gens.length false)⟩
  found_one_eq : d.found_one = false
  pos_one_eq : d.pos_one = 0
  pos_eq : d.pos = 0
  wordlen_eq : d.wordlen = 0

/-- Element operations in which the degree of an element is its value: the generators
`1` and `2` have different degrees. -/
def mixedDegree : ElementOps Nat Nat :=
  { mul := fun a b => (a + b) % 3, hash := fun a => a, degree := fun a => a }

/-- The state of the generators `1, 2` of `cyclic3` in the form `enumerate` expects of
generators: as built by `Data.new cyclic3 [1, 2]`, but with `0` in `suffix` and
`prefix_`. -/
def pairSeed : Data Nat Nat :=
  { degree := 3, elements := [1, 2], final := [1, 2], first := [1, 2], found_one := false,
    gens := [1, 2], genslookup := [0, 1], left := ⟨2, 0, [[0, 0], [0, 0]]⟩,
    lenindex := [0, 2], map := [(1, 0), (2, 1)], nr := 2, nrgens := 2, nrrules := 0,
    pos := 0, pos_one := 0, prefix_ := [0, 0],
    reduced := ⟨2, false, [[false, false], [false, false]]⟩,
    right := ⟨2, 0, [[0, 0], [0, 0]]⟩, rules := [], schreiergen := [0, 1],
    schreierpos := [0, 0], suffix := [0, 0], undefined := 3, wordlen := 0 }

/-- The state in which `enumerate` with a limit above 2 finds itself after it has applied
the generator to position 0 of `cyclicSeed` and closed the first level: the element `2` is
stored at position 1, `lenindex` is `[0, 1, 0]` and `wordlen` is 1. -/
def cyclicStuck : Data Nat Nat :=
  { degree := 3, elements := [1, 2], final := [1, 1], first := [1, 1], found_one := false,
    gens := [1], genslookup := [0], left := ⟨1, 0, [[0], [0]]⟩, lenindex := [0, 1, 0],
    map := [(1, 0), (2, 1)], nr := 2, nrgens := 1, nrrules := 0, pos := 1, pos_one := 0,
    prefix_ := [0, 1], reduced := ⟨1, false, [[true], [false]]⟩, right := ⟨1, 0, [[1], [0]]⟩,
    rules := [], schreiergen := [0, 0], schreierpos := [0, 1], suffix := [0, 0],
    undefined := 2, wordlen := 1 }

/-- Entry `(i, j)` of a table exists. -/
def RecVec.Defined {T : Type} (t : RecVec T) (i j : Nat) : Prop :=
  ∃ v, t.get i j = .ok v

/-- The reduced entries of a state while generator `j` is about to be applied at position
`pos`: an entry `reduced[i][g]` that is `true` belongs to a pair already handled
(`i < pos`, or `i = pos` and `g < j`), and the element `right[i][g]` has the Schreier
entries `schreierpos = i + 1` and `schreiergen = g`. Rows added to `reduced` hold `false`,
and the Schreier arrays have `nr` entries. -/
structure TreeAt {α H : Type} (j : Nat) (d : Data α H) : Prop where
  dflt : d.reduced.dflt = false
  pos_len : d.schreierpos.length = d.nr
  gen_len : d.schreiergen.length = d.nr
  tree : ∀ (i g : Nat), d.reduced.get i g = .ok true →
    (i < d.pos ∨ (i = d.pos ∧ g < j)) ∧
    ∃ r, d.right.get i g = .ok r ∧ d.schreierpos[r]? = some (i + 1) ∧
      d.schreiergen[r]? = some g

/-- The reduced entries of a state between two passes of the loop body. -/
def SchreierTree {α H : Type} (d : Data α H) : Prop := TreeAt 0 d

/-- The rules of a state from index `k` on, while generator `j` of `n` is about to be
applied at position `pos`: each is a triple `[i, g, r]` of a pair already handled (`i < pos`,
or `i = pos` and `g < j`) with `g < n`, `reduced[i][g]` false and `right[i][g] = r`, and no
two of them share `i` and `g`. The tables `right` and `reduced` have the same entries, those
of `reduced` that are `true` belong to pairs already handled, and new rows hold `false`. -/
structure RulesAt {α H : Type} (k n j : Nat) (d : Data α H) : Prop where
  dflt : d.reduced.dflt = false
  nrgens_eq : d.nrgens = n
  cols : d.right.nrcols = d.reduced.nrcols
  rows_len : d.right.rows.length = d.reduced.rows.length
  shape : ∀ (i g : Nat), d.right.Defined i g ↔ d.reduced.Defined i g
  k_le : k ≤ d.rules.length
  handled : ∀ (i g : Nat), d.reduced.get i g = .ok true → i < d.pos ∨ (i = d.pos ∧ g < j)
  rule : ∀ (m : Nat) (t : List Nat), k ≤ m → d.rules[m]? = some t →
    ∃ i g r, t = [i, g, r] ∧ (i < d.pos ∨ (i = d.pos ∧ g < j)) ∧ g < n ∧
      d.reduced.get i g = .ok false ∧ d.right.get i g = .ok r
  distinct : ∀ (m m1 i g r r1 : Nat), k ≤ m → k ≤ m1 → d.rules[m]? = some [i, g, r] →
    d.rules[m1]? = some [i, g, r1] → m = m1

/-- The rules of a state from index `k` on, between two passes of the loop body. -/
def RulesFrom {α H : Type} (k : Nat) (d : Data α H) : Prop := RulesAt k d.nrgens 0 d

/-- The states of the search of `GABOW_SCC` on `digraph`: the state before the first root,
the state at the top of `while (1)` after the push of a root `v` with `id[v] = 0` from a
state between two roots (no frame), and the state after one pass of the body of
`while (1)`. A state with a frame is at the top of `while (1)`; a state without one is
between two roots. -/
inductive Visits (digraph : List (List Nat)) : GabowState → Prop
  | start : Visits digraph
      { id := List.replicate digraph.length 0, stack1 := [], stack2 := [], frames := [],
        count := digraph.length, comps := [] }
  | root (s : GabowState) (v : Nat) : Visits digraph s → s.frames = [] → 1 ≤ v →
      v ≤ digraph.length → ELM_PLIST s.id v = 0 → Visits digraph (gabowPush digraph s v)
  | step (s s1 : GabowState) (brk : Bool) : Visits digraph s →
      gabowStep digraph s = .ok (s1, brk) → Visits digraph s1

/-- In a finished vertex's adjacency list every vertex has an id that is at most the id of
the vertex: the component of a neighbour was finished no later. -/
def FinOrder (g : List (List Nat)) (s : GabowState) : Prop :=
  ∀ x w, 1 ≤ x → x ≤ g.length → w ∈ ELM_PLIST2 g x → g.length < ELM_PLIST s.id x →
    ELM_PLIST s.id w ≤ ELM_PLIST s.id x

/-- The rules of a state record products found in the hash map: the state is hash-indexed,
and every rule is a triple `[i, g, j]` such that, unless `i` is `undefined`, `j` is a
position of `elements` and the element there has the hash value of the product of the
element at position `i` and generator `g`. -/
def RulesSound {α H : Type} [DecidableEq H] (ops : ElementOps α H) (d : Data α H) : Prop :=
  d.core.Indexed ops ∧
  ∀ t ∈ d.rules, ∃ i g j, t = [i, g, j] ∧
    (i ≠ d.undefined → j < d.nr ∧
      ∃ x y z, d.elements[i]? = some x ∧ d.gens[g]? = some y ∧ d.elements[j]? = some z ∧
        ops.hash z = ops.hash (ops.mul x y))

/-! ## Pausing and resuming: the limit decides only when a call stops -/

/-- The states a call `enumerate (limit)` on the state `d0` passes through: `d0`, the state
after each pass of the inner loop body and the state after each level-closing step. -/
inductive Passes {α H : Type} [DecidableEq H] (ops : ElementOps α H) (limit : Nat)
    (d0 : Data α H) : Data α H → Prop
  | start : Passes ops limit d0 d0
  | pass (e e1 : Data α H) (stop stop1 : Bool) : Passes ops limit d0 e →
      processPos ops limit e stop = .ok (e1, stop1) → Passes ops limit d0 e1
  | close (e e1 : Data α H) : Passes ops limit d0 e → closeLevel e = .ok e1 →
      Passes ops limit d0 e1

/-! # Theorems -/

/-! ## Plain lists: reads after writes -/

theorem length_SET_ELM_PLIST (l : List Nat) (i v : Nat) :
    (SET_ELM_PLIST l i v).length = l.length := by
  cases i with
  | zero => rfl
  | succ k => simp [SET_ELM_PLIST]

theorem ELM_SET_same (l : List Nat) (i v : Nat) (h1 : 1 ≤ i) (h2 : i ≤ l.length) :
    ELM_PLIST (SET_ELM_PLIST l i v) i = v := by
  cases i with
  | zero => omega
  | succ k =>
    simp only [ELM_PLIST, SET_ELM_PLIST, List.getD_eq_getElem?_getD]
    rw [List.getElem?_set_self (by omega)]
    rfl

theorem ELM_SET_other (l : List Nat) (i j v : Nat) (h : j ≠ i) :
    ELM_PLIST (SET_ELM_PLIST l i v) j = ELM_PLIST l j := by
  cases i with
  | zero => rfl
  | succ k =>
    cases j with
    | zero => rfl
    | succ m =>
      simp only [ELM_PLIST, SET_ELM_PLIST, List.getD_eq_getElem?_getD]
      rw [List.getElem?_set_ne (by omega)]

theorem ELM_SET (l : List Nat) (i j v : Nat) (h1 : 1 ≤ i) (h2 : i ≤ l.length) :
    ELM_PLIST (SET_ELM_PLIST l i v) j = if j = i then v else ELM_PLIST l j := by
  split
  · rename_i h; rw [h]; exact ELM_SET_same l i v h1 h2
  · rename_i h; exact ELM_SET_other l i j v h

theorem ELM_replicate (n i : Nat) : ELM_PLIST (List.replicate n 0) i = 0 := by
  cases i with
  | zero => rfl
  | succ k =>
    simp only [ELM_PLIST, List.getD_eq_getElem?_getD]
    by_cases h : k < n
    · simp [List.getElem?_replicate, h]
    · simp [List.getElem?_replicate, h]

theorem ELM_PLIST_zero (l : List Nat) : ELM_PLIST l 0 = 0 := rfl

theorem ELM_PLIST_of_gt (l : List Nat) (i : Nat) (h : l.length < i) : ELM_PLIST l i = 0 := by
  cases i with
  | zero => rfl
  | succ k =>
    simp only [ELM_PLIST, List.getD_eq_getElem?_getD]
    rw [List.getElem?_eq_none (by omega)]
    rfl

theorem ELM_PLIST2_append_left (l : List (List Nat)) (c : List Nat) (i : Nat)
    (h : i ≤ l.length) : ELM_PLIST2 (l ++ [c]) i = ELM_PLIST2 l i := by
  cases i with
  | zero => rfl
  | succ k =>
    simp only [ELM_PLIST2, List.getD_eq_getElem?_getD]
    rw [List.getElem?_append_left (by omega)]

theorem ELM_PLIST2_append_last (l : List (List Nat)) (c : List Nat) :
    ELM_PLIST2 (l ++ [c]) (l.length + 1) = c := by
  simp [ELM_PLIST2, List.getD_eq_getElem?_getD]

theorem ELM_PLIST_eq_getElem (l : List Nat) (p : Nat) (h : p < l.length) :
    ELM_PLIST l (p + 1) = l[p] := by
  simp [ELM_PLIST, List.getD_eq_getElem?_getD, List.getElem?_eq_getElem h]

theorem ELM_PLIST_mem (l : List Nat) (p : Nat) (h1 : 1 ≤ p) (h2 : p ≤ l.length) :
    ELM_PLIST l p ∈ l := by
  obtain ⟨q, rfl⟩ : ∃ q, p = q + 1 := ⟨p - 1, by omega⟩
  rw [ELM_PLIST_eq_getElem l q (by omega)]
  exact List.getElem_mem _

theorem validSCC_nil : ValidSCC 0 { id := [], comps := [] } := by
  refine ⟨rfl, ?_, ?_⟩
  · intro v v1 v2; omega
  · intro k k1 k2; simp at k2; omega

theorem ValidSCC.comps_length_le {n : Nat} {r : SCCResult} (h : ValidSCC n r) :
    r.comps.length ≤ n := by
  obtain ⟨-, h2, h3⟩ := h
  have hs : Set.SurjOn (ELM_PLIST r.id) (Finset.Icc 1 n : Finset Nat)
      (Finset.Icc 1 r.comps.length : Finset Nat) := by
    intro k hk
    simp only [Finset.coe_Icc, Set.mem_Icc] at hk
    obtain ⟨hn, hne, hx⟩ := h3 k hk.1 hk.2
    obtain ⟨x, hxm⟩ := List.exists_mem_of_ne_nil _ hne
    obtain ⟨a, b, c⟩ := (hx x).1 hxm
    exact ⟨x, by simp [a, b], c⟩
  have := Finset.card_le_card_of_surjOn _ hs
  simpa using this

/-! ## GABOW_SCC: popping a component and its boundaries -/

theorem setAll_length (id l : List Nat) (c : Nat) : (setAll id l c).length = id.length := by
  induction l generalizing id with
  | nil => rfl
  | cons w l ih => simp [setAll, List.foldl_cons] at ih ⊢; rw [ih, length_SET_ELM_PLIST]

theorem ELM_setAll (id l : List Nat) (c v : Nat)
    (hl : ∀ w ∈ l, 1 ≤ w ∧ w ≤ id.length) :
    ELM_PLIST (setAll id l c) v = if v ∈ l then c else ELM_PLIST id v := by
  induction l generalizing id with
  | nil => simp [setAll]
  | cons w l ih =>
    have hw := hl w (List.mem_cons_self _ _)
    have := ih (SET_ELM_PLIST id w c) (by
      intro x hx
      rw [length_SET_ELM_PLIST]
      exact hl x (List.mem_cons_of_mem _ hx))
    simp only [setAll, List.foldl_cons] at this ⊢
    rw [this]
    by_cases hv : v ∈ l
    · simp [hv]
    · simp only [hv, if_false, List.mem_cons, or_false]
      rw [ELM_SET _ _ _ _ hw.1 hw.2]

theorem popComponent_spec (root count : Nat) (a b : List Nat) (hroot : root ∉ a) :
    ∀ (id comp : List Nat), popComponent root count (a ++ root :: b) id comp =
      .ok (b, setAll id (a ++ [root]) count, (a ++ [root]).reverse ++ comp) := by
  induction a with
  | nil =>
    intro id comp
    simp [popComponent, setAll]
  | cons w a ih =>
    intro id comp
    have hw : w ≠ root := fun e => hroot (by simp [e])
    have hr : root ∉ a := fun e => hroot (by simp [e])
    simp only [List.cons_append, popComponent, hw, if_false]
    have := ih hr (SET_ELM_PLIST id w count) (w :: comp)
    simp only [List.append_eq] at this ⊢
    rw [this]
    simp [setAll]

theorem popBoundaries_spec (idw : Nat) (l : List Nat) (hs : l.Pairwise (· > ·))
    (hex : ∃ b ∈ l, b ≤ idw) :
    popBoundaries idw l = .ok (l.filter (fun b => decide (b ≤ idw))) := by
  induction l with
  | nil => obtain ⟨b, hb, -⟩ := hex; simp at hb
  | cons c l ih =>
    rw [List.pairwise_cons] at hs
    simp only [popBoundaries]
    split
    · rename_i hgt
      have : ∃ b ∈ l, b ≤ idw := by
        obtain ⟨b, hb, hle⟩ := hex
        simp only [List.mem_cons] at hb
        rcases hb with rfl | hb
        · omega
        · exact ⟨b, hb, hle⟩
      rw [ih hs.2 this, List.filter_cons]
      have : ¬ c ≤ idw := by omega
      simp [this]
    · rename_i hle
      have hle : c ≤ idw := by omega
      congr 1
      rw [List.filter_cons]
      simp only [hle, decide_True, if_true]
      congr 1
      symm
      rw [List.filter_eq_self]
      intro b hb
      have := hs.1 b hb
      simp; omega

/-! ## GABOW_SCC: the structural invariant -/

theorem nodup_of_positions (p : Nat → Nat) :
    ∀ (l : List Nat), (∀ a v b, l = a ++ v :: b → p v = b.length + 1) → l.Nodup := by
  intro l
  induction l with
  | nil => intro _; exact List.nodup_nil
  | cons x l ih =>
    intro h
    rw [List.nodup_cons]
    constructor
    · intro hx
      obtain ⟨a, b, rfl⟩ := List.append_of_mem hx
      have h1 := h [] x (a ++ x :: b) rfl
      have h2 := h (x :: a) x b rfl
      simp at h1
      omega
    · exact ih (fun a v b e => h (x :: a) v b (by rw [e]; rfl))

theorem GInv.nodup {g : List (List Nat)} {s : GabowState} (h : GInv g s) : s.stack1.Nodup :=
  nodup_of_positions (ELM_PLIST s.id) s.stack1 (fun a v b e => (h.st_pos a v b e).2.2)

theorem GInv.mem_stack {g : List (List Nat)} {s : GabowState} (h : GInv g s) {v : Nat}
    (hv : v ∈ s.stack1) :
    1 ≤ v ∧ v ≤ g.length ∧ 1 ≤ ELM_PLIST s.id v ∧ ELM_PLIST s.id v ≤ s.stack1.length := by
  obtain ⟨a, b, e⟩ := List.append_of_mem hv
  obtain ⟨h1, h2, h3⟩ := h.st_pos a v b e
  refine ⟨h1, h2, by omega, ?_⟩
  rw [h3, e]; simp

theorem length_le_of_nodup_range {l : List Nat} {n : Nat} (hn : l.Nodup)
    (hr : ∀ v ∈ l, 1 ≤ v ∧ v ≤ n) : l.length ≤ n := by
  have hsub : l ⊆ List.range' 1 n := by
    intro x hv
    have := hr x hv
    simp [List.mem_range'_1]; omega
  have := (List.subperm_of_subset hn hsub).length_le
  simpa using this

theorem GInv.stack_len {g : List (List Nat)} {s : GabowState} (h : GInv g s) :
    s.stack1.length ≤ g.length :=
  length_le_of_nodup_range h.nodup (fun _ hv => ⟨(h.mem_stack hv).1, (h.mem_stack hv).2.1⟩)

/-- A vertex is on `stack1` exactly when its id is a position, `1..n`. -/
theorem GInv.mem_stack_iff {g : List (List Nat)} {s : GabowState} (h : GInv g s) {v : Nat}
    (v1 : 1 ≤ v) (v2 : v ≤ g.length) :
    v ∈ s.stack1 ↔ (1 ≤ ELM_PLIST s.id v ∧ ELM_PLIST s.id v ≤ g.length) := by
  constructor
  · intro hv
    have := h.mem_stack hv
    have := h.stack_len
    omega
  · intro hv
    rcases h.cls v v1 v2 with h0 | h1 | h2
    · omega
    · exact h1
    · omega

/-- Positions in a split of `stack1`: the vertices above `v` have larger ids, the vertices
below have smaller ones. -/
theorem GInv.split_pos {g : List (List Nat)} {s : GabowState} (h : GInv g s)
    {a b : List Nat} {v : Nat} (e : s.stack1 = a ++ v :: b) :
    ELM_PLIST s.id v = b.length + 1 ∧ v ∉ a ∧ v ∉ b ∧
    (∀ x ∈ a, b.length + 1 < ELM_PLIST s.id x) ∧
    (∀ x ∈ b, ELM_PLIST s.id x ≤ b.length) ∧ (∀ x ∈ a, x ∉ b) := by
  have hn := h.nodup
  rw [e] at hn
  have hn' := List.nodup_append.1 hn
  have hn2 := List.nodup_cons.1 hn'.2.1
  refine ⟨(h.st_pos a v b e).2.2, ?_, hn2.1, ?_, ?_, ?_⟩
  · intro hv
    exact hn'.2.2 hv (List.mem_cons_self _ _)
  · intro x hx
    obtain ⟨a1, a2, rfl⟩ := List.append_of_mem hx
    have := (h.st_pos a1 x (a2 ++ v :: b) (by rw [e]; simp)).2.2
    rw [this]; simp; omega
  · intro x hx
    obtain ⟨b1, b2, rfl⟩ := List.append_of_mem hx
    have := (h.st_pos (a ++ v :: b1) x b2 (by rw [e]; simp)).2.2
    rw [this]; simp
  · intro x hx hxb
    exact hn'.2.2 hx (List.mem_cons_of_mem _ hxb)

theorem ValidDigraph.adj_range {g : List (List Nat)} (hg : ValidDigraph g) {v w : Nat}
    (hw : w ∈ ELM_PLIST2 g v) : 1 ≤ w ∧ w ≤ g.length := by
  cases v with
  | zero => simp [ELM_PLIST2] at hw
  | succ k =>
    simp only [ELM_PLIST2, List.getD_eq_getElem?_getD] at hw
    by_cases hk : k < g.length
    · rw [List.getElem?_eq_getElem hk] at hw
      exact hg _ (List.getElem_mem _) w hw
    · rw [List.getElem?_eq_none (by omega)] at hw
      simp at hw

theorem ELM_PLIST_mem_of_idx (l : List Nat) (i : Nat) (h1 : 1 ≤ i) (h2 : ¬ i > l.length) :
    ELM_PLIST l i ∈ l := ELM_PLIST_mem l i h1 (by omega)

theorem gabowStep_cases {g : List (List Nat)} {s : GabowState}
    (h : GInv g s) {f : Frame} {fs : List Frame} (hfr : s.frames = f :: fs) :
    (¬ f.idx > f.adj.length ∧ ELM_PLIST s.id (ELM_PLIST f.adj f.idx) = 0 ∧
      gabowStep g s = .ok (pushedState g s f fs (ELM_PLIST f.adj f.idx), false)) ∨
    (¬ f.idx > f.adj.length ∧ ELM_PLIST s.id (ELM_PLIST f.adj f.idx) ≠ 0 ∧
      gabowStep g s =
        .ok (mergedState s f fs (ELM_PLIST s.id (ELM_PLIST f.adj f.idx)), false)) ∨
    (f.idx > f.adj.length ∧ (∃ b bs, s.stack2 = b :: bs ∧ b ≠ ELM_PLIST s.id f.v) ∧
      gabowStep g s = .ok (returnedState s fs, fs.isEmpty)) ∨
    (f.idx > f.adj.length ∧ ∃ a rest bs, s.stack1 = a ++ f.v :: rest ∧
      s.stack2 = ELM_PLIST s.id f.v :: bs ∧
      gabowStep g s = .ok (poppedState s fs a f.v rest bs, fs.isEmpty)) := by
  have hone : 1 ∈ s.stack2 := h.b_one (by rw [hfr]; simp)
  by_cases hidx : f.idx > f.adj.length
  · right; right
    obtain ⟨b, bs, hst2⟩ : ∃ b bs, s.stack2 = b :: bs := by
      cases hs : s.stack2 with
      | nil => rw [hs] at hone; simp at hone
      | cons b bs => exact ⟨b, bs, rfl⟩
    by_cases hb : b = ELM_PLIST s.id f.v
    · right
      refine ⟨hidx, ?_⟩
      obtain ⟨a, rest, e⟩ := List.append_of_mem (h.f_stack f (by rw [hfr]; simp)).1
      refine ⟨a, rest, bs, e, by rw [hst2, hb], ?_⟩
      have hsp := h.split_pos e
      simp only [gabowStep, hfr, hidx, if_true, hst2, hb]
      rw [e, popComponent_spec _ _ _ _ hsp.2.1]
      simp [poppedState]
    · left
      refine ⟨hidx, ⟨b, bs, hst2, hb⟩, ?_⟩
      simp only [gabowStep, hfr, hidx, if_true, hst2, hb, if_false, returnedState]
  · by_cases hw : ELM_PLIST s.id (ELM_PLIST f.adj f.idx) = 0
    · left
      refine ⟨hidx, hw, ?_⟩
      simp only [gabowStep, hfr, hidx, if_false, hw, if_true]
      rfl
    · right; left
      refine ⟨hidx, hw, ?_⟩
      simp only [gabowStep, hfr, hidx, if_false, hw]
      rw [popBoundaries_spec _ _ h.b_sorted ⟨1, hone, by omega⟩]
      rfl

theorem GInv.not_mem_of_zero {g : List (List Nat)} {s : GabowState} (h : GInv g s) {w : Nat}
    (hw0 : ELM_PLIST s.id w = 0) : w ∉ s.stack1 := by
  intro hm
  have := h.mem_stack hm
  omega

theorem GInv.frame_mem {g : List (List Nat)} {s : GabowState} (h : GInv g s) {f : Frame}
    (hf : f ∈ s.frames) :
    1 ≤ f.v ∧ f.v ≤ g.length ∧ 1 ≤ ELM_PLIST s.id f.v ∧
      ELM_PLIST s.id f.v ≤ s.stack1.length :=
  h.mem_stack (h.f_stack f hf).1

theorem GInv.boundary_le {g : List (List Nat)} {s : GabowState} (h : GInv g s) {b : Nat}
    (hb : b ∈ s.stack2) : 1 ≤ b ∧ b ≤ s.stack1.length := by
  obtain ⟨f, hf, e⟩ := h.b_frame b hb
  have := h.frame_mem hf
  omega

theorem GInv.pushed {g : List (List Nat)} {s : GabowState} (h : GInv g s)
    {f : Frame} {fs : List Frame} (hfr : s.frames = f :: fs) {w : Nat}
    (w1 : 1 ≤ w) (w2 : w ≤ g.length) (hw0 : ELM_PLIST s.id w = 0) :
    GInv g (pushedState g s f fs w) := by
  have hnot := h.not_mem_of_zero hw0
  have hlen : s.stack1.length + 1 ≤ g.length := by
    have := length_le_of_nodup_range (l := w :: s.stack1) (n := g.length)
      (List.nodup_cons.2 ⟨hnot, h.nodup⟩) (by
        intro v hv
        simp only [List.mem_cons] at hv
        rcases hv with rfl | hv
        · exact ⟨w1, w2⟩
        · exact ⟨(h.mem_stack hv).1, (h.mem_stack hv).2.1⟩)
    simpa using this
  have hid : ∀ v, v ≠ w → ELM_PLIST (SET_ELM_PLIST s.id w (s.stack1.length + 1)) v =
      ELM_PLIST s.id v := fun v hv => ELM_SET_other _ _ _ _ hv
  have hidw : ELM_PLIST (SET_ELM_PLIST s.id w (s.stack1.length + 1)) w = s.stack1.length + 1 :=
    ELM_SET_same _ _ _ w1 (by rw [h.idlen]; exact w2)
  have hne : ∀ v ∈ s.stack1, v ≠ w := fun v hv e => hnot (e ▸ hv)
  have hfv : ∀ f' ∈ s.frames, f'.v ≠ w := fun f' hf' => hne _ (h.f_stack f' hf').1
  have hf_in : f ∈ s.frames := by rw [hfr]; simp
  have hfs_in : ∀ f' ∈ fs, f' ∈ s.frames := fun f' hf' => by rw [hfr]; simp [hf']
  exact {
    idlen := by simp [pushedState, length_SET_ELM_PLIST, h.idlen]
    st_pos := by
      intro a v b e
      simp only [pushedState] at e ⊢
      cases a with
      | nil =>
        simp only [List.nil_append, List.cons.injEq] at e
        obtain ⟨rfl, rfl⟩ := e
        exact ⟨w1, w2, hidw⟩
      | cons x a =>
        simp only [List.cons_append, List.cons.injEq] at e
        obtain ⟨rfl, e⟩ := e
        have := h.st_pos a v b e
        have hv : v ∈ s.stack1 := by rw [e]; simp
        rw [hid v (hne v hv)]
        exact this
    cls := by
      intro v v1 v2
      simp only [pushedState]
      by_cases hv : v = w
      · right; left; simp [hv]
      · rw [hid v hv]
        rcases h.cls v v1 v2 with a | a | a
        · exact Or.inl a
        · exact Or.inr (Or.inl (List.mem_cons_of_mem _ a))
        · exact Or.inr (Or.inr a)
    cnt := h.cnt
    comps := by
      intro k k1 k2
      obtain ⟨a, b, c⟩ := h.comps k k1 k2
      refine ⟨a, b, ?_⟩
      intro x
      simp only [pushedState]
      rw [c x]
      by_cases hx : x = w
      · subst hx
        rw [hidw, hw0]
        constructor
        · rintro ⟨_, _, e⟩; omega
        · rintro ⟨_, _, e⟩; omega
      · rw [hid x hx]
    b_sorted := by
      simp only [pushedState]
      rw [List.pairwise_cons]
      refine ⟨?_, h.b_sorted⟩
      intro b hb
      have := (h.boundary_le hb).2
      omega
    b_frame := by
      intro b hb
      simp only [pushedState, List.mem_cons] at hb ⊢
      rcases hb with rfl | hb
      · exact ⟨_, Or.inl rfl, hidw⟩
      · obtain ⟨f', hf', e⟩ := h.b_frame b hb
        rw [hfr] at hf'
        simp only [List.mem_cons] at hf'
        rcases hf' with rfl | hf'
        · exact ⟨_, Or.inr (Or.inl rfl), by
            show ELM_PLIST (SET_ELM_PLIST s.id w (s.stack1.length + 1)) f'.v = b
            rw [hid _ (hfv f' hf_in)]; exact e⟩
        · exact ⟨f', Or.inr (Or.inr hf'), by rw [hid _ (hfv f' (hfs_in f' hf'))]; exact e⟩
    b_one := by
      intro _
      simp only [pushedState]
      exact List.mem_cons_of_mem _ (h.b_one (by rw [hfr]; simp))
    f_stack := by
      intro f' hf'
      simp only [pushedState, List.mem_cons] at hf' ⊢
      rcases hf' with rfl | rfl | hf'
      · exact ⟨Or.inl rfl, rfl, le_refl _⟩
      · obtain ⟨a, b, c⟩ := h.f_stack f hf_in
        exact ⟨Or.inr a, b, by show 1 ≤ f.idx + 1; omega⟩
      · obtain ⟨a, b, c⟩ := h.f_stack f' (hfs_in f' hf')
        exact ⟨Or.inr a, b, c⟩
    f_sorted := by
      have hs := h.f_sorted
      rw [hfr, List.pairwise_cons] at hs
      simp only [pushedState]
      rw [List.pairwise_cons, List.pairwise_cons]
      refine ⟨?_, ?_, ?_⟩
      · intro f' hf'
        rw [hidw]
        simp only [List.mem_cons] at hf'
        rcases hf' with rfl | hf'
        · show s.stack1.length + 1 > ELM_PLIST (SET_ELM_PLIST s.id w (s.stack1.length + 1)) f.v
          rw [hid _ (hfv f hf_in)]
          have := (h.frame_mem hf_in).2.2.2
          omega
        · rw [hid _ (hfv f' (hfs_in f' hf'))]
          have := (h.frame_mem (hfs_in f' hf')).2.2.2
          omega
      · intro f' hf'
        show ELM_PLIST (SET_ELM_PLIST s.id w (s.stack1.length + 1)) f.v >
          ELM_PLIST (SET_ELM_PLIST s.id w (s.stack1.length + 1)) f'.v
        rw [hid _ (hfv f hf_in), hid _ (hfv f' (hfs_in f' hf'))]
        exact hs.1 f' hf'
      · refine hs.2.imp_of_mem ?_
        intro f1 f2 m1 m2 hlt
        rw [hid _ (hfv f1 (hfs_in f1 m1)), hid _ (hfv f2 (hfs_in f2 m2))]
        exact hlt }

theorem GInv.merged {g : List (List Nat)} {s : GabowState} (h : GInv g s)
    {f : Frame} {fs : List Frame} (hfr : s.frames = f :: fs) {idw : Nat} (hidw : 1 ≤ idw) :
    GInv g (mergedState s f fs idw) := by
  have hf_in : f ∈ s.frames := by rw [hfr]; simp
  exact {
    idlen := h.idlen
    st_pos := h.st_pos
    cls := h.cls
    cnt := h.cnt
    comps := h.comps
    b_sorted := h.b_sorted.filter _
    b_frame := by
      intro b hb
      simp only [mergedState, List.mem_filter] at hb ⊢
      obtain ⟨f', hf', e⟩ := h.b_frame b hb.1
      rw [hfr] at hf'
      simp only [List.mem_cons] at hf' ⊢
      rcases hf' with rfl | hf'
      · exact ⟨_, Or.inl rfl, e⟩
      · exact ⟨f', Or.inr hf', e⟩
    b_one := by
      intro _
      simp only [mergedState, List.mem_filter, decide_eq_true_eq]
      exact ⟨h.b_one (by rw [hfr]; simp), hidw⟩
    f_stack := by
      intro f' hf'
      simp only [mergedState, List.mem_cons] at hf'
      rcases hf' with rfl | hf'
      · obtain ⟨a, b, c⟩ := h.f_stack f hf_in
        exact ⟨a, b, by show 1 ≤ f.idx + 1; omega⟩
      · exact h.f_stack f' (by rw [hfr]; simp [hf'])
    f_sorted := by
      have hs := h.f_sorted
      rw [hfr, List.pairwise_cons] at hs
      simp only [mergedState]
      rw [List.pairwise_cons]
      exact ⟨hs.1, hs.2⟩ }

theorem GInv.returned {g : List (List Nat)} {s : GabowState} (h : GInv g s)
    {f : Frame} {fs : List Frame} (hfr : s.frames = f :: fs) {b : Nat} {bs : List Nat}
    (hst2 : s.stack2 = b :: bs) (hb : b ≠ ELM_PLIST s.id f.v) :
    GInv g (returnedState s fs) ∧ fs ≠ [] := by
  have hs := h.f_sorted
  rw [hfr, List.pairwise_cons] at hs
  have hbs := h.b_sorted
  rw [hst2, List.pairwise_cons] at hbs
  -- every boundary belongs to a frame below `f`
  have hbelow : ∀ b' ∈ s.stack2, ∃ f' ∈ fs, ELM_PLIST s.id f'.v = b' := by
    have hhead : ∃ f' ∈ fs, ELM_PLIST s.id f'.v = b := by
      obtain ⟨f', hf', e⟩ := h.b_frame b (by rw [hst2]; simp)
      rw [hfr] at hf'
      simp only [List.mem_cons] at hf'
      rcases hf' with rfl | hf'
      · exact absurd e.symm hb
      · exact ⟨f', hf', e⟩
    intro b' hb'
    rw [hst2] at hb'
    simp only [List.mem_cons] at hb'
    rcases hb' with rfl | hb'
    · exact hhead
    · obtain ⟨f0, hf0, e0⟩ := hhead
      have h1 := hs.1 f0 hf0
      have h2 := hbs.1 b' hb'
      obtain ⟨f', hf', e⟩ := h.b_frame b' (by rw [hst2]; simp [hb'])
      rw [hfr] at hf'
      simp only [List.mem_cons] at hf'
      rcases hf' with rfl | hf'
      · omega
      · exact ⟨f', hf', e⟩
  refine ⟨{
    idlen := h.idlen
    st_pos := h.st_pos
    cls := h.cls
    cnt := h.cnt
    comps := h.comps
    b_sorted := h.b_sorted
    b_frame := hbelow
    b_one := fun _ => h.b_one (by rw [hfr]; simp)
    f_stack := fun f' hf' => h.f_stack f' (by
      rw [hfr]; exact List.mem_cons_of_mem _ hf')
    f_sorted := hs.2 }, ?_⟩
  obtain ⟨f', hf', -⟩ := hbelow b (by rw [hst2]; simp)
  exact List.ne_nil_of_mem hf'

/-! ## GABOW_SCC: one step keeps the structural invariant -/

/-- The ids after a component is popped. -/
theorem GInv.popped_id {g : List (List Nat)} {s : GabowState} (h : GInv g s)
    {a rest : List Nat} {root : Nat} (hst1 : s.stack1 = a ++ root :: rest) (v : Nat) :
    ELM_PLIST (setAll s.id (a ++ [root]) (s.count + 1)) v =
      if v ∈ a ++ [root] then s.count + 1 else ELM_PLIST s.id v := by
  apply ELM_setAll
  intro w hw
  have hm : w ∈ s.stack1 := by
    rw [hst1]
    simp only [List.mem_append, List.mem_cons, List.not_mem_nil, or_false] at hw ⊢
    rcases hw with hw | hw
    · exact Or.inl hw
    · exact Or.inr (Or.inl hw)
  have := h.mem_stack hm
  rw [h.idlen]
  exact ⟨this.1, this.2.1⟩

theorem GInv.popped {g : List (List Nat)} {s : GabowState} (h : GInv g s)
    {f : Frame} {fs : List Frame} (hfr : s.frames = f :: fs) {a rest bs : List Nat}
    (hst1 : s.stack1 = a ++ f.v :: rest) (hst2 : s.stack2 = ELM_PLIST s.id f.v :: bs) :
    GInv g (poppedState s fs a f.v rest bs) ∧
      (fs = [] → rest = [] ∧ bs = []) := by
  obtain ⟨hp, hna, hnr, habove, hbelow, hdisj⟩ := h.split_pos hst1
  have hid := h.popped_id hst1
  have hs := h.f_sorted
  rw [hfr, List.pairwise_cons] at hs
  have hbs := h.b_sorted
  rw [hst2, List.pairwise_cons] at hbs
  have hfs_in : ∀ f' ∈ fs, f' ∈ s.frames := fun f' hf' => by rw [hfr]; simp [hf']
  have hmemC : ∀ v, v ∈ a ++ [f.v] → v ∈ s.stack1 := by
    intro v hv
    rw [hst1]
    simp only [List.mem_append, List.mem_cons, List.not_mem_nil, or_false] at hv ⊢
    rcases hv with hv | hv
    · exact Or.inl hv
    · exact Or.inr (Or.inl hv)
  have hCpos : ∀ v, v ∈ a ++ [f.v] → rest.length + 1 ≤ ELM_PLIST s.id v := by
    intro v hv
    simp only [List.mem_append, List.mem_singleton] at hv
    rcases hv with hv | rfl
    · have := habove v hv; omega
    · omega
  have hrestC : ∀ v ∈ rest, v ∉ a ++ [f.v] := by
    intro v hv hc
    have := hCpos v hc
    have := hbelow v hv
    omega
  -- frames below `f` lie in `rest`
  have hfs_rest : ∀ f' ∈ fs, f'.v ∈ rest := by
    intro f' hf'
    have hm := (h.f_stack f' (hfs_in f' hf')).1
    have hlt := hs.1 f' hf'
    rw [hst1] at hm
    simp only [List.mem_append, List.mem_cons] at hm
    rcases hm with hm | hm | hm
    · have := habove _ hm; omega
    · rw [hm] at hlt; omega
    · exact hm
  have hcount : g.length ≤ s.count := by rw [h.cnt]; omega
  have hstl := h.stack_len
  refine ⟨{
    idlen := by simp [poppedState, setAll_length, h.idlen]
    st_pos := by
      intro a' v b' e
      simp only [poppedState] at e ⊢
      have e2 : s.stack1 = (a ++ f.v :: a') ++ v :: b' := by rw [hst1, e]; simp
      obtain ⟨v1, v2, v3⟩ := h.st_pos _ v b' e2
      refine ⟨v1, v2, ?_⟩
      rw [hid, if_neg (hrestC v (by rw [e]; simp))]
      exact v3
    cls := by
      intro v v1 v2
      simp only [poppedState]
      rw [hid]
      split
      · right; right; omega
      · rename_i hv
        rcases h.cls v v1 v2 with c | c | c
        · exact Or.inl c
        · right; left
          rw [hst1] at c
          simp only [List.mem_append, List.mem_cons, List.not_mem_nil, or_false] at c hv
          rcases c with c | c | c
          · exact absurd (Or.inl c) hv
          · exact absurd (Or.inr c) hv
          · exact c
        · right; right; omega
    cnt := by simp [poppedState, h.cnt]; omega
    comps := by
      intro k k1 k2
      simp only [poppedState, List.length_append, List.length_singleton] at k2 ⊢
      by_cases hk : k = s.comps.length + 1
      · subst hk
        rw [ELM_PLIST2_append_last]
        refine ⟨?_, by simp, ?_⟩
        · rw [List.nodup_reverse]
          have hn := h.nodup
          rw [hst1] at hn
          have : (a ++ [f.v] ++ rest).Nodup := by simpa using hn
          exact (List.nodup_append.1 this).1
        · intro x
          rw [List.mem_reverse, hid]
          constructor
          · intro hx
            have := h.mem_stack (hmemC x hx)
            refine ⟨this.1, this.2.1, ?_⟩
            rw [if_pos hx, h.cnt]; omega
          · rintro ⟨x1, x2, e⟩
            by_contra hx
            rw [if_neg hx] at e
            rcases h.cls x x1 x2 with c | c | c
            · omega
            · have := h.mem_stack c; omega
            · rw [h.cnt] at c; omega
      · rw [ELM_PLIST2_append_left _ _ _ (by omega)]
        obtain ⟨c1, c2, c3⟩ := h.comps k k1 (by omega)
        refine ⟨c1, c2, ?_⟩
        intro x
        rw [c3 x, hid]
        split
        · rename_i hx
          have := h.mem_stack (hmemC x hx)
          constructor
          · rintro ⟨_, _, e⟩; omega
          · rintro ⟨_, _, e⟩; rw [h.cnt] at e; omega
        · rfl
    b_sorted := hbs.2
    b_frame := by
      intro b hb
      simp only [poppedState] at hb ⊢
      have hlt := hbs.1 b hb
      obtain ⟨f', hf', e⟩ := h.b_frame b (by rw [hst2]; simp [hb])
      rw [hfr] at hf'
      simp only [List.mem_cons] at hf'
      rcases hf' with rfl | hf'
      · omega
      · refine ⟨f', hf', ?_⟩
        rw [hid, if_neg (hrestC _ (hfs_rest f' hf'))]
        exact e
    b_one := by
      intro hne
      simp only [poppedState] at hne ⊢
      have h1 := h.b_one (by rw [hfr]; simp)
      rw [hst2] at h1
      simp only [List.mem_cons] at h1
      rcases h1 with h1 | h1
      · obtain ⟨f', hf'⟩ := List.exists_mem_of_ne_nil fs hne
        have := hs.1 f' hf'
        have := (h.frame_mem (hfs_in f' hf')).2.2.1
        omega
      · exact h1
    f_stack := by
      intro f' hf'
      simp only [poppedState] at hf' ⊢
      obtain ⟨-, c2, c3⟩ := h.f_stack f' (hfs_in f' hf')
      exact ⟨hfs_rest f' hf', c2, c3⟩
    f_sorted := by
      simp only [poppedState]
      refine hs.2.imp_of_mem ?_
      intro f1 f2 m1 m2 hlt
      rw [hid, hid, if_neg (hrestC _ (hfs_rest f1 m1)), if_neg (hrestC _ (hfs_rest f2 m2))]
      exact hlt }, ?_⟩
  intro hfs
  subst hfs
  have hall : ∀ b ∈ s.stack2, b = ELM_PLIST s.id f.v := by
    intro b hb
    obtain ⟨f', hf', e⟩ := h.b_frame b hb
    rw [hfr] at hf'
    simp only [List.mem_singleton] at hf'
    rw [← e, hf']
  have hbs_nil : bs = [] := by
    cases bs with
    | nil => rfl
    | cons c bs =>
      have h1 := hall c (by rw [hst2]; simp)
      have h2 := hbs.1 c (by simp)
      omega
  have h1 := hall 1 (h.b_one (by rw [hfr]; simp))
  refine ⟨?_, hbs_nil⟩
  have : rest.length = 0 := by omega
  exact List.length_eq_zero.1 this

/-- Every boundary is at or below the position of the vertex of the top frame. -/
theorem GInv.boundary_le_top {g : List (List Nat)} {s : GabowState} (h : GInv g s)
    {f : Frame} {fs : List Frame} (hfr : s.frames = f :: fs) :
    ∀ b ∈ s.stack2, b ≤ ELM_PLIST s.id f.v := by
  intro b hb
  obtain ⟨f', hf', e⟩ := h.b_frame b hb
  have hs := h.f_sorted
  rw [hfr, List.pairwise_cons] at hs
  rw [hfr] at hf'
  simp only [List.mem_cons] at hf'
  rcases hf' with rfl | hf'
  · omega
  · have := hs.1 f' hf'; omega

/-- Every vertex on `stack1` reaches the vertex of the top frame. -/
theorem GSem.reach_top {g : List (List Nat)} {s : GabowState} (h : GInv g s) (hs : GSem g s)
    {f : Frame} {fs : List Frame} (hfr : s.frames = f :: fs) {u : Nat} (hu : u ∈ s.stack1) :
    Reach g u f.v := by
  have hf := (h.f_stack f (by rw [hfr]; simp)).1
  by_cases hle : ELM_PLIST s.id u ≤ ELM_PLIST s.id f.v
  · exact hs.fwd u hu f.v hf hle
  · refine hs.bwd f.v hf u hu (by omega) ?_
    intro b hb
    have := h.boundary_le_top hfr b hb
    omega

theorem take_succ_mem {l : List Nat} {i w : Nat} (h1 : 1 ≤ i) (h2 : i ≤ l.length)
    (hw : w ∈ l.take (i + 1 - 1)) : w ∈ l.take (i - 1) ∨ w = ELM_PLIST l i := by
  obtain ⟨k, rfl⟩ : ∃ k, i = k + 1 := ⟨i - 1, by omega⟩
  simp only [Nat.add_sub_cancel] at hw ⊢
  rw [List.take_succ, List.mem_append] at hw
  rcases hw with hw | hw
  · exact Or.inl hw
  · right
    rw [ELM_PLIST_eq_getElem l k (by omega)]
    rw [List.getElem?_eq_getElem (by omega)] at hw
    simpa using hw

/-- The examined edges after the cursor of the top frame has moved past `w`. -/
theorem examined_advance {g : List (List Nat)} {s : GabowState} (s' : GabowState) {f : Frame}
    {fs : List Frame} (h : GInv g s) (hfr : s.frames = f :: fs)
    (hidx : ¬ f.idx > f.adj.length)
    (hfr' : ∀ f' ∈ s'.frames, f' = { f with idx := f.idx + 1 } ∨ f' ∈ fs ∨
      (f'.idx = 1 ∧ f'.v ∉ s.stack1))
    (hnf : ∀ f' ∈ s.frames, ∃ f'' ∈ s'.frames, f''.v = f'.v)
    {u w : Nat} (he : Examined g s' u w) :
    Examined g s u w ∨ (u = f.v ∧ w = ELM_PLIST f.adj f.idx) := by
  have hf1 := (h.f_stack f (by rw [hfr]; simp)).2.2
  rcases he with ⟨f', hf', e1, e2⟩ | ⟨e1, e2⟩
  · rcases hfr' f' hf' with rfl | hm | ⟨hi, hn⟩
    · simp only at e1 e2
      rcases take_succ_mem hf1 (by omega) e2 with e | e
      · exact Or.inl (Or.inl ⟨f, by rw [hfr]; simp, e1, e⟩)
      · exact Or.inr ⟨e1.symm, e⟩
    · exact Or.inl (Or.inl ⟨f', by rw [hfr]; simp [hm], e1, e2⟩)
    · rw [hi] at e2; simp at e2
  · left; right
    refine ⟨?_, e2⟩
    intro f' hf'
    obtain ⟨f'', hf'', e⟩ := hnf f' hf'
    rw [← e]
    exact e1 f'' hf''

/-! ## GABOW_SCC: the reachability invariant -/

theorem GSem.after_push {g : List (List Nat)} {s : GabowState} (hg : ValidDigraph g)
    (h : GInv g s) (hs : GSem g s)
    {f : Frame} {fs : List Frame} (hfr : s.frames = f :: fs)
    (hidx : ¬ f.idx > f.adj.length) (hw0 : ELM_PLIST s.id (ELM_PLIST f.adj f.idx) = 0) :
    GSem g (pushedState g s f fs (ELM_PLIST f.adj f.idx)) := by
  obtain ⟨hfst, hfadj, hf1⟩ := h.f_stack f (by rw [hfr]; simp)
  have hwadj : ELM_PLIST f.adj f.idx ∈ ELM_PLIST2 g f.v := by
    rw [← hfadj]; exact ELM_PLIST_mem_of_idx _ _ hf1 hidx
  obtain ⟨w1, w2⟩ := hg.adj_range hwadj
  obtain ⟨w, hwdef⟩ : ∃ w, w = ELM_PLIST f.adj f.idx := ⟨_, rfl⟩
  rw [← hwdef] at hw0 hwadj w1 w2 ⊢
  have hnot := h.not_mem_of_zero hw0
  have hid : ∀ v, v ≠ w → ELM_PLIST (SET_ELM_PLIST s.id w (s.stack1.length + 1)) v =
      ELM_PLIST s.id v := fun v hv => ELM_SET_other _ _ _ _ hv
  have hidw : ELM_PLIST (SET_ELM_PLIST s.id w (s.stack1.length + 1)) w = s.stack1.length + 1 :=
    ELM_SET_same _ _ _ w1 (by rw [h.idlen]; exact w2)
  have hne : ∀ v ∈ s.stack1, v ≠ w := fun v hv e => hnot (e ▸ hv)
  have hfin_ne : ∀ v, g.length < ELM_PLIST s.id v → v ≠ w := by
    intro v hv e; rw [e, hw0] at hv; omega
  have hlen := (GInv.pushed h hfr w1 w2 hw0).stack_len
  simp only [pushedState, List.length_cons] at hlen
  exact {
    ex := by
      intro u hu w' he
      simp only [pushedState, List.mem_cons] at hu
      rcases hu with hu | hu
      · -- the new vertex has no examined edge
        subst u
        exfalso
        rcases he with ⟨f', hf', e1, e2⟩ | ⟨e1, -⟩
        · simp only [pushedState, List.mem_cons] at hf'
          rcases hf' with rfl | rfl | hf'
          · simp at e2
          · exact hne _ hfst e1
          · exact hne _ (h.f_stack f' (by rw [hfr]; simp [hf'])).1 e1
        · exact e1 ⟨w, 1, ELM_PLIST2 g w⟩ (by simp [pushedState]) rfl
      · have he' := examined_advance (pushedState g s f fs w) h hfr hidx
          (by
            intro f' hf'
            simp only [pushedState, List.mem_cons] at hf'
            rcases hf' with rfl | rfl | hf'
            · exact Or.inr (Or.inr ⟨rfl, hnot⟩)
            · exact Or.inl rfl
            · exact Or.inr (Or.inl hf'))
          (by
            intro f' hf'
            rw [hfr] at hf'
            simp only [List.mem_cons] at hf'
            rcases hf' with hf' | hf'
            · exact ⟨{ f with idx := f.idx + 1 }, by simp [pushedState], by rw [hf']⟩
            · exact ⟨f', by simp [pushedState, hf'], rfl⟩) he
        rw [← hwdef] at he'
        simp only [pushedState, SameSegment, List.mem_cons]
        rcases he' with he' | ⟨e1, e2⟩
        · rcases hs.ex u hu w' he' with c | ⟨c1, c2⟩
          · left
            rw [hid w' (hfin_ne w' c)]; exact c
          · right
            refine ⟨Or.inr c1, ?_⟩
            rw [hid w' (hne w' c1), hid u (hne u hu)]
            intro b hb
            rcases hb with rfl | hb
            · have := (h.mem_stack hu).2.2.2
              omega
            · exact c2 b hb
        · right
          subst e1 e2
          refine ⟨Or.inl rfl, ?_⟩
          rw [hidw]
          intro b hb
          rcases hb with rfl | hb
          · omega
          · have := (h.boundary_le hb).2
            omega
    fin_closed := by
      intro x x1 x2 hx w' hw'
      simp only [pushedState] at hx ⊢
      by_cases hxw : x = w
      · rw [hxw, hidw] at hx; omega
      · rw [hid x hxw] at hx
        have := hs.fin_closed x x1 x2 hx w' hw'
        rw [hid w' (hfin_ne w' this)]
        exact this
    fin_scc := by
      intro x y x1 x2 y1 y2 hx
      simp only [pushedState] at hx ⊢
      by_cases hxw : x = w
      · rw [hxw, hidw] at hx; omega
      · rw [hid x hxw] at hx ⊢
        by_cases hyw : y = w
        · rw [hyw, hidw]
          have := hs.fin_scc x w x1 x2 w1 w2 hx
          rw [hw0] at this
          constructor
          · intro e; omega
          · intro e; have := this.2 e; omega
        · rw [hid y hyw]
          exact hs.fin_scc x y x1 x2 y1 y2 hx
    fwd := by
      intro u hu w' hw' hle
      simp only [pushedState, List.mem_cons] at hu hw' hle
      rcases hw' with rfl | hw'
      · rcases hu with rfl | hu
        · exact Relation.ReflTransGen.refl
        · exact Relation.ReflTransGen.tail (hs.reach_top h hfr hu) hwadj
      · rcases hu with rfl | hu
        · rw [hidw, hid w' (hne w' hw')] at hle
          have := (h.mem_stack hw').2.2.2
          omega
        · rw [hid u (hne u hu), hid w' (hne w' hw')] at hle
          exact hs.fwd u hu w' hw' hle
    bwd := by
      intro u hu w' hw' hle hseg
      simp only [pushedState, List.mem_cons] at hu hw' hle
      rcases hw' with rfl | hw'
      · rcases hu with rfl | hu
        · exact Relation.ReflTransGen.refl
        · exfalso
          refine hseg (s.stack1.length + 1) (by simp [pushedState]) ?_
          simp only [pushedState]
          rw [hid u (hne u hu), hidw]
          have := (h.mem_stack hu).2.2.2
          omega
      · rcases hu with rfl | hu
        · rw [hidw, hid w' (hne w' hw')] at hle
          have := (h.mem_stack hw').2.2.2
          omega
        · rw [hid u (hne u hu), hid w' (hne w' hw')] at hle
          refine hs.bwd u hu w' hw' hle ?_
          intro b hb
          have := hseg b (by simp [pushedState, hb])
          simp only [pushedState] at this
          rw [hid u (hne u hu), hid w' (hne w' hw')] at this
          exact this }

theorem GSem.after_merge {g : List (List Nat)} {s : GabowState} (hg : ValidDigraph g)
    (h : GInv g s) (hs : GSem g s)
    {f : Frame} {fs : List Frame} (hfr : s.frames = f :: fs)
    (hidx : ¬ f.idx > f.adj.length) (hw0 : ELM_PLIST s.id (ELM_PLIST f.adj f.idx) ≠ 0) :
    GSem g (mergedState s f fs (ELM_PLIST s.id (ELM_PLIST f.adj f.idx))) := by
  obtain ⟨hfst, hfadj, hf1⟩ := h.f_stack f (by rw [hfr]; simp)
  have hwadj : ELM_PLIST f.adj f.idx ∈ ELM_PLIST2 g f.v := by
    rw [← hfadj]; exact ELM_PLIST_mem_of_idx _ _ hf1 hidx
  obtain ⟨w1, w2⟩ := hg.adj_range hwadj
  obtain ⟨w, hwdef⟩ : ∃ w, w = ELM_PLIST f.adj f.idx := ⟨_, rfl⟩
  rw [← hwdef] at hw0 hwadj w1 w2 ⊢
  have hstl := h.stack_len
  have hmem2 : ∀ b, b ∈ (mergedState s f fs (ELM_PLIST s.id w)).stack2 ↔
      (b ∈ s.stack2 ∧ b ≤ ELM_PLIST s.id w) := by
    intro b; simp [mergedState, List.mem_filter]
  have hseg : ∀ p q, SameSegment s p q → SameSegment (mergedState s f fs (ELM_PLIST s.id w)) p q :=
    fun p q hpq b hb => hpq b ((hmem2 b).1 hb).1
  exact {
    ex := by
      intro u hu w' he
      show g.length < ELM_PLIST s.id w' ∨ (w' ∈ s.stack1 ∧
        SameSegment (mergedState s f fs (ELM_PLIST s.id w)) (ELM_PLIST s.id w')
          (ELM_PLIST s.id u))
      have he' := examined_advance (mergedState s f fs (ELM_PLIST s.id w)) h hfr hidx
          (by
            intro f' hf'
            simp only [mergedState, List.mem_cons] at hf'
            rcases hf' with rfl | hf'
            · exact Or.inl rfl
            · exact Or.inr (Or.inl hf'))
          (by
            intro f' hf'
            rw [hfr] at hf'
            simp only [List.mem_cons] at hf'
            rcases hf' with hf' | hf'
            · exact ⟨{ f with idx := f.idx + 1 }, by simp [mergedState], by rw [hf']⟩
            · exact ⟨f', by simp [mergedState, hf'], rfl⟩) he
      rw [← hwdef] at he'
      rcases he' with he' | ⟨e1, e2⟩
      · rcases hs.ex u hu w' he' with c | ⟨c1, c2⟩
        · exact Or.inl c
        · exact Or.inr ⟨c1, hseg _ _ c2⟩
      · subst e1 e2
        rcases h.cls w' w1 w2 with c | c | c
        · exact absurd c hw0
        · right
          refine ⟨c, ?_⟩
          intro b hb
          have := ((hmem2 b).1 hb).2
          omega
        · exact Or.inl c.1
    fin_closed := hs.fin_closed
    fin_scc := hs.fin_scc
    fwd := hs.fwd
    bwd := by
      intro u hu w' hw' hle hsg
      change ELM_PLIST s.id u ≤ ELM_PLIST s.id w' at hle
      change SameSegment _ (ELM_PLIST s.id u) (ELM_PLIST s.id w') at hsg
      change u ∈ s.stack1 at hu
      change w' ∈ s.stack1 at hw'
      by_cases hold : SameSegment s (ELM_PLIST s.id u) (ELM_PLIST s.id w')
      · exact hs.bwd u hu w' hw' hle hold
      · -- some boundary between `u` and `w'` was removed, so `w` lies on `stack1` below it
        simp only [SameSegment, not_forall, not_not] at hold
        obtain ⟨b, hb, hb1, hb2⟩ := hold
        have hbw : ELM_PLIST s.id w < b := by
          by_contra hc
          exact hsg b ((hmem2 b).2 ⟨hb, by omega⟩) ⟨hb1, hb2⟩
        have hw_st : w ∈ s.stack1 := by
          rcases h.cls w w1 w2 with c | c | c
          · exact absurd c hw0
          · exact c
          · have := (h.boundary_le hb).2; omega
        have r1 : Reach g w' f.v := hs.reach_top h hfr hw'
        have r2 : Reach g f.v w := Relation.ReflTransGen.single hwadj
        have r3 : Reach g w u := by
          by_cases hwu : ELM_PLIST s.id w ≤ ELM_PLIST s.id u
          · exact hs.fwd w hw_st u hu hwu
          · refine hs.bwd u hu w hw_st (by omega) ?_
            intro b' hb' hc
            exact hsg b' ((hmem2 b').2 ⟨hb', hc.2⟩) ⟨hc.1, by omega⟩
        exact (r1.trans r2).trans r3 }

theorem GSem.after_return {g : List (List Nat)} {s : GabowState}
    (h : GInv g s) (hs : GSem g s)
    {f : Frame} {fs : List Frame} (hfr : s.frames = f :: fs)
    (hidx : f.idx > f.adj.length) :
    GSem g (returnedState s fs) := by
  obtain ⟨hfst, hfadj, hf1⟩ := h.f_stack f (by rw [hfr]; simp)
  exact {
    ex := by
      intro u hu w' he
      refine hs.ex u hu w' ?_
      rcases he with ⟨f', hf', e1, e2⟩ | ⟨e1, e2⟩
      · exact Or.inl ⟨f', by rw [hfr]; exact List.mem_cons_of_mem _ hf', e1, e2⟩
      · by_cases huf : f.v = u
        · left
          refine ⟨f, by rw [hfr]; simp, huf, ?_⟩
          rw [List.take_of_length_le (by omega), hfadj, huf]
          exact e2
        · right
          refine ⟨?_, e2⟩
          intro f' hf'
          rw [hfr] at hf'
          simp only [List.mem_cons] at hf'
          rcases hf' with rfl | hf'
          · exact huf
          · exact e1 f' hf'
    fin_closed := hs.fin_closed
    fin_scc := hs.fin_scc
    fwd := hs.fwd
    bwd := hs.bwd }

theorem reach_closed {g : List (List Nat)} (P : Nat → Prop)
    (hP : ∀ x w, P x → Edge g x w → P w) {x y : Nat} (hx : P x) (hr : Reach g x y) : P y := by
  induction hr with
  | refl => exact hx
  | tail _ he ih => exact hP _ _ ih he

theorem GSem.after_pop {g : List (List Nat)} {s : GabowState} (hg : ValidDigraph g)
    (h : GInv g s) (hs : GSem g s)
    {f : Frame} {fs : List Frame} (hfr : s.frames = f :: fs)
    (hidx : f.idx > f.adj.length) {a rest bs : List Nat}
    (hst1 : s.stack1 = a ++ f.v :: rest) (hst2 : s.stack2 = ELM_PLIST s.id f.v :: bs) :
    GSem g (poppedState s fs a f.v rest bs) := by
  obtain ⟨hfst, hfadj, hf1⟩ := h.f_stack f (by rw [hfr]; simp)
  obtain ⟨hp, hna, hnr, habove, hbelow, hdisj⟩ := h.split_pos hst1
  have hid := h.popped_id hst1
  have hfsort := h.f_sorted
  rw [hfr, List.pairwise_cons] at hfsort
  have hbs := h.b_sorted
  rw [hst2, List.pairwise_cons] at hbs
  have hstl := h.stack_len
  have hcount : g.length ≤ s.count := by rw [h.cnt]; omega
  have hmemC : ∀ v, v ∈ a ++ [f.v] ↔ (v ∈ s.stack1 ∧ rest.length + 1 ≤ ELM_PLIST s.id v) := by
    intro v
    rw [hst1]
    simp only [List.mem_append, List.mem_cons, List.not_mem_nil, or_false]
    constructor
    · rintro (hv | hv)
      · exact ⟨Or.inl hv, by have := habove v hv; omega⟩
      · exact ⟨Or.inr (Or.inl hv), by rw [hv]; omega⟩
    · rintro ⟨hv | hv | hv, hpos⟩
      · exact Or.inl hv
      · exact Or.inr hv
      · have := hbelow v hv; omega
  have hmem_rest : ∀ v, v ∈ rest ↔ (v ∈ s.stack1 ∧ v ∉ a ++ [f.v]) := by
    intro v
    rw [hmemC]
    constructor
    · intro hv
      refine ⟨by rw [hst1]; simp [hv], ?_⟩
      rintro ⟨-, c⟩
      have := hbelow v hv; omega
    · rintro ⟨hv, hc⟩
      rw [hst1] at hv
      simp only [List.mem_append, List.mem_cons] at hv
      rcases hv with hv | hv | hv
      · exact absurd ⟨by rw [hst1]; simp [hv], by have := habove v hv; omega⟩ hc
      · exact absurd ⟨by rw [hst1]; simp [hv], by rw [hv]; omega⟩ hc
      · exact hv
  have hfs_rest : ∀ f' ∈ fs, f'.v ∈ rest := by
    intro f' hf'
    rw [hmem_rest, hmemC]
    have hm := (h.f_stack f' (by rw [hfr]; simp [hf'])).1
    refine ⟨hm, ?_⟩
    rintro ⟨-, c⟩
    have := hfsort.1 f' hf'
    omega
  have hfinC : ∀ v, g.length < ELM_PLIST s.id v → v ∉ a ++ [f.v] := by
    intro v hv hc
    have := h.mem_stack ((hmemC v).1 hc).1
    omega
  -- every edge out of the popped component has been examined
  have hexall : ∀ x, x ∈ a ++ [f.v] → ∀ w' ∈ ELM_PLIST2 g x, Examined g s x w' := by
    intro x hx w' hw'
    by_cases hxf : f.v = x
    · left
      refine ⟨f, by rw [hfr]; simp, hxf, ?_⟩
      rw [List.take_of_length_le (by omega), hfadj, hxf]
      exact hw'
    · right
      refine ⟨?_, hw'⟩
      intro f' hf'
      rw [hfr] at hf'
      simp only [List.mem_cons] at hf'
      rcases hf' with rfl | hf'
      · exact hxf
      · intro e
        have := (hmem_rest _).1 (hfs_rest f' hf')
        rw [e] at this
        exact this.2 hx
  -- so the component and the finished vertices are closed under edges
  have hclosed : ∀ x w', (x ∈ a ++ [f.v] ∨ (1 ≤ x ∧ x ≤ g.length ∧ g.length < ELM_PLIST s.id x)) →
      Edge g x w' →
      (w' ∈ a ++ [f.v] ∨ (1 ≤ w' ∧ w' ≤ g.length ∧ g.length < ELM_PLIST s.id w')) := by
    intro x w' hx he
    obtain ⟨r1, r2⟩ := hg.adj_range he
    rcases hx with hx | ⟨x1, x2, hx⟩
    · rcases hs.ex x ((hmemC x).1 hx).1 w' (hexall x hx w' he) with c | ⟨c1, c2⟩
      · exact Or.inr ⟨r1, r2, c⟩
      · left
        rw [hmemC]
        refine ⟨c1, ?_⟩
        have := c2 (ELM_PLIST s.id f.v) (by rw [hst2]; simp)
        have := ((hmemC x).1 hx).2
        omega
    · exact Or.inr ⟨r1, r2, hs.fin_closed x x1 x2 hx w' he⟩
  have hfin_closed : ∀ x w', (1 ≤ x ∧ x ≤ g.length ∧ g.length < ELM_PLIST s.id x) →
      Edge g x w' → (1 ≤ w' ∧ w' ≤ g.length ∧ g.length < ELM_PLIST s.id w') := by
    rintro x w' ⟨x1, x2, hx⟩ he
    obtain ⟨r1, r2⟩ := hg.adj_range he
    exact ⟨r1, r2, hs.fin_closed x x1 x2 hx w' he⟩
  -- any two vertices of the component reach each other
  have hmutual : ∀ x y, x ∈ a ++ [f.v] → y ∈ a ++ [f.v] → Reach g x y := by
    intro x y hx hy
    obtain ⟨sx, px⟩ := (hmemC x).1 hx
    obtain ⟨sy, py⟩ := (hmemC y).1 hy
    by_cases hle : ELM_PLIST s.id x ≤ ELM_PLIST s.id y
    · exact hs.fwd x sx y sy hle
    · refine hs.bwd y sy x sx (by omega) ?_
      intro b hb hc
      rw [hst2] at hb
      simp only [List.mem_cons] at hb
      rcases hb with rfl | hb
      · omega
      · have := hbs.1 b hb; omega
  exact {
    ex := by
      intro u hu w' he
      change u ∈ rest at hu
      obtain ⟨hus, huC⟩ := (hmem_rest u).1 hu
      have he' : Examined g s u w' := by
        rcases he with ⟨f', hf', e1, e2⟩ | ⟨e1, e2⟩
        · exact Or.inl ⟨f', by rw [hfr]; exact List.mem_cons_of_mem _ hf', e1, e2⟩
        · right
          refine ⟨?_, e2⟩
          intro f' hf'
          rw [hfr] at hf'
          simp only [List.mem_cons] at hf'
          rcases hf' with rfl | hf'
          · intro e
            rw [← e] at hu
            exact hnr hu
          · exact e1 f' hf'
      show g.length < ELM_PLIST (setAll s.id (a ++ [f.v]) (s.count + 1)) w' ∨
        (w' ∈ rest ∧ SameSegment (poppedState s fs a f.v rest bs)
          (ELM_PLIST (setAll s.id (a ++ [f.v]) (s.count + 1)) w')
          (ELM_PLIST (setAll s.id (a ++ [f.v]) (s.count + 1)) u))
      rw [hid, hid u, if_neg huC]
      rcases hs.ex u hus w' he' with c | ⟨c1, c2⟩
      · left
        rw [if_neg (hfinC w' c)]; exact c
      · by_cases hwC : w' ∈ a ++ [f.v]
        · left; rw [if_pos hwC]; omega
        · right
          rw [if_neg hwC]
          refine ⟨(hmem_rest w').2 ⟨c1, hwC⟩, ?_⟩
          intro b hb
          exact c2 b (by rw [hst2]; exact List.mem_cons_of_mem _ hb)
    fin_closed := by
      intro x x1 x2 hx w' hw'
      change g.length < ELM_PLIST (setAll s.id (a ++ [f.v]) (s.count + 1)) x at hx
      show g.length < ELM_PLIST (setAll s.id (a ++ [f.v]) (s.count + 1)) w'
      rw [hid] at hx ⊢
      have hx' : x ∈ a ++ [f.v] ∨ (1 ≤ x ∧ x ≤ g.length ∧ g.length < ELM_PLIST s.id x) := by
        by_cases hxC : x ∈ a ++ [f.v]
        · exact Or.inl hxC
        · rw [if_neg hxC] at hx; exact Or.inr ⟨x1, x2, hx⟩
      rcases hclosed x w' hx' hw' with c | ⟨-, -, c⟩
      · rw [if_pos c]; omega
      · rw [if_neg (hfinC w' c)]; exact c
    fin_scc := by
      intro x y x1 x2 y1 y2 hx
      change g.length < ELM_PLIST (setAll s.id (a ++ [f.v]) (s.count + 1)) x at hx
      show ELM_PLIST (setAll s.id (a ++ [f.v]) (s.count + 1)) x =
        ELM_PLIST (setAll s.id (a ++ [f.v]) (s.count + 1)) y ↔ _
      rw [hid] at hx
      rw [hid, hid y]
      have hle : ∀ v, 1 ≤ v → v ≤ g.length → ELM_PLIST s.id v ≤ s.count := by
        intro v v1 v2
        rcases h.cls v v1 v2 with c | c | c
        · omega
        · have := h.mem_stack c; omega
        · exact c.2
      by_cases hxC : x ∈ a ++ [f.v]
      · rw [if_pos hxC]
        by_cases hyC : y ∈ a ++ [f.v]
        · rw [if_pos hyC]
          simp only [true_iff]
          exact ⟨hmutual x y hxC hyC, hmutual y x hyC hxC⟩
        · rw [if_neg hyC]
          have := hle y y1 y2
          constructor
          · intro e; omega
          · rintro ⟨r1, r2⟩
            exfalso
            rcases reach_closed _ hclosed (Or.inl hxC) r1 with c | c
            · exact hyC c
            · have := reach_closed _ hfin_closed c r2
              exact hfinC x this.2.2 hxC
      · rw [if_neg hxC] at hx ⊢
        by_cases hyC : y ∈ a ++ [f.v]
        · rw [if_pos hyC]
          have := hle x x1 x2
          constructor
          · intro e; omega
          · rintro ⟨r1, -⟩
            exfalso
            have := reach_closed _ hfin_closed ⟨x1, x2, hx⟩ r1
            exact hfinC y this.2.2 hyC
        · rw [if_neg hyC]
          exact hs.fin_scc x y x1 x2 y1 y2 hx
    fwd := by
      intro u hu w' hw' hle
      change u ∈ rest at hu
      change w' ∈ rest at hw'
      change ELM_PLIST (setAll s.id (a ++ [f.v]) (s.count + 1)) u ≤
        ELM_PLIST (setAll s.id (a ++ [f.v]) (s.count + 1)) w' at hle
      obtain ⟨hus, huC⟩ := (hmem_rest u).1 hu
      obtain ⟨hws, hwC⟩ := (hmem_rest w').1 hw'
      rw [hid, hid w', if_neg huC, if_neg hwC] at hle
      exact hs.fwd u hus w' hws hle
    bwd := by
      intro u hu w' hw' hle hsg
      change u ∈ rest at hu
      change w' ∈ rest at hw'
      change ELM_PLIST (setAll s.id (a ++ [f.v]) (s.count + 1)) u ≤
        ELM_PLIST (setAll s.id (a ++ [f.v]) (s.count + 1)) w' at hle
      change SameSegment _ (ELM_PLIST (setAll s.id (a ++ [f.v]) (s.count + 1)) u)
        (ELM_PLIST (setAll s.id (a ++ [f.v]) (s.count + 1)) w') at hsg
      obtain ⟨hus, huC⟩ := (hmem_rest u).1 hu
      obtain ⟨hws, hwC⟩ := (hmem_rest w').1 hw'
      rw [hid, hid w', if_neg huC, if_neg hwC] at hle hsg
      refine hs.bwd u hus w' hws hle ?_
      intro b hb
      rw [hst2] at hb
      simp only [List.mem_cons] at hb
      rcases hb with rfl | hb
      · have := hbelow w' hw'
        omega
      · exact hsg b hb }

/-! ## GABOW_SCC: termination of the search -/

theorem unvisitedWeight_eq_sum (g : List (List Nat)) (id : List Nat) :
    unvisitedWeight g id = ∑ v ∈ (List.range' 1 g.length).toFinset,
      (if ELM_PLIST id v = 0 then (ELM_PLIST2 g v).length + 1 else 0) := by
  unfold unvisitedWeight
  rw [List.sum_toFinset _ (List.nodup_range' 1 g.length)]

theorem unvisitedWeight_congr (g : List (List Nat)) (id id' : List Nat)
    (hz : ∀ v, 1 ≤ v → v ≤ g.length → (ELM_PLIST id' v = 0 ↔ ELM_PLIST id v = 0)) :
    unvisitedWeight g id' = unvisitedWeight g id := by
  rw [unvisitedWeight_eq_sum, unvisitedWeight_eq_sum]
  apply Finset.sum_congr rfl
  intro v hv
  simp only [List.mem_toFinset, List.mem_range'_1] at hv
  have := hz v hv.1 (by omega)
  by_cases h0 : ELM_PLIST id v = 0
  · rw [if_pos h0, if_pos (this.2 h0)]
  · rw [if_neg h0, if_neg (fun e => h0 (this.1 e))]

theorem unvisitedWeight_visit (g : List (List Nat)) (id : List Nat) (w c : Nat)
    (w1 : 1 ≤ w) (w2 : w ≤ g.length) (hl : id.length = g.length)
    (hw0 : ELM_PLIST id w = 0) (hc : c ≠ 0) :
    unvisitedWeight g (SET_ELM_PLIST id w c) + ((ELM_PLIST2 g w).length + 1) =
      unvisitedWeight g id := by
  rw [unvisitedWeight_eq_sum, unvisitedWeight_eq_sum]
  have hm : w ∈ (List.range' 1 g.length).toFinset := by
    simp [List.mem_range'_1]; omega
  rw [← Finset.add_sum_erase _ _ hm, ← Finset.add_sum_erase _ _ hm]
  rw [ELM_SET_same _ _ _ w1 (by omega), if_neg hc, if_pos hw0]
  have : ∀ v ∈ ((List.range' 1 g.length).toFinset).erase w,
      (if ELM_PLIST (SET_ELM_PLIST id w c) v = 0 then (ELM_PLIST2 g v).length + 1 else 0) =
      (if ELM_PLIST id v = 0 then (ELM_PLIST2 g v).length + 1 else 0) := by
    intro v hv
    rw [ELM_SET_other _ _ _ _ (Finset.ne_of_mem_erase hv)]
  rw [Finset.sum_congr rfl this]
  omega

theorem unvisitedWeight_le (g : List (List Nat)) (id : List Nat) :
    unvisitedWeight g id ≤ gabowFuel g := by
  unfold unvisitedWeight gabowFuel
  apply List.sum_le_sum
  intro v _
  split <;> omega

theorem measure_pushed {g : List (List Nat)} {s : GabowState} (h : GInv g s)
    {f : Frame} {fs : List Frame} (hfr : s.frames = f :: fs) {w : Nat}
    (hidx : ¬ f.idx > f.adj.length)
    (w1 : 1 ≤ w) (w2 : w ≤ g.length) (hw0 : ELM_PLIST s.id w = 0) :
    gabowMeasure g (pushedState g s f fs w) < gabowMeasure g s := by
  have := unvisitedWeight_visit g s.id w (s.stack1.length + 1) w1 w2 h.idlen hw0 (by omega)
  simp only [gabowMeasure, pushedState, hfr, List.map_cons, List.sum_cons, frameWeight]
  omega

theorem measure_merged {g : List (List Nat)} {s : GabowState}
    {f : Frame} {fs : List Frame} (hfr : s.frames = f :: fs) (idw : Nat)
    (hidx : ¬ f.idx > f.adj.length) :
    gabowMeasure g (mergedState s f fs idw) < gabowMeasure g s := by
  simp only [gabowMeasure, mergedState, hfr, List.map_cons, List.sum_cons, frameWeight]
  omega

theorem measure_returned {g : List (List Nat)} {s : GabowState}
    {f : Frame} {fs : List Frame} (hfr : s.frames = f :: fs) :
    gabowMeasure g (returnedState s fs) < gabowMeasure g s := by
  simp only [gabowMeasure, returnedState, hfr, List.map_cons, List.sum_cons, frameWeight]
  omega

theorem measure_popped {g : List (List Nat)} {s : GabowState} (h : GInv g s)
    {f : Frame} {fs : List Frame} (hfr : s.frames = f :: fs) {a rest bs : List Nat}
    (hst1 : s.stack1 = a ++ f.v :: rest) :
    gabowMeasure g (poppedState s fs a f.v rest bs) < gabowMeasure g s := by
  have hu : unvisitedWeight g (setAll s.id (a ++ [f.v]) (s.count + 1)) =
      unvisitedWeight g s.id := by
    apply unvisitedWeight_congr
    intro v v1 v2
    rw [h.popped_id hst1]
    split
    · rename_i hv
      have hm : v ∈ s.stack1 := by
        rw [hst1]
        simp only [List.mem_append, List.mem_cons, List.not_mem_nil, or_false] at hv ⊢
        rcases hv with hv | hv
        · exact Or.inl hv
        · exact Or.inr (Or.inl hv)
      have := h.mem_stack hm
      constructor <;> intro e <;> omega
    · rfl
  simp only [gabowMeasure, poppedState, hfr, List.map_cons, List.sum_cons, frameWeight, hu]
  omega

/-! ## GABOW_SCC: the loops -/

/-- One pass of `while (1)` from a state that satisfies the invariants: the pass does not
fail, the invariants hold again, no id becomes 0, and either the loop is left with empty
stacks or the measure has dropped. -/
theorem gabowStep_inv {g : List (List Nat)} {s : GabowState} (hg : ValidDigraph g)
    (h : GInv g s) (hs : GSem g s) (hne : s.frames ≠ []) :
    ∃ s' brk, gabowStep g s = .ok (s', brk) ∧ GInv g s' ∧ GSem g s' ∧
      (∀ v, ELM_PLIST s.id v ≠ 0 → ELM_PLIST s'.id v ≠ 0) ∧
      (brk = true → s'.frames = [] ∧ s'.stack1 = [] ∧ s'.stack2 = []) ∧
      (brk = false → s'.frames ≠ [] ∧ gabowMeasure g s' < gabowMeasure g s) := by
  obtain ⟨f, fs, hfr⟩ : ∃ f fs, s.frames = f :: fs := by
    cases hf : s.frames with
    | nil => exact absurd hf hne
    | cons f fs => exact ⟨f, fs, rfl⟩
  obtain ⟨hfst, hfadj, hf1⟩ := h.f_stack f (by rw [hfr]; simp)
  rcases gabowStep_cases h hfr with ⟨hidx, hw0, hstep⟩ | ⟨hidx, hw0, hstep⟩ |
      ⟨hidx, ⟨b, bs, hst2, hb⟩, hstep⟩ | ⟨hidx, a, rest, bs, hst1, hst2, hstep⟩
  · have hwadj : ELM_PLIST f.adj f.idx ∈ ELM_PLIST2 g f.v := by
      rw [← hfadj]; exact ELM_PLIST_mem_of_idx _ _ hf1 hidx
    obtain ⟨w1, w2⟩ := hg.adj_range hwadj
    refine ⟨_, _, hstep, h.pushed hfr w1 w2 hw0, hs.after_push hg h hfr hidx hw0, ?_,
      (by intro e; cases e), fun _ => ⟨by simp [pushedState], measure_pushed h hfr hidx w1 w2 hw0⟩⟩
    intro v hv
    simp only [pushedState]
    by_cases hvw : v = ELM_PLIST f.adj f.idx
    · rw [hvw, ELM_SET_same _ _ _ w1 (by rw [h.idlen]; exact w2)]; omega
    · rw [ELM_SET_other _ _ _ _ hvw]; exact hv
  · refine ⟨_, _, hstep, h.merged hfr (by omega), hs.after_merge hg h hfr hidx hw0,
      fun v hv => hv, (by intro e; cases e),
      fun _ => ⟨by simp [mergedState], measure_merged hfr _ hidx⟩⟩
  · obtain ⟨hinv, hfs⟩ := h.returned hfr hst2 hb
    have hbrk : fs.isEmpty = false := by
      cases fs with
      | nil => exact absurd rfl hfs
      | cons _ _ => rfl
    rw [hbrk] at hstep
    exact ⟨_, _, hstep, hinv, hs.after_return h hfr hidx, fun v hv => hv, (by intro e; cases e),
      fun _ => ⟨hfs, measure_returned hfr⟩⟩
  · obtain ⟨hinv, hidle⟩ := h.popped hfr hst1 hst2
    refine ⟨_, _, hstep, hinv, hs.after_pop hg h hfr hidx hst1 hst2, ?_, ?_, ?_⟩
    · intro v hv
      simp only [poppedState]
      rw [h.popped_id hst1]
      split
      · omega
      · exact hv
    · intro hbrk
      have hfs : fs = [] := by
        cases fs with
        | nil => rfl
        | cons _ _ => simp at hbrk
      obtain ⟨h1, h2⟩ := hidle hfs
      exact ⟨hfs, h1, h2⟩
    · intro hbrk
      refine ⟨?_, measure_popped h hfr hst1⟩
      intro hfs
      simp only [poppedState] at hfs
      rw [hfs] at hbrk
      simp at hbrk

/-- The `while (1)` loop started in a state that satisfies the invariants, with a budget
that covers the measure: it returns, with empty stacks and the invariants intact. -/
theorem gabowLoop_spec {g : List (List Nat)} (hg : ValidDigraph g) :
    ∀ (fuel : Nat) (s : GabowState), GInv g s → GSem g s → s.frames ≠ [] →
      gabowMeasure g s ≤ fuel →
      ∃ s', gabowLoop g fuel s = .ok s' ∧ GInv g s' ∧ GSem g s' ∧
        (∀ v, ELM_PLIST s.id v ≠ 0 → ELM_PLIST s'.id v ≠ 0) ∧
        s'.frames = [] ∧ s'.stack1 = [] ∧ s'.stack2 = [] := by
  intro fuel
  induction fuel with
  | zero =>
    intro s h hs hne hm
    exfalso
    obtain ⟨s', brk, -, -, -, -, -, hlt⟩ := gabowStep_inv hg h hs hne
    cases brk with
    | false => have := (hlt rfl).2; omega
    | true =>
      -- the measure of a state with a frame is positive
      cases hf : s.frames with
      | nil => exact hne hf
      | cons f fs =>
        simp only [gabowMeasure, hf, List.map_cons, List.sum_cons, frameWeight] at hm
        omega
  | succ fuel ih =>
    intro s h hs hne hm
    obtain ⟨s', brk, hstep, hinv, hsem, hmono, hbrk, hcont⟩ := gabowStep_inv hg h hs hne
    simp only [gabowLoop, hstep]
    cases brk with
    | true =>
      obtain ⟨a, b, c⟩ := hbrk rfl
      exact ⟨s', rfl, hinv, hsem, hmono, a, b, c⟩
    | false =>
      obtain ⟨hne', hlt⟩ := hcont rfl
      obtain ⟨s'', hloop, i1, i2, i3, i4⟩ := ih s' hinv hsem hne' (by omega)
      exact ⟨s'', hloop, i1, i2, fun v hv => i3 v (hmono v hv), i4⟩

theorem rootInv_init (g : List (List Nat)) :
    RootInv g { id := List.replicate g.length 0, stack1 := [], stack2 := [], frames := [],
                count := g.length, comps := [] } where
  inv := {
    idlen := by simp
    st_pos := by intro a v b e; simp at e
    cls := by intro v _ _; exact Or.inl (ELM_replicate _ _)
    cnt := by simp
    comps := by intro k k1 k2; simp at k2; omega
    b_sorted := List.Pairwise.nil
    b_frame := by intro b hb; simp at hb
    b_one := by intro hne; simp at hne
    f_stack := by intro f hf; simp at hf
    f_sorted := List.Pairwise.nil }
  sem := {
    ex := by intro u hu; simp at hu
    fin_closed := by intro x _ _ hx; simp [ELM_replicate] at hx
    fin_scc := by intro x y _ _ _ _ hx; simp [ELM_replicate] at hx
    fwd := by intro u hu; simp at hu
    bwd := by intro u hu; simp at hu }
  frames := rfl
  stack1 := rfl
  stack2 := rfl

theorem gabowPush_eq {g : List (List Nat)} {s : GabowState} (hs : RootInv g s) (v : Nat) :
    gabowPush g s v =
      { id := SET_ELM_PLIST s.id v 1, stack1 := [v], stack2 := [1],
        frames := [{ v := v, idx := 1, adj := ELM_PLIST2 g v }],
        count := s.count, comps := s.comps } := by
  simp [gabowPush, hs.stack1, hs.stack2]

theorem gabowPush_inv {g : List (List Nat)} {s : GabowState} (hs : RootInv g s) {v : Nat}
    (v1 : 1 ≤ v) (v2 : v ≤ g.length) (hv0 : ELM_PLIST s.id v = 0) :
    GInv g (gabowPush g s v) ∧ GSem g (gabowPush g s v) ∧ (gabowPush g s v).frames ≠ [] ∧
      gabowMeasure g (gabowPush g s v) ≤ gabowFuel g ∧
      (∀ u, ELM_PLIST s.id u ≠ 0 → ELM_PLIST (gabowPush g s v).id u ≠ 0) ∧
      ELM_PLIST (gabowPush g s v).id v ≠ 0 := by
  have h := hs.inv
  have hid : ∀ u, u ≠ v → ELM_PLIST (SET_ELM_PLIST s.id v 1) u = ELM_PLIST s.id u :=
    fun u hu => ELM_SET_other _ _ _ _ hu
  have hidv : ELM_PLIST (SET_ELM_PLIST s.id v 1) v = 1 :=
    ELM_SET_same _ _ _ v1 (by rw [h.idlen]; exact v2)
  have hfin_ne : ∀ u, g.length < ELM_PLIST s.id u → u ≠ v := by
    intro u hu e; rw [e, hv0] at hu; omega
  rw [gabowPush_eq hs]
  refine ⟨?_, ?_, by simp, ?_, ?_, ?_⟩
  · exact {
      idlen := by simp [length_SET_ELM_PLIST, h.idlen]
      st_pos := by
        intro a x b e
        simp only at e ⊢
        cases a with
        | nil =>
          simp only [List.nil_append, List.cons.injEq] at e
          obtain ⟨rfl, rfl⟩ := e
          exact ⟨v1, v2, by rw [hidv]; rfl⟩
        | cons y a =>
          simp only [List.cons_append, List.cons.injEq] at e
          have := e.2
          simp at this
      cls := by
        intro x x1 x2
        simp only
        by_cases hx : x = v
        · right; left; simp [hx]
        · rw [hid x hx]
          rcases h.cls x x1 x2 with c | c | c
          · exact Or.inl c
          · rw [hs.stack1] at c; simp at c
          · exact Or.inr (Or.inr c)
      cnt := h.cnt
      comps := by
        intro k k1 k2
        obtain ⟨a, b, c⟩ := h.comps k k1 k2
        refine ⟨a, b, ?_⟩
        intro x
        simp only
        rw [c x]
        by_cases hx : x = v
        · subst hx
          rw [hidv, hv0]
          constructor
          · rintro ⟨_, _, e⟩; omega
          · rintro ⟨_, _, e⟩; omega
        · rw [hid x hx]
      b_sorted := List.pairwise_singleton _ _
      b_frame := by
        intro b hb
        simp only [List.mem_singleton] at hb
        exact ⟨_, List.mem_singleton.2 rfl, by rw [hb]; exact hidv⟩
      b_one := fun _ => List.mem_singleton.2 rfl
      f_stack := by
        intro f hf
        simp only [List.mem_singleton] at hf
        subst hf
        exact ⟨List.mem_singleton.2 rfl, rfl, le_refl _⟩
      f_sorted := List.pairwise_singleton _ _ }
  · exact {
      ex := by
        intro u hu w he
        exfalso
        simp only [List.mem_singleton] at hu
        rcases he with ⟨f, hf, e1, e2⟩ | ⟨e1, -⟩
        · simp only [List.mem_singleton] at hf
          subst hf
          simp at e2
        · exact e1 _ (List.mem_singleton.2 rfl) hu.symm
      fin_closed := by
        intro x x1 x2 hx w hw
        simp only at hx ⊢
        by_cases hxv : x = v
        · rw [hxv, hidv] at hx; omega
        · rw [hid x hxv] at hx
          have := hs.sem.fin_closed x x1 x2 hx w hw
          rw [hid w (hfin_ne w this)]
          exact this
      fin_scc := by
        intro x y x1 x2 y1 y2 hx
        simp only at hx ⊢
        by_cases hxv : x = v
        · rw [hxv, hidv] at hx; omega
        · rw [hid x hxv] at hx ⊢
          by_cases hyv : y = v
          · rw [hyv, hidv]
            have := hs.sem.fin_scc x v x1 x2 v1 v2 hx
            rw [hv0] at this
            constructor
            · intro e; omega
            · intro e; have := this.2 e; omega
          · rw [hid y hyv]
            exact hs.sem.fin_scc x y x1 x2 y1 y2 hx
      fwd := by
        intro u hu w hw _
        simp only [List.mem_singleton] at hu hw
        rw [hu, hw]
        exact Relation.ReflTransGen.refl
      bwd := by
        intro u hu w hw _ _
        simp only [List.mem_singleton] at hu hw
        rw [hu, hw]
        exact Relation.ReflTransGen.refl }
  · have := unvisitedWeight_visit g s.id v 1 v1 v2 h.idlen hv0 (by omega)
    have hle := unvisitedWeight_le g s.id
    simp only [gabowMeasure, List.map_cons, List.map_nil, List.sum_cons, List.sum_nil,
      frameWeight]
    omega
  · intro u hu
    simp only
    by_cases huv : u = v
    · rw [huv, hidv]; omega
    · rw [hid u huv]; exact hu
  · simp only
    rw [hidv]; omega

theorem gabowRoots_spec {g : List (List Nat)} (hg : ValidDigraph g) :
    ∀ (vs : List Nat) (s : GabowState), (∀ v ∈ vs, 1 ≤ v ∧ v ≤ g.length) → RootInv g s →
      ∃ s', gabowRoots g (gabowFuel g) vs s = .ok s' ∧ RootInv g s' ∧
        (∀ v, ELM_PLIST s.id v ≠ 0 → ELM_PLIST s'.id v ≠ 0) ∧
        (∀ v ∈ vs, ELM_PLIST s'.id v ≠ 0) := by
  intro vs
  induction vs with
  | nil =>
    intro s _ hs
    exact ⟨s, rfl, hs, fun _ hv => hv, by intro v hv; simp at hv⟩
  | cons v vs ih =>
    intro s hvs hs
    obtain ⟨v1, v2⟩ := hvs v (List.mem_cons_self _ _)
    have hvs' : ∀ u ∈ vs, 1 ≤ u ∧ u ≤ g.length := fun u hu => hvs u (List.mem_cons_of_mem _ hu)
    simp only [gabowRoots]
    split
    · rename_i hv0
      obtain ⟨p1, p2, p3, p4, p5, p6⟩ := gabowPush_inv hs v1 v2 hv0
      obtain ⟨s1, hloop, l1, l2, l3, l4, l5, l6⟩ :=
        gabowLoop_spec hg (gabowFuel g) (gabowPush g s v) p1 p2 p3 p4
      rw [hloop]
      obtain ⟨s', hrest, r1, r2, r3⟩ := ih s1 hvs' ⟨l1, l2, l4, l5, l6⟩
      refine ⟨s', hrest, r1, fun u hu => r2 u (l3 u (p5 u hu)), ?_⟩
      intro u hu
      simp only [List.mem_cons] at hu
      rcases hu with rfl | hu
      · exact r2 u (l3 u p6)
      · exact r3 u hu
    · rename_i hv0
      obtain ⟨s', hrest, r1, r2, r3⟩ := ih s hvs' hs
      refine ⟨s', hrest, r1, r2, ?_⟩
      intro u hu
      simp only [List.mem_cons] at hu
      rcases hu with rfl | hu
      · exact r2 u hv0
      · exact r3 u hu

/-! ## GABOW_SCC: the result -/

theorem ELM_map_sub (l : List Nat) (n v : Nat) :
    ELM_PLIST (l.map (fun x => x - n)) v = ELM_PLIST l v - n := by
  cases v with
  | zero => simp [ELM_PLIST]
  | succ k =>
    simp only [ELM_PLIST, List.getD_eq_getElem?_getD, List.getElem?_map]
    cases l[k]? <;> simp

/-- The result of `GABOW_SCC` on a valid digraph, as the final state of the search: every
vertex is finished. -/
theorem GABOW_SCC_final {g : List (List Nat)} (hg : ValidDigraph g) (hn : g.length ≠ 0) :
    ∃ s, GABOW_SCC g = .ok { id := s.id.map (fun x => x - g.length), comps := s.comps } ∧
      GInv g s ∧ GSem g s ∧
      ∀ v, 1 ≤ v → v ≤ g.length →
        g.length < ELM_PLIST s.id v ∧ ELM_PLIST s.id v ≤ g.length + s.comps.length := by
  obtain ⟨s, hroots, hr, -, hall⟩ := gabowRoots_spec hg (List.range' 1 g.length) _
    (by intro v hv; simp only [List.mem_range'_1] at hv; omega) (rootInv_init g)
  refine ⟨s, ?_, hr.inv, hr.sem, ?_⟩
  · simp only [GABOW_SCC, hn, if_false, hroots]
  · intro v v1 v2
    have hnz := hall v (by simp only [List.mem_range'_1]; omega)
    rcases hr.inv.cls v v1 v2 with c | c | c
    · exact absurd c hnz
    · rw [hr.stack1] at c; simp at c
    · rw [hr.inv.cnt] at c; exact c

/-- The record returned by `GABOW_SCC` on a valid digraph has the shape of an SCC record,
and its ids are equal exactly for mutually reachable vertices. -/
theorem GABOW_SCC_spec {g : List (List Nat)} (hg : ValidDigraph g) :
    ∃ r, GABOW_SCC g = .ok r ∧ ValidSCC g.length r ∧
      ∀ u v, 1 ≤ u → u ≤ g.length → 1 ≤ v → v ≤ g.length →
        (ELM_PLIST r.id u = ELM_PLIST r.id v ↔ Reach g u v ∧ Reach g v u) := by
  by_cases hn : g.length = 0
  · refine ⟨{ id := [], comps := [] }, by simp [GABOW_SCC, hn], ?_, ?_⟩
    · rw [hn]; exact validSCC_nil
    · intro u v u1 u2; omega
  · obtain ⟨s, hres, hinv, hsem, hfin⟩ := GABOW_SCC_final hg hn
    refine ⟨_, hres, ⟨by simp [hinv.idlen], ?_, ?_⟩, ?_⟩
    · intro v v1 v2
      simp only [ELM_map_sub]
      have := hfin v v1 v2
      omega
    · intro k k1 k2
      obtain ⟨c1, c2, c3⟩ := hinv.comps k k1 k2
      refine ⟨c1, c2, ?_⟩
      intro x
      simp only [ELM_map_sub]
      rw [c3 x]
      constructor
      · rintro ⟨x1, x2, e⟩; exact ⟨x1, x2, by omega⟩
      · rintro ⟨x1, x2, e⟩
        have := hfin x x1 x2
        exact ⟨x1, x2, by omega⟩
    · intro u v u1 u2 v1 v2
      simp only [ELM_map_sub]
      have hu := hfin u u1 u2
      have hv := hfin v v1 v2
      rw [← hsem.fin_scc u v u1 u2 v1 v2 hu.1]
      constructor
      · intro e; omega
      · intro e; omega

theorem validSCC_count_flatten {n : Nat} {r : SCCResult} (h : ValidSCC n r) {v : Nat}
    (v1 : 1 ≤ v) (v2 : v ≤ n) : r.comps.flatten.count v = 1 := by
  obtain ⟨i1, i2⟩ := h.2.1 v v1 v2
  have hcomp : ∀ (i : Nat) (hi : i < r.comps.length), ELM_PLIST2 r.comps (i + 1) = r.comps[i] := by
    intro i hi
    simp [ELM_PLIST2, List.getD_eq_getElem?_getD, List.getElem?_eq_getElem hi]
  apply List.count_eq_one_of_mem
  · rw [List.nodup_flatten]
    constructor
    · intro l hl
      obtain ⟨i, hi, rfl⟩ := List.getElem_of_mem hl
      rw [← hcomp i hi]
      exact (h.2.2 (i + 1) (by omega) (by omega)).1
    · rw [List.pairwise_iff_getElem]
      intro i j hi hj hij x hx hy
      rw [← hcomp i hi] at hx
      rw [← hcomp j hj] at hy
      have a := ((h.2.2 (i + 1) (by omega) (by omega)).2.2 x).1 hx
      have b := ((h.2.2 (j + 1) (by omega) (by omega)).2.2 x).1 hy
      omega
  · rw [List.mem_flatten]
    refine ⟨ELM_PLIST2 r.comps (ELM_PLIST r.id v), ?_, ?_⟩
    · obtain ⟨k, hk⟩ : ∃ k, ELM_PLIST r.id v = k + 1 := ⟨ELM_PLIST r.id v - 1, by omega⟩
      rw [hk, hcomp k (by omega)]
      exact List.getElem_mem _
    · exact ((h.2.2 _ i1 i2).2.2 v).2 ⟨v1, v2, rfl⟩

/-- C1. For every digraph on the vertices `1..n` whose adjacency entries all lie in `1..n`,
`GABOW_SCC` returns a record in which two vertices have the same id exactly when each
reaches the other by a directed path. -/
theorem GABOW_SCC_same_id_iff (g : List (List Nat)) (hg : ValidDigraph g) :
    ∃ r, GABOW_SCC g = .ok r ∧
      ∀ u v, 1 ≤ u → u ≤ g.length → 1 ≤ v → v ≤ g.length →
        (ELM_PLIST r.id u = ELM_PLIST r.id v ↔ Reach g u v ∧ Reach g v u) := by
  obtain ⟨r, h1, -, h3⟩ := GABOW_SCC_spec hg
  exact ⟨r, h1, h3⟩

/-- C2. For every digraph on the vertices `1..n` whose adjacency entries all lie in `1..n`,
`GABOW_SCC` returns a record `(id, comps)` in which every vertex `v` has
`1 ≤ id[v] ≤ length(comps)` and occurs in `comps[id[v]]`, every vertex occurs exactly once
over all the component lists, and every component list is non-empty. -/
theorem GABOW_SCC_partition (g : List (List Nat)) (hg : ValidDigraph g) :
    ∃ r, GABOW_SCC g = .ok r ∧ ValidSCC g.length r ∧
      (∀ v, 1 ≤ v → v ≤ g.length →
        1 ≤ ELM_PLIST r.id v ∧ ELM_PLIST r.id v ≤ r.comps.length ∧
        v ∈ ELM_PLIST2 r.comps (ELM_PLIST r.id v) ∧ r.comps.flatten.count v = 1) ∧
      (∀ c ∈ r.comps, c ≠ [] ∧ ∀ x ∈ c, 1 ≤ x ∧ x ≤ g.length) := by
  obtain ⟨r, h1, h2, -⟩ := GABOW_SCC_spec hg
  refine ⟨r, h1, h2, ?_, ?_⟩
  · intro v v1 v2
    obtain ⟨i1, i2⟩ := h2.2.1 v v1 v2
    exact ⟨i1, i2, ((h2.2.2 _ i1 i2).2.2 v).2 ⟨v1, v2, rfl⟩, validSCC_count_flatten h2 v1 v2⟩
  · intro c hc
    obtain ⟨i, hi, rfl⟩ := List.getElem_of_mem hc
    have hcomp : ELM_PLIST2 r.comps (i + 1) = r.comps[i] := by
      simp [ELM_PLIST2, List.getD_eq_getElem?_getD, List.getElem?_eq_getElem hi]
    obtain ⟨-, c2, c3⟩ := h2.2.2 (i + 1) (by omega) (by omega)
    rw [hcomp] at c2 c3
    exact ⟨c2, fun x hx => ⟨((c3 x).1 hx).1, ((c3 x).1 hx).2.1⟩⟩

theorem validDigraph_triangle : ValidDigraph triangle := by
  intro adj hadj w hw
  simp only [triangle, List.mem_cons, List.mem_singleton, List.not_mem_nil, or_false] at hadj
  rcases hadj with rfl | rfl | rfl <;> simp at hw <;> rcases hw with rfl | rfl <;> decide

/-- Witness of C1: the statement holds at the digraph `[[2,3],[1],[2]]`. -/
theorem GABOW_SCC_same_id_iff_witness :
    ∃ r, GABOW_SCC triangle = .ok r ∧
      ∀ u v, 1 ≤ u → u ≤ triangle.length → 1 ≤ v → v ≤ triangle.length →
        (ELM_PLIST r.id u = ELM_PLIST r.id v ↔ Reach triangle u v ∧ Reach triangle v u) :=
  GABOW_SCC_same_id_iff triangle validDigraph_triangle

/-- Witness of C2: the statement holds at the digraph `[[2,3],[1],[2]]`. -/
theorem GABOW_SCC_partition_witness :
    ∃ r, GABOW_SCC triangle = .ok r ∧ ValidSCC triangle.length r :=
  let ⟨r, h1, h2, _⟩ := GABOW_SCC_partition triangle validDigraph_triangle
  ⟨r, h1, h2⟩

/-! ## Loop invariants for folds -/

theorem foldl_range'_inv {σ : Type} (f : σ → Nat → σ) (P : Nat → σ → Prop) :
    ∀ (len a : Nat) (s0 : σ), P 0 s0 →
      (∀ c s, c < len → P c s → P (c + 1) (f s (a + c))) →
      P len ((List.range' a len).foldl f s0) := by
  intro len
  induction len with
  | zero => intro a s0 h0 _; simpa using h0
  | succ len ih =>
    intro a s0 h0 hstep
    rw [List.range'_concat, List.foldl_append]
    simp only [List.foldl_cons, List.foldl_nil, one_mul]
    exact hstep len _ (by omega)
      (ih a s0 h0 (fun c s hc hP => hstep c s (by omega) hP))

theorem foldl_prefix_inv {σ β : Type} (f : σ → β → σ) (P : List β → σ → Prop) :
    ∀ (post pre : List β) (s0 : σ), P pre s0 →
      (∀ p x q s, pre ++ post = p ++ x :: q → pre.length ≤ p.length → P p s →
        P (p ++ [x]) (f s x)) →
      P (pre ++ post) (post.foldl f s0) := by
  intro post
  induction post with
  | nil => intro pre s0 h0 _; simpa using h0
  | cons x post ih =>
    intro pre s0 h0 hstep
    have h1 : P (pre ++ [x]) (f s0 x) := hstep pre x post s0 rfl (le_refl _) h0
    have h2 := ih (pre ++ [x]) (f s0 x) h1 (by
      intro p y q s hpq hlen hP
      refine hstep p y q s (by simpa using hpq) ?_ hP
      simp at hlen; omega)
    simpa using h2

theorem foldl_inv {σ β : Type} (f : σ → β → σ) (P : List β → σ → Prop)
    (l : List β) (s0 : σ) (h0 : P [] s0)
    (hstep : ∀ p x q s, l = p ++ x :: q → P p s → P (p ++ [x]) (f s x)) :
    P l (l.foldl f s0) := by
  have := foldl_prefix_inv f P l [] s0 h0 (by
    intro p x q s hpq _ hP
    exact hstep p x q s (by simpa using hpq) hP)
  simpa using this

theorem cnt_succ (rid : List Nat) (t k : Nat) :
    cnt rid (t + 1) k = cnt rid t k + if ELM_PLIST rid (1 + t) = k then 1 else 0 := by
  unfold cnt
  rw [List.range'_concat, List.countP_append]
  simp [List.countP_cons]

theorem cnt_mono (rid : List Nat) (k : Nat) {t u : Nat} (h : t ≤ u) :
    cnt rid t k ≤ cnt rid u k := by
  induction u with
  | zero => have : t = 0 := by omega
            subst this; exact le_refl _
  | succ u ih =>
    by_cases htu : t = u + 1
    · subst htu; exact le_refl _
    · have := ih (by omega)
      rw [cnt_succ]; omega

theorem cnt_lt_of_next (rid : List Nat) (n c : Nat) (hc : c < n) :
    cnt rid c (ELM_PLIST rid (1 + c)) + 1 ≤ cnt rid n (ELM_PLIST rid (1 + c)) := by
  have h1 := cnt_mono rid (ELM_PLIST rid (1 + c)) (show c + 1 ≤ n by omega)
  rw [cnt_succ] at h1
  simpa using h1

theorem start_succ (rid : List Nat) (n k : Nat) :
    start rid n (k + 1) = start rid n k + cnt rid n k := by
  unfold start cnt
  generalize List.range' 1 n = l
  induction l with
  | nil => simp
  | cons v l ih =>
    simp only [List.countP_cons] at ih ⊢
    by_cases h1 : ELM_PLIST rid v < k
    · have h2 : ELM_PLIST rid v < k + 1 := by omega
      have h3 : ELM_PLIST rid v ≠ k := by omega
      simp only [h1, h2, h3, decide_True, decide_False, if_true] at ih ⊢
      simp at ih ⊢
      omega
    · by_cases h2 : ELM_PLIST rid v = k
      · have h3 : ELM_PLIST rid v < k + 1 := by omega
        simp only [h1, h2, h3, decide_True, decide_False, if_true] at ih ⊢
        simp at ih ⊢
        omega
      · have h3 : ¬ ELM_PLIST rid v < k + 1 := by omega
        simp only [h1, h2, h3, decide_True, decide_False, if_true] at ih ⊢
        simp at ih ⊢
        omega

theorem start_mono (rid : List Nat) (n : Nat) {k j : Nat} (h : k ≤ j) :
    start rid n k ≤ start rid n j := by
  unfold start
  have := List.countP_mono_left (l := List.range' 1 n)
    (p := fun v => decide (ELM_PLIST rid v < k)) (q := fun v => decide (ELM_PLIST rid v < j))
    (by intro x _ hx; simp at hx ⊢; omega)
  omega

theorem start_add_cnt_le (rid : List Nat) (n : Nat) {k j : Nat} (h : k < j) :
    start rid n k + cnt rid n k ≤ start rid n j := by
  rw [← start_succ]
  exact start_mono rid n h

theorem start_le (rid : List Nat) (n k : Nat) : start rid n k ≤ n + 1 := by
  unfold start
  have := List.countP_le_length (p := fun v => decide (ELM_PLIST rid v < k))
    (l := List.range' 1 n)
  simp at this
  omega

theorem start_pos (rid : List Nat) (n k : Nat) : 1 ≤ start rid n k := by
  unfold start; omega

theorem start_one (rid : List Nat) (n : Nat)
    (h : ∀ v, 1 ≤ v → v ≤ n → 1 ≤ ELM_PLIST rid v) : start rid n 1 = 1 := by
  unfold start
  have : (List.range' 1 n).countP (fun v => decide (ELM_PLIST rid v < 1)) = 0 := by
    rw [List.countP_eq_zero]
    intro v hv
    simp only [List.mem_range'_1] at hv
    have := h v hv.1 (by omega)
    simp; omega
  omega

theorem comp_length_eq_cnt {n : Nat} {r : SCCResult} (h : ValidSCC n r) {k : Nat}
    (h1 : 1 ≤ k) (h2 : k ≤ r.comps.length) :
    (ELM_PLIST2 r.comps k).length = cnt r.id n k := by
  obtain ⟨hn, hx⟩ := (h.2.2 k h1 h2)
  have hp : (ELM_PLIST2 r.comps k).Perm
      ((List.range' 1 n).filter (fun v => decide (ELM_PLIST r.id v = k))) := by
    rw [List.perm_ext_iff_of_nodup hn ((List.nodup_range' 1 n).filter _)]
    intro a
    rw [hx.2 a]
    simp only [List.mem_filter, List.mem_range'_1, decide_eq_true_eq]
    constructor
    · rintro ⟨a1, a2, a3⟩; exact ⟨⟨a1, by omega⟩, a3⟩
    · rintro ⟨⟨a1, a2⟩, a3⟩; exact ⟨a1, by omega, a3⟩
  rw [hp.length_eq, cnt, List.countP_eq_length_filter]

theorem initNextpos_spec {n : Nat} {r : SCCResult} (h : ValidSCC n r) :
    (initNextpos r.comps).length = r.comps.length ∧
    ∀ k, 1 ≤ k → k ≤ r.comps.length → ELM_PLIST (initNextpos r.comps) k = start r.id n k := by
  unfold initNextpos
  have key := foldl_range'_inv
    (fun nextpos i =>
      SET_ELM_PLIST nextpos i (ELM_PLIST nextpos (i - 1) + (ELM_PLIST2 r.comps (i - 1)).length))
    (fun c np => np.length = r.comps.length ∧
      ∀ k, 1 ≤ k → k ≤ c + 1 → k ≤ r.comps.length → ELM_PLIST np k = start r.id n k)
    (r.comps.length - 1) 2 (SET_ELM_PLIST (List.replicate r.comps.length 0) 1 1)
    (by
      refine ⟨by simp [length_SET_ELM_PLIST], ?_⟩
      intro k k1 k2 k3
      have hk : k = 1 := by omega
      subst hk
      rw [ELM_SET_same _ _ _ (le_refl _) (by simpa using k3)]
      exact (start_one r.id n (fun v v1 v2 => (h.2.1 v v1 v2).1)).symm)
    (by
      intro c np hc ⟨hl, hP⟩
      refine ⟨by simp [length_SET_ELM_PLIST, hl], ?_⟩
      intro k k1 k2 k3
      have e1 : 2 + c - 1 = c + 1 := by omega
      rw [ELM_SET _ _ _ _ (by omega) (by omega), e1]
      split
      · rename_i hk
        rw [hP (c + 1) (by omega) (by omega) (by omega),
          comp_length_eq_cnt h (by omega) (by omega), hk, ← start_succ]
        congr 1; omega
      · rename_i hk
        exact hP k k1 (by omega) k3)
  exact ⟨key.1, fun k k1 k2 => key.2 k k1 (by omega) k2⟩

theorem SET_replicate_zero (n i : Nat) :
    SET_ELM_PLIST (List.replicate n 0) i 0 = List.replicate n 0 := by
  cases i with
  | zero => rfl
  | succ k =>
    simp only [SET_ELM_PLIST]
    apply List.ext_getElem
    · simp
    · intro m h1 h2
      simp [List.getElem_set]

theorem bucketStep_inv {n : Nat} {r : SCCResult} (h : ValidSCC n r) (c : Nat) (b : HBuf)
    (hc : c < n) (hb : BucketInv r n c b) :
    BucketInv r n (c + 1) (bucketStep r.id b (1 + c)) := by
  obtain ⟨hl1, hl2, hl3, hnp, hs⟩ := hb
  obtain ⟨j1, j2⟩ := h.2.1 (1 + c) (by omega) (by omega)
  have hq := hnp _ j1 j2
  have hroom := cnt_lt_of_next r.id n c hc
  have hend : start r.id n (ELM_PLIST r.id (1 + c)) + cnt r.id n (ELM_PLIST r.id (1 + c))
      ≤ n + 1 := by
    rw [← start_succ]; exact start_le _ _ _
  have hq1 := start_pos r.id n (ELM_PLIST r.id (1 + c))
  refine ⟨by simp [bucketStep, length_SET_ELM_PLIST, hl1],
    by simp [bucketStep, length_SET_ELM_PLIST, hl2],
    by simp [bucketStep, hl3, SET_replicate_zero], ?_, ?_⟩
  · intro k k1 k2
    simp only [bucketStep]
    rw [ELM_SET _ _ _ _ j1 (by omega), cnt_succ]
    split
    · rename_i hk
      subst hk
      rw [hq]; simp; omega
    · rename_i hk
      rw [hnp k k1 k2, if_neg (fun e => hk e.symm)]; rfl
  · intro v v1 v2
    simp only [bucketStep]
    by_cases hv : v = 1 + c
    · subst hv
      refine ⟨ELM_PLIST b.nextpos (ELM_PLIST r.id (1 + c)), by omega, ?_, ?_⟩
      · rw [ELM_SET_same _ _ _ j1 (by omega)]; omega
      · exact ELM_SET_same _ _ _ (by omega) (by omega)
    · obtain ⟨p, p1, p2, p3⟩ := hs v v1 (by omega)
      obtain ⟨i1, i2⟩ := h.2.1 v v1 (by omega)
      have hpk := hnp _ i1 i2
      have hcm := cnt_mono r.id (ELM_PLIST r.id v) (show c ≤ n by omega)
      refine ⟨p, p1, ?_, ?_⟩
      · rw [ELM_SET _ _ _ _ j1 (by omega)]
        split
        · rename_i e; rw [← e]; omega
        · exact p2
      · rw [ELM_SET_other]
        · exact p3
        · intro e
          rcases Nat.lt_trichotomy (ELM_PLIST r.id v) (ELM_PLIST r.id (1 + c)) with hlt | heq | hgt
          · have := start_add_cnt_le r.id n hlt
            omega
          · rw [heq] at p2; omega
          · have := start_add_cnt_le r.id n hgt
            omega

theorem bucket_loop_spec {n : Nat} {r : SCCResult} (h : ValidSCC n r) :
    BucketInv r n n ((List.range' 1 n).foldl (bucketStep r.id)
      { nextpos := initNextpos r.comps, sorted := List.replicate n 0,
        lookup := List.replicate n 0 }) := by
  apply foldl_range'_inv (bucketStep r.id) (fun c b => BucketInv r n c b)
  · obtain ⟨i1, i2⟩ := initNextpos_spec h
    refine ⟨i1, by simp, rfl, ?_, ?_⟩
    · intro k k1 k2
      rw [i2 k k1 k2]; simp [cnt]
    · intro v v1 v2; omega
  · intro c s hc hs
    exact bucketStep_inv h c s hc hs

/-! ## FIND_HCLASSES: the first loop sorts by left component -/

theorem sortedSpec_of_bucketInv {n : Nat} {r : SCCResult} (h : ValidSCC n r) {b : HBuf}
    (hb : BucketInv r n n b) : SortedSpec r.id n b.sorted := by
  obtain ⟨-, hl2, -, hnp, hs⟩ := hb
  -- every vertex sits at a position inside its bucket
  have hpos : ∀ v, 1 ≤ v → v ≤ n → ∃ p, start r.id n (ELM_PLIST r.id v) ≤ p ∧
      p < start r.id n (ELM_PLIST r.id v) + cnt r.id n (ELM_PLIST r.id v) ∧
      ELM_PLIST b.sorted p = v := by
    intro v v1 v2
    obtain ⟨p, p1, p2, p3⟩ := hs v v1 v2
    obtain ⟨i1, i2⟩ := h.2.1 v v1 v2
    rw [hnp _ i1 i2] at p2
    exact ⟨p, p1, p2, p3⟩
  have hrange : ∀ v p, start r.id n (ELM_PLIST r.id v) ≤ p →
      p < start r.id n (ELM_PLIST r.id v) + cnt r.id n (ELM_PLIST r.id v) →
      1 ≤ p ∧ p ≤ b.sorted.length := by
    intro v p p1 p2
    have a := start_pos r.id n (ELM_PLIST r.id v)
    have c := start_le r.id n (ELM_PLIST r.id v + 1)
    rw [start_succ] at c
    omega
  have hperm : b.sorted.Perm (List.range' 1 n) := by
    have hsub : List.range' 1 n ⊆ b.sorted := by
      intro v hv
      simp only [List.mem_range'_1] at hv
      obtain ⟨p, p1, p2, p3⟩ := hpos v hv.1 (by omega)
      obtain ⟨q1, q2⟩ := hrange v p p1 p2
      rw [← p3]
      exact ELM_PLIST_mem _ _ q1 q2
    exact ((List.subperm_of_subset (List.nodup_range' 1 n) hsub).perm_of_length_le
      (by simp [hl2])).symm
  refine ⟨hperm, ?_⟩
  have hnd : b.sorted.Nodup := hperm.nodup_iff.2 (List.nodup_range' 1 n)
  rw [List.pairwise_iff_getElem]
  intro i j hi hj hij
  by_contra hlt
  have hlt : ELM_PLIST r.id b.sorted[j] < ELM_PLIST r.id b.sorted[i] := by omega
  have mi : b.sorted[i] ∈ List.range' 1 n := hperm.subset (List.getElem_mem _)
  have mj : b.sorted[j] ∈ List.range' 1 n := hperm.subset (List.getElem_mem _)
  simp only [List.mem_range'_1] at mi mj
  obtain ⟨p, p1, p2, p3⟩ := hpos _ mi.1 (by omega)
  obtain ⟨q, q1, q2, q3⟩ := hpos _ mj.1 (by omega)
  obtain ⟨a1, a2⟩ := hrange _ p p1 p2
  obtain ⟨b1, b2⟩ := hrange _ q q1 q2
  obtain ⟨p', rfl⟩ : ∃ p', p = p' + 1 := ⟨p - 1, by omega⟩
  obtain ⟨q', rfl⟩ : ∃ q', q = q' + 1 := ⟨q - 1, by omega⟩
  rw [ELM_PLIST_eq_getElem _ _ (by omega)] at p3 q3
  have ei : p' = i := (hnd.getElem_inj_iff).1 p3
  have ej : q' = j := (hnd.getElem_inj_iff).1 q3
  have := start_add_cnt_le r.id n hlt
  omega

/-! ## The second loop of `FIND_HCLASSES` -/

theorem appendAt_length (cs : List (List Nat)) (k j : Nat) :
    (appendAt cs k j).length = cs.length := by
  induction cs generalizing k with
  | nil => simp [appendAt]
  | cons c cs ih =>
    match k with
    | 0 => simp [appendAt]
    | 1 => simp [appendAt]
    | k + 2 => simp [appendAt, ih]

theorem ELM_appendAt (cs : List (List Nat)) (k j c : Nat) (h1 : 1 ≤ k) (h2 : k ≤ cs.length) :
    ELM_PLIST2 (appendAt cs k j) c = if c = k then ELM_PLIST2 cs k ++ [j] else ELM_PLIST2 cs c := by
  induction cs generalizing k c with
  | nil => simp at h2; omega
  | cons d cs ih =>
    match k, h1, h2 with
    | 1, _, _ =>
      match c with
      | 0 => simp [appendAt, ELM_PLIST2]
      | 1 => simp [appendAt, ELM_PLIST2]
      | c + 2 => simp [appendAt, ELM_PLIST2]
    | k + 2, _, h2 =>
      match c with
      | 0 => simp [appendAt, ELM_PLIST2]
      | 1 => simp [appendAt, ELM_PLIST2]
      | c + 2 =>
        have := ih (k + 1) (c + 1) (by omega) (by simpa using h2)
        simp only [ELM_PLIST2, appendAt, List.getD_cons_succ] at this ⊢
        rw [this]
        simp

theorem appendAt_snoc (cs : List (List Nat)) (j : Nat) :
    appendAt (cs ++ [[]]) (cs.length + 1) j = cs ++ [[j]] := by
  induction cs with
  | nil => simp [appendAt]
  | cons d cs ih =>
    cases cs with
    | nil => simp [appendAt]
    | cons e cs =>
      simp only [List.cons_append, List.length_cons, appendAt] at ih ⊢
      rw [ih]

theorem hclassStep_cases (rid lid : List Nat) (s : HState) (j : Nat)
    (hl1 : 1 ≤ ELM_PLIST lid j) (hl2 : ELM_PLIST lid j ≤ s.lookup.length)
    (hh : s.hindex = s.comps.length) :
    (ELM_PLIST s.lookup (ELM_PLIST lid j) ≤
        (if ELM_PLIST rid j > s.rindex then s.hindex else s.init) ∧
      hclassStep rid lid s j =
        { hindex := s.hindex + 1,
          rindex := if ELM_PLIST rid j > s.rindex then ELM_PLIST rid j else s.rindex,
          init := if ELM_PLIST rid j > s.rindex then s.hindex else s.init,
          lookup := SET_ELM_PLIST s.lookup (ELM_PLIST lid j) (s.hindex + 1),
          comps := s.comps ++ [[j]],
          id := SET_ELM_PLIST s.id j (s.hindex + 1) }) ∨
    ((if ELM_PLIST rid j > s.rindex then s.hindex else s.init) <
        ELM_PLIST s.lookup (ELM_PLIST lid j) ∧
      hclassStep rid lid s j =
        { hindex := s.hindex,
          rindex := if ELM_PLIST rid j > s.rindex then ELM_PLIST rid j else s.rindex,
          init := if ELM_PLIST rid j > s.rindex then s.hindex else s.init,
          lookup := s.lookup,
          comps := appendAt s.comps (ELM_PLIST s.lookup (ELM_PLIST lid j)) j,
          id := SET_ELM_PLIST s.id j (ELM_PLIST s.lookup (ELM_PLIST lid j)) }) := by
  by_cases hr : ELM_PLIST rid j > s.rindex
  · by_cases hk : ELM_PLIST s.lookup (ELM_PLIST lid j) ≤ s.hindex
    · left
      simp only [hclassStep, hr, if_true, hk, ELM_SET_same _ _ _ hl1 hl2, true_and]
      rw [hh, appendAt_snoc]
    · right
      simp only [hclassStep, hr, if_true, hk, if_false]
      exact ⟨by omega, trivial⟩
  · by_cases hk : ELM_PLIST s.lookup (ELM_PLIST lid j) ≤ s.init
    · left
      simp only [hclassStep, hr, if_false, hk, if_true, ELM_SET_same _ _ _ hl1 hl2, true_and]
      rw [hh, appendAt_snoc]
    · right
      simp only [hclassStep, hr, if_false, hk]
      exact ⟨by omega, trivial⟩

theorem scanInv_init (rid lid : List Nat) (n : Nat) :
    ScanInv rid lid n []
      { hindex := 0, rindex := 0, init := 0, lookup := List.replicate n 0, comps := [],
        id := List.replicate n 0 } where
  hlen := rfl
  idlen := by simp
  lklen := by simp
  init_le := le_refl _
  same := by intro u hu; simp at hu
  idrange := by intro u hu; simp at hu
  comps := by intro c c1 c2; simp at c2; omega
  surj := by intro c c1 c2; simp at c2; omega
  lk_ge := by intro u hu; simp at hu
  lk_src := by intro l; left; exact ELM_replicate n l
  cur := by intro u hu; simp at hu
  rmax := by intro u hu; simp at hu
  rsrc := Or.inl rfl

theorem filter_snoc_id (P : List Nat) (id : List Nat) (j x c : Nat) (hj : j ∉ P)
    (j1 : 1 ≤ j) (j2 : j ≤ id.length) :
    (P ++ [j]).filter (fun v => decide (ELM_PLIST (SET_ELM_PLIST id j x) v = c)) =
      P.filter (fun v => decide (ELM_PLIST id v = c)) ++ if x = c then [j] else [] := by
  rw [List.filter_append]
  congr 1
  · apply List.filter_congr
    intro v hv
    rw [ELM_SET_other]
    intro e; subst e; exact hj hv
  · simp only [List.filter_cons, List.filter_nil, ELM_SET_same _ _ _ j1 j2]
    by_cases h : x = c <;> simp [h]

theorem hclassStep_inv {rid lid : List Nat} {n : Nat} {P : List Nat} {s : HState}
    (hinv : ScanInv rid lid n P s) (j : Nat) (hj : j ∉ P) (j1 : 1 ≤ j) (j2 : j ≤ n)
    (r1 : 1 ≤ ELM_PLIST rid j) (rge : ∀ v ∈ P, ELM_PLIST rid v ≤ ELM_PLIST rid j)
    (l1 : 1 ≤ ELM_PLIST lid j) (l2 : ELM_PLIST lid j ≤ n) :
    ScanInv rid lid n (P ++ [j]) (hclassStep rid lid s j) := by
  have hcases := hclassStep_cases rid lid s j l1 (by rw [hinv.lklen]; exact l2) hinv.hlen
  -- the values of `rindex` and `init` after the test on the right component
  have F : (if ELM_PLIST rid j > s.rindex then ELM_PLIST rid j else s.rindex) = ELM_PLIST rid j ∧
      (if ELM_PLIST rid j > s.rindex then s.hindex else s.init) ≤ s.hindex ∧
      ∀ v ∈ P, ((if ELM_PLIST rid j > s.rindex then s.hindex else s.init) < ELM_PLIST s.id v ↔
        ELM_PLIST rid v = ELM_PLIST rid j) := by
    by_cases hr : ELM_PLIST rid j > s.rindex
    · simp only [hr, if_true, le_refl, true_and]
      intro v hv
      have a := (hinv.idrange v hv).2
      have b := hinv.rmax v hv
      constructor
      · intro c; omega
      · intro c; omega
    · have e : s.rindex = ELM_PLIST rid j := by
        rcases hinv.rsrc with h0 | ⟨v, hv, hv2⟩
        · omega
        · have := rge v hv; omega
      simp only [hr, if_false, hinv.init_le, true_and]
      refine ⟨e, ?_⟩
      intro v hv
      rw [hinv.cur v hv, e]
  revert hcases F
  generalize (if ELM_PLIST rid j > s.rindex then ELM_PLIST rid j else s.rindex) = r'
  generalize (if ELM_PLIST rid j > s.rindex then s.hindex else s.init) = i'
  rintro hcases ⟨F1, F2, F3⟩
  subst F1
  have hidP : ∀ x, ∀ v ∈ P, ELM_PLIST (SET_ELM_PLIST s.id j x) v = ELM_PLIST s.id v := by
    intro x v hv
    rw [ELM_SET_other]
    intro e; subst e; exact hj hv
  have hidj : ∀ x, ELM_PLIST (SET_ELM_PLIST s.id j x) j = x := fun x =>
    ELM_SET_same _ _ _ j1 (by rw [hinv.idlen]; exact j2)
  have hlk : ∀ x l, ELM_PLIST (SET_ELM_PLIST s.lookup (ELM_PLIST lid j) x) l =
      if l = ELM_PLIST lid j then x else ELM_PLIST s.lookup l := fun x l =>
    ELM_SET _ _ _ _ l1 (by rw [hinv.lklen]; exact l2)
  rcases hcases with ⟨hle, hstep⟩ | ⟨hlt, hstep⟩
  · -- a new class is opened for `j`
    rw [hstep]
    have hnew : ∀ w ∈ P, ¬ (ELM_PLIST rid w = ELM_PLIST rid j ∧
        ELM_PLIST lid w = ELM_PLIST lid j) := by
      rintro w hw ⟨a, b⟩
      have c := hinv.lk_ge w hw
      rw [b] at c
      have d := (F3 w hw).2 a
      omega
    exact {
      hlen := by simp [hinv.hlen]
      idlen := by simp [length_SET_ELM_PLIST, hinv.idlen]
      lklen := by simp [length_SET_ELM_PLIST, hinv.lklen]
      init_le := by show i' ≤ s.hindex + 1; omega
      same := by
        intro u hu v hv
        simp only [List.mem_append, List.mem_singleton] at hu hv
        rcases hu with hu | rfl <;> rcases hv with hv | rfl
        · simp only [hidP _ u hu, hidP _ v hv]; exact hinv.same u hu v hv
        · simp only [hidP _ u hu, hidj]
          have := (hinv.idrange u hu).2
          constructor
          · intro e; omega
          · intro e; exact absurd e (hnew u hu)
        · simp only [hidP _ v hv, hidj]
          have := (hinv.idrange v hv).2
          constructor
          · intro e; omega
          · intro e; exact absurd ⟨e.1.symm, e.2.symm⟩ (hnew v hv)
        · simp
      idrange := by
        intro v hv
        simp only [List.mem_append, List.mem_singleton] at hv
        rcases hv with hv | rfl
        · simp only [hidP _ v hv]
          have := hinv.idrange v hv; omega
        · simp only [hidj]; omega
      comps := by
        intro c c1 c2
        simp only at c2
        rw [filter_snoc_id P s.id j _ c hj j1 (by rw [hinv.idlen]; exact j2)]
        by_cases hc : c = s.hindex + 1
        · subst hc
          rw [hinv.hlen, ELM_PLIST2_append_last, ← hinv.hlen]
          have : P.filter (fun v => decide (ELM_PLIST s.id v = s.hindex + 1)) = [] := by
            rw [List.filter_eq_nil_iff]
            intro v hv
            have := (hinv.idrange v hv).2
            simp; omega
          simp [this]
        · rw [ELM_PLIST2_append_left _ _ _ (by rw [← hinv.hlen]; omega),
            hinv.comps c c1 (by omega), if_neg (fun e => hc e.symm)]
          simp
      surj := by
        intro c c1 c2
        simp only at c2
        by_cases hc : c = s.hindex + 1
        · exact ⟨j, by simp, by rw [hidj, hc]⟩
        · obtain ⟨v, hv, e⟩ := hinv.surj c c1 (by omega)
          exact ⟨v, by simp [hv], by rw [hidP _ v hv, e]⟩
      lk_ge := by
        intro v hv
        simp only [List.mem_append, List.mem_singleton] at hv
        rcases hv with hv | rfl
        · simp only [hidP _ v hv, hlk]
          split
          · have := (hinv.idrange v hv).2; omega
          · exact hinv.lk_ge v hv
        · simp [hidj, hlk]
      lk_src := by
        intro l
        simp only [hlk]
        by_cases hl : l = ELM_PLIST lid j
        · right
          exact ⟨j, by simp, hl.symm, by simp [hidj, hl]⟩
        · rcases hinv.lk_src l with h0 | ⟨w, hw, e1, e2⟩
          · left; simp [hl, h0]
          · right
            exact ⟨w, by simp [hw], e1, by simp [hidP _ w hw, hl, e2]⟩
      cur := by
        intro v hv
        simp only [List.mem_append, List.mem_singleton] at hv
        rcases hv with hv | rfl
        · simp only [hidP _ v hv]; exact F3 v hv
        · simp only [hidj]
          constructor
          · intro _; trivial
          · intro _; omega
      rmax := by
        intro v hv
        simp only [List.mem_append, List.mem_singleton] at hv
        rcases hv with hv | rfl
        · exact rge v hv
        · exact le_refl _
      rsrc := Or.inr ⟨j, by simp, rfl⟩ }
  · -- `j` joins the class that `lookup` holds for its left component
    rw [hstep]
    obtain ⟨w, hw, w1, w2⟩ : ∃ w ∈ P, ELM_PLIST lid w = ELM_PLIST lid j ∧
        ELM_PLIST s.id w = ELM_PLIST s.lookup (ELM_PLIST lid j) := by
      rcases hinv.lk_src (ELM_PLIST lid j) with h0 | h
      · omega
      · exact h
    have w3 : ELM_PLIST rid w = ELM_PLIST rid j := (F3 w hw).1 (by omega)
    have wr := hinv.idrange w hw
    rw [← w2] at hlt ⊢
    exact {
      hlen := by simp [appendAt_length, hinv.hlen]
      idlen := by simp [length_SET_ELM_PLIST, hinv.idlen]
      lklen := hinv.lklen
      init_le := F2
      same := by
        intro u hu v hv
        simp only [List.mem_append, List.mem_singleton] at hu hv
        rcases hu with hu | rfl <;> rcases hv with hv | rfl
        · simp only [hidP _ u hu, hidP _ v hv]; exact hinv.same u hu v hv
        · simp only [hidP _ u hu, hidj]
          rw [hinv.same u hu w hw, w1, w3]
        · simp only [hidP _ v hv, hidj]
          rw [hinv.same w hw v hv, w1, w3]
        · simp
      idrange := by
        intro v hv
        simp only [List.mem_append, List.mem_singleton] at hv
        rcases hv with hv | rfl
        · simp only [hidP _ v hv]
          exact hinv.idrange v hv
        · simp only [hidj]; exact wr
      comps := by
        intro c c1 c2
        simp only at c2
        rw [filter_snoc_id P s.id j _ c hj j1 (by rw [hinv.idlen]; exact j2),
          ELM_appendAt _ _ _ _ wr.1 (by rw [← hinv.hlen]; exact wr.2)]
        by_cases hc : c = ELM_PLIST s.id w
        · subst hc
          simp [hinv.comps _ c1 c2]
        · rw [if_neg hc, if_neg (fun e => hc e.symm), hinv.comps c c1 c2]
          simp
      surj := by
        intro c c1 c2
        obtain ⟨v, hv, e⟩ := hinv.surj c c1 c2
        exact ⟨v, by simp [hv], by rw [hidP _ v hv, e]⟩
      lk_ge := by
        intro v hv
        simp only [List.mem_append, List.mem_singleton] at hv
        rcases hv with hv | rfl
        · simp only [hidP _ v hv]
          exact hinv.lk_ge v hv
        · simp only [hidj]; omega
      lk_src := by
        intro l
        rcases hinv.lk_src l with h0 | ⟨u, hu, e1, e2⟩
        · left; exact h0
        · right
          exact ⟨u, by simp [hu], e1, by simp [hidP _ u hu, e2]⟩
      cur := by
        intro v hv
        simp only [List.mem_append, List.mem_singleton] at hv
        rcases hv with hv | rfl
        · simp only [hidP _ v hv]; exact F3 v hv
        · simp only [hidj]
          constructor
          · intro _; trivial
          · intro _; exact hlt
      rmax := by
        intro v hv
        simp only [List.mem_append, List.mem_singleton] at hv
        rcases hv with hv | rfl
        · exact rge v hv
        · exact le_refl _
      rsrc := Or.inr ⟨j, by simp, rfl⟩ }

/-! ## FIND_HCLASSES: the result -/

theorem scan_loop_spec {n : Nat} {right left : SCCResult} (hr : ValidSCC n right)
    (hl : ValidSCC n left) {sorted : List Nat} (hs : SortedSpec right.id n sorted) :
    ScanInv right.id left.id n sorted
      (sorted.foldl (hclassStep right.id left.id)
        { hindex := 0, rindex := 0, init := 0, lookup := List.replicate n 0, comps := [],
          id := List.replicate n 0 }) := by
  apply foldl_inv (hclassStep right.id left.id) (fun P s => ScanInv right.id left.id n P s)
  · exact scanInv_init _ _ _
  · intro p x q s hpq hP
    have hnd : sorted.Nodup := hs.perm.nodup_iff.2 (List.nodup_range' 1 n)
    have hx : x ∈ List.range' 1 n := hs.perm.subset (by rw [hpq]; simp)
    simp only [List.mem_range'_1] at hx
    have hx2 : x ≤ n := by omega
    rw [hpq] at hnd
    have hmono := hs.mono
    rw [hpq, List.pairwise_append] at hmono
    have hlb := hl.comps_length_le
    obtain ⟨a1, -⟩ := hr.2.1 x hx.1 hx2
    obtain ⟨b1, b2⟩ := hl.2.1 x hx.1 hx2
    refine hclassStep_inv hP x ?_ hx.1 hx2 a1 ?_ b1 (by omega)
    · intro hmem
      have := (List.nodup_append.1 hnd).2.2
      exact this hmem (List.mem_cons_self _ _)
    · intro v hv
      exact hmono.2.2 v hv x (List.mem_cons_self _ _)

/-- The result of `FIND_HCLASSES` on valid records over `n ≥ 1` vertices, as the final
state of its second loop. -/
theorem FIND_HCLASSES_scan {n : Nat} {right left : SCCResult} (hr : ValidSCC n right)
    (hl : ValidSCC n left) (hn : n ≠ 0) :
    ∃ sorted s, sorted.Perm (List.range' 1 n) ∧ ScanInv right.id left.id n sorted s ∧
      FIND_HCLASSES right left = { id := s.id, comps := s.comps } := by
  have hb := bucket_loop_spec hr
  have hs := sortedSpec_of_bucketInv hr hb
  have hscan := scan_loop_spec hr hl hs
  refine ⟨_, _, hs.perm, hscan, ?_⟩
  unfold FIND_HCLASSES
  simp only [hr.1, hn, if_false]
  rw [hb.2.2.1]

theorem hclasses_id_iff (n : Nat) (right left : SCCResult)
    (hr : ValidSCC n right) (hl : ValidSCC n left) (u v : Nat)
    (hu : 1 ≤ u ∧ u ≤ n) (hv : 1 ≤ v ∧ v ≤ n) :
    ELM_PLIST (FIND_HCLASSES right left).id u = ELM_PLIST (FIND_HCLASSES right left).id v ↔
      (ELM_PLIST right.id u = ELM_PLIST right.id v ∧
        ELM_PLIST left.id u = ELM_PLIST left.id v) := by
  have hn : n ≠ 0 := by omega
  obtain ⟨sorted, s, hperm, hinv, hres⟩ := FIND_HCLASSES_scan hr hl hn
  rw [hres]
  have mu : u ∈ sorted := hperm.symm.subset (by simp [List.mem_range'_1]; omega)
  have mv : v ∈ sorted := hperm.symm.subset (by simp [List.mem_range'_1]; omega)
  exact hinv.same u mu v mv

theorem FIND_HCLASSES_valid {n : Nat} {right left : SCCResult} (hr : ValidSCC n right)
    (hl : ValidSCC n left) : ValidSCC n (FIND_HCLASSES right left) := by
  by_cases hn : n = 0
  · subst hn
    have : FIND_HCLASSES right left = { id := [], comps := [] } := by
      unfold FIND_HCLASSES; simp [hr.1]
    rw [this]; exact validSCC_nil
  · obtain ⟨sorted, s, hperm, hinv, hres⟩ := FIND_HCLASSES_scan hr hl hn
    rw [hres]
    have hmem : ∀ x, x ∈ sorted ↔ (1 ≤ x ∧ x ≤ n) := by
      intro x
      rw [hperm.mem_iff, List.mem_range'_1]
      omega
    refine ⟨hinv.idlen, ?_, ?_⟩
    · intro v v1 v2
      have := hinv.idrange v ((hmem v).2 ⟨v1, v2⟩)
      rw [← hinv.hlen]; exact this
    · intro k k1 k2
      simp only at k2
      rw [← hinv.hlen] at k2
      rw [hinv.comps k k1 k2]
      refine ⟨(hperm.nodup_iff.2 (List.nodup_range' 1 n)).filter _, ?_, ?_⟩
      · obtain ⟨v, hv, e⟩ := hinv.surj k k1 k2
        intro hnil
        have : v ∈ sorted.filter (fun v => decide (ELM_PLIST s.id v = k)) := by
          simp [List.mem_filter, hv, e]
        rw [hnil] at this
        simp at this
      · intro x
        simp only [List.mem_filter, decide_eq_true_eq, hmem]
        tauto

/-- C3. For valid SCC records `right` and `left` over the vertices `1..n`, two vertices get
the same id from `FIND_HCLASSES` exactly when they have the same id in `right` and the same
id in `left`; so the classes returned refine both partitions. -/
theorem FIND_HCLASSES_same_id_iff (n : Nat) (right left : SCCResult)
    (hr : ValidSCC n right) (hl : ValidSCC n left) (u v : Nat)
    (hu : 1 ≤ u ∧ u ≤ n) (hv : 1 ≤ v ∧ v ≤ n) :
    ELM_PLIST (FIND_HCLASSES right left).id u = ELM_PLIST (FIND_HCLASSES right left).id v ↔
      (ELM_PLIST right.id u = ELM_PLIST right.id v ∧
        ELM_PLIST left.id u = ELM_PLIST left.id v) :=
  hclasses_id_iff n right left hr hl u v hu hv

/-- C4. For valid SCC records `right` and `left` over the vertices `1..n`, the record
returned by `FIND_HCLASSES` has the shape of an SCC record: every vertex `v` has an id
between 1 and the number of components, occurs exactly once in component `id[v]` and in
no other component; every component is non-empty and consists of the vertices lying in
one component of `right` and one component of `left`. -/
theorem FIND_HCLASSES_shape (n : Nat) (right left : SCCResult)
    (hr : ValidSCC n right) (hl : ValidSCC n left) :
    ValidSCC n (FIND_HCLASSES right left) ∧
    (∀ v, 1 ≤ v → v ≤ n →
      1 ≤ ELM_PLIST (FIND_HCLASSES right left).id v ∧
      ELM_PLIST (FIND_HCLASSES right left).id v ≤ (FIND_HCLASSES right left).comps.length ∧
      (ELM_PLIST2 (FIND_HCLASSES right left).comps
        (ELM_PLIST (FIND_HCLASSES right left).id v)).count v = 1 ∧
      ∀ k, 1 ≤ k → k ≤ (FIND_HCLASSES right left).comps.length →
        k ≠ ELM_PLIST (FIND_HCLASSES right left).id v →
        v ∉ ELM_PLIST2 (FIND_HCLASSES right left).comps k) ∧
    (∀ k, 1 ≤ k → k ≤ (FIND_HCLASSES right left).comps.length →
      ELM_PLIST2 (FIND_HCLASSES right left).comps k ≠ [] ∧
      ∃ a b, 1 ≤ a ∧ a ≤ right.comps.length ∧ 1 ≤ b ∧ b ≤ left.comps.length ∧
        ∀ x, x ∈ ELM_PLIST2 (FIND_HCLASSES right left).comps k ↔
          (x ∈ ELM_PLIST2 right.comps a ∧ x ∈ ELM_PLIST2 left.comps b)) := by
  have hval := FIND_HCLASSES_valid hr hl
  refine ⟨hval, ?_, ?_⟩
  · intro v v1 v2
    obtain ⟨i1, i2⟩ := hval.2.1 v v1 v2
    obtain ⟨c1, -, c3⟩ := hval.2.2 _ i1 i2
    refine ⟨i1, i2, ?_, ?_⟩
    · exact List.count_eq_one_of_mem c1 ((c3 v).2 ⟨v1, v2, rfl⟩)
    · intro k k1 k2 hk hmem
      exact hk ((hval.2.2 k k1 k2).2.2 v |>.1 hmem).2.2.symm
  · intro k k1 k2
    obtain ⟨-, c2, c3⟩ := hval.2.2 k k1 k2
    refine ⟨c2, ?_⟩
    obtain ⟨w, hw⟩ := List.exists_mem_of_ne_nil _ c2
    obtain ⟨w1, w2, w3⟩ := (c3 w).1 hw
    obtain ⟨a1, a2⟩ := hr.2.1 w w1 w2
    obtain ⟨b1, b2⟩ := hl.2.1 w w1 w2
    refine ⟨ELM_PLIST right.id w, ELM_PLIST left.id w, a1, a2, b1, b2, ?_⟩
    intro x
    rw [c3 x, (hr.2.2 _ a1 a2).2.2 x, (hl.2.2 _ b1 b2).2.2 x]
    constructor
    · rintro ⟨x1, x2, x3⟩
      have := (hclasses_id_iff n right left hr hl x w ⟨x1, x2⟩ ⟨w1, w2⟩).1
        (by rw [x3, w3])
      exact ⟨⟨x1, x2, this.1⟩, ⟨x1, x2, this.2⟩⟩
    · rintro ⟨⟨x1, x2, x3⟩, ⟨-, -, x4⟩⟩
      refine ⟨x1, x2, ?_⟩
      rw [← w3]
      exact (hclasses_id_iff n right left hr hl x w ⟨x1, x2⟩ ⟨w1, w2⟩).2 ⟨x3, x4⟩

/-! ## SCC_UNION_LEFT_RIGHT_CAYLEY_GRAPHS: chains and bridges -/

theorem Bridged.refl {n : Nat} {scc1 scc2 : SCCResult} {u : Nat} (u1 : 1 ≤ u) (u2 : u ≤ n) :
    Bridged n scc1 scc2 u u := ⟨u, u1, u2, rfl, rfl⟩

theorem Bridged.symm {n : Nat} {scc1 scc2 : SCCResult} (hc : Commuting n scc1 scc2)
    {u v : Nat} (u1 : 1 ≤ u) (u2 : u ≤ n) (v1 : 1 ≤ v) (v2 : v ≤ n)
    (h : Bridged n scc1 scc2 u v) : Bridged n scc1 scc2 v u := by
  obtain ⟨x, x1, x2, a, b⟩ := h
  obtain ⟨y, y1, y2, c, d⟩ := hc u x v u1 u2 x1 x2 v1 v2 a b
  exact ⟨y, y1, y2, d.symm, c.symm⟩

theorem Bridged.trans {n : Nat} {scc1 scc2 : SCCResult} (hc : Commuting n scc1 scc2)
    {u v w : Nat} (v1 : 1 ≤ v) (v2 : v ≤ n)
    (h1 : Bridged n scc1 scc2 u v) (h2 : Bridged n scc1 scc2 v w) :
    Bridged n scc1 scc2 u w := by
  obtain ⟨x, x1, x2, a, b⟩ := h1
  obtain ⟨z, z1, z2, c, d⟩ := h2
  -- z R v L x, so z L y R x for some y
  obtain ⟨y, y1, y2, e, f⟩ := hc z v x z1 z2 v1 v2 x1 x2 c.symm b.symm
  exact ⟨y, y1, y2, a.trans f.symm, e.symm.trans d⟩

theorem foldl_unionAddVertex (c2 : List Nat) (s : UnionState)
    (hr : ∀ x ∈ c2, 1 ≤ x ∧ x ≤ s.id.length) :
    (c2.foldl unionAddVertex s).seen = s.seen ∧ (c2.foldl unionAddVertex s).nr = s.nr ∧
    (c2.foldl unionAddVertex s).comps = s.comps ∧
    (c2.foldl unionAddVertex s).new_comp = s.new_comp ++ c2 ∧
    (c2.foldl unionAddVertex s).id.length = s.id.length ∧
    ∀ v, ELM_PLIST (c2.foldl unionAddVertex s).id v = if v ∈ c2 then s.nr else ELM_PLIST s.id v := by
  induction c2 generalizing s with
  | nil => simp
  | cons x c2 ih =>
    have hx := hr x (List.mem_cons_self _ _)
    have := ih (unionAddVertex s x) (by
      intro y hy
      simp only [unionAddVertex, length_SET_ELM_PLIST]
      exact hr y (List.mem_cons_of_mem _ hy))
    obtain ⟨a, b, c, d, e, f⟩ := this
    simp only [List.foldl_cons]
    refine ⟨a, b, c, by rw [d]; simp [unionAddVertex], by
      rw [e]; simp [unionAddVertex, length_SET_ELM_PLIST], ?_⟩
    intro v
    rw [f v]
    simp only [unionAddVertex, List.mem_cons]
    by_cases hv : v ∈ c2
    · simp [hv]
    · simp only [hv, if_false, or_false]
      rw [ELM_SET _ _ _ _ hx.1 hx.2]

/-! ## SCC_UNION_LEFT_RIGHT_CAYLEY_GRAPHS: the loops -/

/-- Invariant rule for a loop whose body can fault: when every pass that starts in a state
with the invariant returns a state with the invariant, the loop returns such a state. -/
theorem forEach_inv {σ α : Type} (f : σ → α → Except Fault σ) (P : List α → σ → Prop)
    (l : List α) (s0 : σ) (h0 : P [] s0)
    (hstep : ∀ p x q s, l = p ++ x :: q → P p s → ∃ s2, f s x = .ok s2 ∧ P (p ++ [x]) s2) :
    ∃ s1, forEach f l s0 = .ok s1 ∧ P l s1 := by
  suffices H : ∀ (q p : List α) (s : σ), l = p ++ q → P p s →
      ∃ s1, forEach f q s = .ok s1 ∧ P l s1 from H l [] s0 rfl h0
  intro q
  induction q with
  | nil =>
    intro p s hl hP
    refine ⟨s, rfl, ?_⟩
    rw [hl]; simpa using hP
  | cons x q ih =>
    intro p s hl hP
    obtain ⟨s2, e, hP2⟩ := hstep p x q s hl hP
    obtain ⟨s1, e1, hP1⟩ := ih (p ++ [x]) s2 (by rw [hl]; simp) hP2
    refine ⟨s1, ?_, hP1⟩
    simp only [forEach, e]
    exact e1

theorem getD_set_one (l : List Nat) (k k' : Nat) (hk : k < l.length) :
    (l.set k 1).getD k' 0 ≠ 0 ↔ (k' = k ∨ l.getD k' 0 ≠ 0) := by
  simp only [List.getD_eq_getElem?_getD, List.getElem?_set]
  by_cases h : k = k'
  · subst h; simp [hk]
  · simp only [h, if_false]
    constructor
    · intro a; exact Or.inr a
    · rintro (a | a)
      · exact absurd a.symm h
      · exact a

theorem exists_snoc_iff (Y : List Nat) (y : Nat) (p : Nat → Prop) :
    (∃ z ∈ Y ++ [y], p z) ↔ ((∃ z ∈ Y, p z) ∨ p y) := by
  constructor
  · rintro ⟨z, hz, hp⟩
    simp only [List.mem_append, List.mem_singleton] at hz
    rcases hz with hz | rfl
    · exact Or.inl ⟨z, hz, hp⟩
    · exact Or.inr hp
  · rintro (⟨z, hz, hp⟩ | hp)
    · exact ⟨z, by simp [hz], hp⟩
    · exact ⟨y, by simp, hp⟩

theorem unionVisit_inv {n : Nat} {scc2 : SCCResult} (h2 : ValidSCC n scc2)
    {s s1 : UnionState} {Y : List Nat} (hv : VisitInv n scc2 s Y s1)
    (hsl : s.seen.length = scc2.comps.length + 1)
    (y : Nat) (y1 : 1 ≤ y) (y2 : y ≤ n)
    (hseen0 : s.seen.getD (ELM_PLIST scc2.id y) 0 = 0) :
    ∃ s2, unionVisit scc2.id scc2.comps s1 y = .ok s2 ∧ VisitInv n scc2 s (Y ++ [y]) s2 := by
  obtain ⟨k1, k2⟩ := h2.2.1 y y1 y2
  obtain ⟨-, -, hmem⟩ := h2.2.2 _ k1 k2
  have hk : ELM_PLIST scc2.id y < s1.seen.length := by rw [hv.seenlen, hsl]; omega
  unfold unionVisit
  simp only
  rw [if_pos hk]
  by_cases h0 : s1.seen.getD (ELM_PLIST scc2.id y) 0 = 0
  · rw [if_pos h0]
    refine ⟨_, rfl, ?_⟩
    have hnoY : ¬ ∃ z ∈ Y, ELM_PLIST scc2.id z = ELM_PLIST scc2.id y := by
      intro hex
      exact ((hv.seen_iff _).2 (Or.inr hex)) h0
    obtain ⟨a, b, c, d, e, f⟩ := foldl_unionAddVertex (ELM_PLIST2 scc2.comps (ELM_PLIST scc2.id y))
      { s1 with seen := s1.seen.set (ELM_PLIST scc2.id y) 1 } (by
        intro x hx
        have := (hmem x).1 hx
        simp only [hv.idlen]
        exact ⟨this.1, this.2.1⟩)
    simp only at a b c d e f
    exact {
      nr := by rw [b]; exact hv.nr
      comps := by rw [c]; exact hv.comps
      idlen := by rw [e]; exact hv.idlen
      seenlen := by rw [a]; simp [hv.seenlen]
      id_new := by
        intro v v1 v2 hex
        rw [f v, hv.nr]
        split
        · rfl
        · rename_i hnot
          rw [exists_snoc_iff] at hex
          rcases hex with hex | hex
          · exact hv.id_new v v1 v2 hex
          · exact absurd ((hmem v).2 ⟨v1, v2, hex.symm⟩) hnot
      id_old := by
        intro v v1 v2 hnex
        rw [exists_snoc_iff] at hnex
        rw [f v, if_neg]
        · exact hv.id_old v v1 v2 (fun h => hnex (Or.inl h))
        · intro hm
          exact hnex (Or.inr ((hmem v).1 hm).2.2.symm)
      seen_iff := by
        intro k
        rw [a, exists_snoc_iff]
        rw [getD_set_one _ _ _ (by rw [hv.seenlen, hsl]; omega), hv.seen_iff k]
        constructor
        · rintro (h | h | h)
          · exact Or.inr (Or.inr h.symm)
          · exact Or.inl h
          · exact Or.inr (Or.inl h)
        · rintro (h | h | h)
          · exact Or.inr (Or.inl h)
          · exact Or.inr (Or.inr h)
          · exact Or.inl h.symm
      newcomp := by
        intro x
        rw [d, exists_snoc_iff]
        simp only [List.mem_append, hv.newcomp x, hmem x]
        constructor
        · rintro (⟨a1, a2, a3⟩ | ⟨a1, a2, a3⟩)
          · exact ⟨a1, a2, Or.inl a3⟩
          · exact ⟨a1, a2, Or.inr a3.symm⟩
        · rintro ⟨a1, a2, a3 | a3⟩
          · exact Or.inl ⟨a1, a2, a3⟩
          · exact Or.inr ⟨a1, a2, a3.symm⟩ }
  · rw [if_neg h0]
    refine ⟨_, rfl, ?_⟩
    have hinY : ∃ z ∈ Y, ELM_PLIST scc2.id z = ELM_PLIST scc2.id y := by
      rcases (hv.seen_iff _).1 h0 with h | h
      · exact absurd hseen0 h
      · exact h
    have hsn : ∀ c, ((∃ z ∈ Y ++ [y], ELM_PLIST scc2.id z = c) ↔
        ∃ z ∈ Y, ELM_PLIST scc2.id z = c) := by
      intro c
      rw [exists_snoc_iff]
      constructor
      · rintro (h | h)
        · exact h
        · obtain ⟨z, hz, e⟩ := hinY
          exact ⟨z, hz, e.trans h⟩
      · intro h; exact Or.inl h
    exact {
      nr := hv.nr
      comps := hv.comps
      idlen := hv.idlen
      seenlen := hv.seenlen
      id_new := by intro v v1 v2 hex; rw [hsn] at hex; exact hv.id_new v v1 v2 hex
      id_old := by intro v v1 v2 hex; rw [hsn] at hex; exact hv.id_old v v1 v2 hex
      seen_iff := by intro k; rw [hsn]; exact hv.seen_iff k
      newcomp := by intro x; rw [hsn]; exact hv.newcomp x }

theorem unionInv_init (n : Nat) (scc1 scc2 : SCCResult) (h1 : ValidSCC n scc1) :
    UnionInv n scc1 scc2 0
      { id := List.replicate n 0, seen := List.replicate (scc2.comps.length + 1) 0,
        nr := 0, comps := [], new_comp := [] } where
  nr_eq := rfl
  idlen := by simp
  seenlen := by simp
  id_le := by intro v _ _; simp [ELM_replicate]
  same := by intro u v _ _ _ _ h; simp [ELM_replicate] at h
  seen_iff := by
    intro k _ _
    simp only [ELM_replicate, List.getD_eq_getElem?_getD, List.getElem?_replicate]
    constructor
    · intro h; split at h <;> simp at h
    · rintro ⟨v, -, -, -, h⟩; exact absurd rfl h
  done := by
    intro v v1 v2 h
    have := (h1.2.1 v v1 v2).1
    omega
  comps := by intro c c1 c2; simp at c2; omega

theorem unionComponent_inv {n : Nat} {scc1 scc2 : SCCResult} (h1 : ValidSCC n scc1)
    (h2 : ValidSCC n scc2) (hc : Commuting n scc1 scc2) {t : Nat} {s : UnionState}
    (hinv : UnionInv n scc1 scc2 t s) (ht : t < scc1.comps.length) :
    ∃ s2, unionComponent scc2.id scc2.comps s (ELM_PLIST2 scc1.comps (t + 1)) = .ok s2 ∧
      UnionInv n scc1 scc2 (t + 1) s2 := by
  obtain ⟨hnd, hne, hmem⟩ := h1.2.2 (t + 1) (by omega) (by omega)
  generalize hcomp : ELM_PLIST2 scc1.comps (t + 1) = comp1 at hnd hne hmem
  have hlen : 1 ≤ comp1.length := List.length_pos.2 hne
  have hf := (hmem _).1 (ELM_PLIST_mem comp1 1 (le_refl _) hlen)
  unfold unionComponent
  generalize ELM_PLIST comp1 1 = f at hf ⊢
  obtain ⟨f1, f2, f3⟩ := hf
  by_cases hf0 : ELM_PLIST s.id f = 0
  · rw [if_pos hf0]
    -- vertices bridged from `f` have no id yet
    have Z : ∀ v, 1 ≤ v → v ≤ n → Bridged n scc1 scc2 f v → ELM_PLIST s.id v = 0 := by
      intro v v1 v2 hb
      by_contra hv
      have := (hinv.same v f v1 v2 f1 f2 hv).2 (hb.symm hc f1 f2 v1 v2)
      exact hv (this.trans hf0)
    obtain ⟨s1, e1, hloop⟩ := forEach_inv (unionVisit scc2.id scc2.comps)
      (fun Y s1 => VisitInv n scc2 s Y s1) comp1 { s with nr := s.nr + 1, new_comp := [] }
      { nr := rfl, comps := rfl, idlen := hinv.idlen, seenlen := rfl,
        id_new := by rintro v _ _ ⟨y, hy, -⟩; simp at hy,
        id_old := by intro v _ _ _; rfl,
        seen_iff := by intro k; simp,
        newcomp := by intro x; simp }
      (by
        intro p y q s1 hpq hP
        obtain ⟨y1, y2, y3⟩ := (hmem y).1 (by rw [hpq]; simp)
        refine unionVisit_inv h2 hP hinv.seenlen y y1 y2 ?_
        by_contra hs
        obtain ⟨k1, k2⟩ := h2.2.1 y y1 y2
        obtain ⟨v, v1, v2, v3, v4⟩ := (hinv.seen_iff _ k1 k2).1 hs
        exact v4 (Z v v1 v2 ⟨y, y1, y2, f3.trans y3.symm, v3.symm⟩))
    rw [e1]
    refine ⟨_, rfl, ?_⟩
    have hY : ∀ v, (∃ y ∈ comp1, ELM_PLIST scc2.id y = ELM_PLIST scc2.id v) ↔
        Bridged n scc1 scc2 f v := by
      intro v
      constructor
      · rintro ⟨y, hy, e⟩
        obtain ⟨y1, y2, y3⟩ := (hmem y).1 hy
        exact ⟨y, y1, y2, f3.trans y3.symm, e⟩
      · rintro ⟨x, x1, x2, a, b⟩
        exact ⟨x, (hmem x).2 ⟨x1, x2, a.symm.trans f3⟩, b⟩
    have hB : ∀ v, 1 ≤ v → v ≤ n → Bridged n scc1 scc2 f v → ELM_PLIST s1.id v = s.nr + 1 :=
      fun v v1 v2 hb => hloop.id_new v v1 v2 ((hY v).2 hb)
    have hNB : ∀ v, 1 ≤ v → v ≤ n → ¬ Bridged n scc1 scc2 f v →
        ELM_PLIST s1.id v = ELM_PLIST s.id v :=
      fun v v1 v2 hb => hloop.id_old v v1 v2 (fun h => hb ((hY v).1 h))
    exact {
      nr_eq := by simp [hloop.nr, hloop.comps, hinv.nr_eq]
      idlen := hloop.idlen
      seenlen := by simp [hloop.seenlen, hinv.seenlen]
      id_le := by
        intro v v1 v2
        simp only [hloop.nr]
        by_cases hb : Bridged n scc1 scc2 f v
        · rw [hB v v1 v2 hb]
        · rw [hNB v v1 v2 hb]
          have := hinv.id_le v v1 v2; omega
      same := by
        intro u v u1 u2 v1 v2 hu
        simp only at hu ⊢
        by_cases hbu : Bridged n scc1 scc2 f u
        · rw [hB u u1 u2 hbu]
          by_cases hbv : Bridged n scc1 scc2 f v
          · rw [hB v v1 v2 hbv]
            simp only [true_iff]
            exact (hbu.symm hc f1 f2 u1 u2).trans hc f1 f2 hbv
          · rw [hNB v v1 v2 hbv]
            have := hinv.id_le v v1 v2
            constructor
            · intro e; omega
            · intro e; exact absurd (hbu.trans hc u1 u2 e) hbv
        · rw [hNB u u1 u2 hbu] at hu ⊢
          by_cases hbv : Bridged n scc1 scc2 f v
          · rw [hB v v1 v2 hbv]
            have := hinv.id_le u u1 u2
            constructor
            · intro e; omega
            · intro e
              have := (hinv.same u v u1 u2 v1 v2 hu).2 e
              rw [Z v v1 v2 hbv] at this
              exact absurd this hu
          · rw [hNB v v1 v2 hbv]
            exact hinv.same u v u1 u2 v1 v2 hu
      seen_iff := by
        intro k k1 k2
        simp only
        rw [hloop.seen_iff k, hinv.seen_iff k k1 k2]
        constructor
        · rintro (⟨v, v1, v2, v3, v4⟩ | ⟨y, hy, e⟩)
          · refine ⟨v, v1, v2, v3, ?_⟩
            by_cases hb : Bridged n scc1 scc2 f v
            · rw [hB v v1 v2 hb]; omega
            · rw [hNB v v1 v2 hb]; exact v4
          · obtain ⟨y1, y2, y3⟩ := (hmem y).1 hy
            refine ⟨y, y1, y2, e, ?_⟩
            rw [hB y y1 y2 ⟨y, y1, y2, f3.trans y3.symm, rfl⟩]; omega
        · rintro ⟨v, v1, v2, v3, v4⟩
          by_cases hb : Bridged n scc1 scc2 f v
          · right
            rw [← v3]; exact (hY v).2 hb
          · left
            rw [hNB v v1 v2 hb] at v4
            exact ⟨v, v1, v2, v3, v4⟩
      done := by
        intro v v1 v2 hv
        simp only
        by_cases hb : Bridged n scc1 scc2 f v
        · rw [hB v v1 v2 hb]; omega
        · rw [hNB v v1 v2 hb]
          by_cases hk : ELM_PLIST scc1.id v = t + 1
          · exact absurd ⟨v, v1, v2, f3.trans hk.symm, rfl⟩ hb
          · exact hinv.done v v1 v2 (by omega)
      comps := by
        intro c c1 c2 x
        simp only [hloop.nr, hloop.comps] at c2 ⊢
        by_cases hcn : c = s.nr + 1
        · subst hcn
          rw [hinv.nr_eq, ELM_PLIST2_append_last, hloop.newcomp x, hY x, ← hinv.nr_eq]
          constructor
          · rintro ⟨x1, x2, hb⟩; exact ⟨x1, x2, hB x x1 x2 hb⟩
          · rintro ⟨x1, x2, e⟩
            refine ⟨x1, x2, ?_⟩
            by_contra hb
            rw [hNB x x1 x2 hb] at e
            have := hinv.id_le x x1 x2
            omega
        · rw [ELM_PLIST2_append_left _ _ _ (by rw [← hinv.nr_eq]; omega),
            hinv.comps c c1 (by omega) x]
          constructor
          · rintro ⟨x1, x2, e⟩
            refine ⟨x1, x2, ?_⟩
            by_cases hb : Bridged n scc1 scc2 f x
            · rw [Z x x1 x2 hb] at e; omega
            · rw [hNB x x1 x2 hb]; exact e
          · rintro ⟨x1, x2, e⟩
            refine ⟨x1, x2, ?_⟩
            by_cases hb : Bridged n scc1 scc2 f x
            · rw [hB x x1 x2 hb] at e; omega
            · rw [hNB x x1 x2 hb] at e; exact e }
  · rw [if_neg hf0]
    refine ⟨_, rfl, ?_⟩
    exact {
      nr_eq := hinv.nr_eq
      idlen := hinv.idlen
      seenlen := hinv.seenlen
      id_le := hinv.id_le
      same := hinv.same
      seen_iff := hinv.seen_iff
      done := by
        intro v v1 v2 hv
        by_cases hk : ELM_PLIST scc1.id v = t + 1
        · have := (hinv.same f v f1 f2 v1 v2 hf0).2 ⟨v, v1, v2, f3.trans hk.symm, rfl⟩
          rw [← this]; exact hf0
        · exact hinv.done v v1 v2 (by omega)
      comps := hinv.comps }

/-! ## SCC_UNION_LEFT_RIGHT_CAYLEY_GRAPHS: the result -/

theorem checkSCC_sound {n : Nat} {r : SCCResult} (h : checkSCC n r = true) : ValidSCC n r := by
  simp only [checkSCC, Bool.and_eq_true, decide_eq_true_eq, List.all_eq_true,
    List.mem_range'_1, Bool.not_eq_true', List.isEmpty_eq_false] at h
  obtain ⟨⟨h1, h2⟩, h3⟩ := h
  refine ⟨h1, fun v v1 v2 => h2 v ⟨v1, by omega⟩, ?_⟩
  intro k k1 k2
  obtain ⟨⟨⟨a, b⟩, c⟩, d⟩ := h3 k ⟨k1, by omega⟩
  refine ⟨a, ?_, ?_⟩
  · intro e; rw [e] at b; simp at b
  · intro x
    constructor
    · intro hx
      obtain ⟨⟨x1, x2⟩, x3⟩ := c x hx
      exact ⟨x1, x2, x3⟩
    · rintro ⟨x1, x2, x3⟩
      exact d x ⟨x1, by omega⟩ x3

theorem ELM_PLIST2_of_split {l p q : List (List Nat)} {x : List Nat} (h : l = p ++ x :: q) :
    ELM_PLIST2 l (p.length + 1) = x := by
  subst h
  simp only [ELM_PLIST2, List.getD_eq_getElem?_getD]
  rw [List.getElem?_eq_getElem (by simp), List.getElem_of_append rfl rfl]
  rfl

/-! ### The initialising loop -/

theorem set_replicate_zero (m i : Nat) :
    (List.replicate m 0).set i 0 = List.replicate m 0 := by
  apply List.ext_getElem?
  intro j
  simp only [List.getElem?_set, List.getElem?_replicate, List.length_replicate]
  by_cases h : i = j
  · subst h; simp
  · simp [h]

theorem SET_ELM_replicate_zero (n i : Nat) :
    SET_ELM_PLIST (List.replicate n 0) i 0 = List.replicate n 0 := by
  cases i with
  | zero => rfl
  | succ k => exact set_replicate_zero n k

/-- A pass of the initialising loop writes zeros over zeros when `i` is a word of `seen`,
and is a fault when it is not. -/
theorem unionInitStep_zero (n m i : Nat) :
    unionInitStep
        { id := List.replicate n 0, seen := List.replicate m 0, nr := 0, comps := [],
          new_comp := [] } i =
      if i < m then
        .ok
          { id := List.replicate n 0, seen := List.replicate m 0, nr := 0, comps := [],
            new_comp := [] }
      else .error .outOfRange := by
  unfold unionInitStep
  simp only [List.length_replicate, SET_ELM_replicate_zero, set_replicate_zero]

theorem forEach_unionInit_ok (n m : Nat) (l : List Nat) (h : ∀ i ∈ l, i < m) :
    forEach unionInitStep l
        { id := List.replicate n 0, seen := List.replicate m 0, nr := 0, comps := [],
          new_comp := [] } =
      .ok
        { id := List.replicate n 0, seen := List.replicate m 0, nr := 0, comps := [],
          new_comp := [] } := by
  induction l with
  | nil => rfl
  | cons x l ih =>
    simp only [forEach, unionInitStep_zero, if_pos (h x (List.mem_cons_self _ _))]
    exact ih (fun i hi => h i (List.mem_cons_of_mem _ hi))

theorem forEach_unionInit_fault (n m : Nat) (l : List Nat) (h : ∃ i ∈ l, m ≤ i) :
    forEach unionInitStep l
        { id := List.replicate n 0, seen := List.replicate m 0, nr := 0, comps := [],
          new_comp := [] } = .error .outOfRange := by
  induction l with
  | nil => obtain ⟨i, hi, -⟩ := h; simp at hi
  | cons x l ih =>
    by_cases hx : x < m
    · simp only [forEach, unionInitStep_zero, if_pos hx]
      apply ih
      obtain ⟨i, hi, him⟩ := h
      rcases List.mem_cons.1 hi with rfl | hi
      · omega
      · exact ⟨i, hi, him⟩
    · simp only [forEach, unionInitStep_zero, if_neg hx]

/-- The initialising loop writes `ptr[i]` for `i = 1..n` into a bag of `length(comps2)+1`
words: when `scc2` has fewer than `n` components the routine ends in the fault
`outOfRange`, whatever else the records hold. -/
theorem SCC_UNION_fault (scc1 scc2 : SCCResult) (h : scc2.comps.length < scc1.id.length) :
    SCC_UNION_LEFT_RIGHT_CAYLEY_GRAPHS scc1 scc2 = .error .outOfRange := by
  unfold SCC_UNION_LEFT_RIGHT_CAYLEY_GRAPHS
  simp only
  rw [if_neg (by omega), forEach_unionInit_fault _ _ _
    ⟨scc2.comps.length + 1, List.mem_range'_1.2 ⟨by omega, by omega⟩, le_refl _⟩]

/-- In a valid record over `1..n` with at least `n` components every component is a single
vertex: distinct vertices have distinct ids. -/
theorem ValidSCC.id_injective {n : Nat} {r : SCCResult} (h : ValidSCC n r)
    (hlen : n ≤ r.comps.length) {u v : Nat} (u1 : 1 ≤ u) (u2 : u ≤ n) (v1 : 1 ≤ v)
    (v2 : v ≤ n) (e : ELM_PLIST r.id u = ELM_PLIST r.id v) : u = v := by
  obtain ⟨-, h2, h3⟩ := h
  refine Finset.inj_on_of_surj_on_of_card_le (s := Finset.Icc 1 n)
    (t := Finset.Icc 1 r.comps.length) (fun a _ => ELM_PLIST r.id a) ?_ ?_ (by simpa using hlen)
    (Finset.mem_Icc.2 ⟨u1, u2⟩) (Finset.mem_Icc.2 ⟨v1, v2⟩) e
  · intro a ha
    obtain ⟨a1, a2⟩ := Finset.mem_Icc.1 ha
    exact Finset.mem_Icc.2 (h2 a a1 a2)
  · intro k hk
    obtain ⟨k1, k2⟩ := Finset.mem_Icc.1 hk
    obtain ⟨-, hne, hx⟩ := h3 k k1 k2
    obtain ⟨x, hxm⟩ := List.exists_mem_of_ne_nil _ hne
    obtain ⟨a, b, c⟩ := (hx x).1 hxm
    exact ⟨x, Finset.mem_Icc.2 ⟨a, b⟩, c⟩

/-- A valid record all of whose components are single vertices commutes with every
record. -/
theorem commuting_of_length_le {n : Nat} (scc1 : SCCResult) {scc2 : SCCResult}
    (h2 : ValidSCC n scc2) (hlen : n ≤ scc2.comps.length) : Commuting n scc1 scc2 := by
  intro u x v u1 u2 x1 x2 v1 v2 a b
  have := h2.id_injective hlen x1 x2 v1 v2 b
  subst this
  exact ⟨u, u1, u2, rfl, a⟩

/-! ### The loop over the components of `scc1` -/

theorem union_loop_spec {n : Nat} {scc1 scc2 : SCCResult} (h1 : ValidSCC n scc1)
    (h2 : ValidSCC n scc2) (hc : Commuting n scc1 scc2) :
    ∃ s, forEach (unionComponent scc2.id scc2.comps) scc1.comps
        { id := List.replicate n 0, seen := List.replicate (scc2.comps.length + 1) 0,
          nr := 0, comps := [], new_comp := [] } = .ok s ∧
      UnionInv n scc1 scc2 scc1.comps.length s := by
  apply forEach_inv (unionComponent scc2.id scc2.comps)
    (fun p s => UnionInv n scc1 scc2 p.length s)
  · exact unionInv_init n scc1 scc2 h1
  · intro p x q s hpq hP
    have hx := ELM_PLIST2_of_split hpq
    have hlt : p.length < scc1.comps.length := by rw [hpq]; simp
    obtain ⟨s2, e, hinv⟩ := unionComponent_inv h1 h2 hc hP hlt
    rw [hx] at e
    exact ⟨s2, e, by simpa using hinv⟩

/-- The result of `SCC_UNION_LEFT_RIGHT_CAYLEY_GRAPHS` on two valid records whose
partitions commute, when `scc2` has at least `n` components (so that the initialising loop
stays inside `seen`): the routine returns a record in which every vertex has an id that is
the index of a component containing it, and two vertices have the same id exactly when they
are bridged. -/
theorem union_spec {n : Nat} {scc1 scc2 : SCCResult} (h1 : ValidSCC n scc1)
    (h2 : ValidSCC n scc2) (hc : Commuting n scc1 scc2) (hlen : n ≤ scc2.comps.length) :
    ∃ r, SCC_UNION_LEFT_RIGHT_CAYLEY_GRAPHS scc1 scc2 = .ok r ∧
    (∀ v, 1 ≤ v → v ≤ n →
      1 ≤ ELM_PLIST r.id v ∧ ELM_PLIST r.id v ≤ r.comps.length ∧
      v ∈ ELM_PLIST2 r.comps (ELM_PLIST r.id v)) ∧
    (∀ u v, 1 ≤ u → u ≤ n → 1 ≤ v → v ≤ n →
      (ELM_PLIST r.id u = ELM_PLIST r.id v ↔ Bridged n scc1 scc2 u v)) := by
  by_cases hn : n = 0
  · refine ⟨{ id := [], comps := [] }, ?_, fun v v1 v2 => by omega, fun u v u1 u2 => by omega⟩
    unfold SCC_UNION_LEFT_RIGHT_CAYLEY_GRAPHS
    simp only [h1.1, hn, if_true]
  · obtain ⟨s, e, hinv⟩ := union_loop_spec h1 h2 hc
    have hres : SCC_UNION_LEFT_RIGHT_CAYLEY_GRAPHS scc1 scc2 =
        .ok { id := s.id, comps := s.comps } := by
      unfold SCC_UNION_LEFT_RIGHT_CAYLEY_GRAPHS
      simp only [h1.1, hn, if_false]
      rw [forEach_unionInit_ok _ _ _ (fun i hi => by
        have := (List.mem_range'_1.1 hi).2
        omega)]
      simp only [e]
    refine ⟨_, hres, ?_⟩
    have hassigned : ∀ v, 1 ≤ v → v ≤ n → ELM_PLIST s.id v ≠ 0 :=
      fun v v1 v2 => hinv.done v v1 v2 (h1.2.1 v v1 v2).2
    constructor
    · intro v v1 v2
      have a := hassigned v v1 v2
      have b := hinv.id_le v v1 v2
      show 1 ≤ ELM_PLIST s.id v ∧ ELM_PLIST s.id v ≤ s.comps.length ∧
        v ∈ ELM_PLIST2 s.comps (ELM_PLIST s.id v)
      refine ⟨by omega, by rw [← hinv.nr_eq]; exact b, ?_⟩
      exact (hinv.comps _ (by omega) b v).2 ⟨v1, v2, rfl⟩
    · intro u v u1 u2 v1 v2
      exact hinv.same u v u1 u2 v1 v2 (hassigned u u1 u2)

theorem checkCommuting_sound {n : Nat} {scc1 scc2 : SCCResult}
    (h : checkCommuting n scc1 scc2 = true) : Commuting n scc1 scc2 := by
  simp only [checkCommuting, List.all_eq_true, List.mem_range'_1, Bool.or_eq_true,
    Bool.not_eq_true', Bool.and_eq_false_imp, decide_eq_true_eq, decide_eq_false_iff_not,
    List.any_eq_true, Bool.and_eq_true] at h
  intro u x v u1 u2 x1 x2 v1 v2 a b
  rcases h u ⟨u1, by omega⟩ x ⟨x1, by omega⟩ v ⟨v1, by omega⟩ with h | ⟨y, ⟨y1, y2⟩, c, d⟩
  · exact absurd b (h a)
  · exact ⟨y, y1, by omega, c, d⟩

/-- Witness of C3: on the partitions `{1,2},{3,4}` and `{1,3},{2,4}` the vertices 1 and 2
get the same id exactly when they share both components (they do not). -/
theorem FIND_HCLASSES_same_id_iff_witness :
    ELM_PLIST (FIND_HCLASSES rowsSCC colsSCC).id 1 =
        ELM_PLIST (FIND_HCLASSES rowsSCC colsSCC).id 2 ↔
      (ELM_PLIST rowsSCC.id 1 = ELM_PLIST rowsSCC.id 2 ∧
        ELM_PLIST colsSCC.id 1 = ELM_PLIST colsSCC.id 2) :=
  FIND_HCLASSES_same_id_iff 4 rowsSCC colsSCC (checkSCC_sound (by decide))
    (checkSCC_sound (by decide)) 1 2 (by decide) (by decide)

/-- Witness of C4: the record returned for the partitions `{1,2},{3,4}` and `{1,3},{2,4}`
has the shape of an SCC record over four vertices. -/
theorem FIND_HCLASSES_shape_witness : ValidSCC 4 (FIND_HCLASSES rowsSCC colsSCC) :=
  (FIND_HCLASSES_shape 4 rowsSCC colsSCC (checkSCC_sound (by decide))
    (checkSCC_sound (by decide))).1

theorem bind_ok_iff {ε β γ : Type} (x : Except ε β) (f : β → Except ε γ) (c : γ) :
    (x >>= f) = .ok c ↔ ∃ b, x = .ok b ∧ f b = .ok c := by
  cases x with
  | error e => simp [bind, Except.bind]
  | ok b => simp [bind, Except.bind]

theorem shortcut_core {α H : Type} {d d1 : Data α H} {b s j : Nat}
    (h : shortcut d b s j = .ok d1) :
    d1.core = d.core ∧ d1.pos = d.pos ∧ d1.nrgens = d.nrgens := by
  unfold shortcut at h
  simp only [bind_ok_iff] at h
  obtain ⟨r, -, red, -, p, -, h⟩ := h
  split at h
  · simp only [bind_ok_iff] at h
    obtain ⟨l, -, f, -, x, -, rt, -, h⟩ := h
    cases h
    exact ⟨rfl, rfl, rfl⟩
  · split at h
    · simp only [bind_ok_iff] at h
      obtain ⟨x, -, rt, -, h⟩ := h
      cases h
      exact ⟨rfl, rfl, rfl⟩
    · simp only [bind_ok_iff] at h
      obtain ⟨g, -, f, -, x, -, rt, -, h⟩ := h
      cases h
      exact ⟨rfl, rfl, rfl⟩

theorem multiply_core {α H : Type} [DecidableEq H] {ops : ElementOps α H} {limit : Nat}
    {d d1 : Data α H} {b s j : Nat} {stop stop1 : Bool}
    (h : multiply ops limit d b s j stop = .ok (d1, stop1)) :
    d1.pos = d.pos ∧ d1.nrgens = d.nrgens ∧
    ((d1.core = d.core ∧ stop1 = stop) ∨
      ∃ tmp, mapFind d.map (ops.hash tmp) = none ∧ d1.core = d.core.push ops tmp ∧
        stop1 = decide (d.nr + 1 ≥ limit)) := by
  unfold multiply at h
  simp only [bind_ok_iff] at h
  obtain ⟨x, -, g, -, h⟩ := h
  split at h
  · obtain ⟨rt, -, h⟩ := (bind_ok_iff _ _ _).1 h
    cases h
    exact ⟨rfl, rfl, Or.inl ⟨rfl, rfl⟩⟩
  · rename_i hnone
    obtain ⟨suf, -, h⟩ := (bind_ok_iff _ _ _).1 h
    obtain ⟨red, -, h⟩ := (bind_ok_iff _ _ _).1 h
    obtain ⟨rt, -, h⟩ := (bind_ok_iff _ _ _).1 h
    cases h
    exact ⟨rfl, rfl, Or.inr ⟨_, hnone, rfl, rfl⟩⟩

theorem applyGen_stable {α H : Type} [DecidableEq H] {ops : ElementOps α H} {limit : Nat}
    {P : Core α H → Bool → Prop} (hP : PushStable ops limit P)
    {d d1 : Data α H} {b s j : Nat} {stop stop1 : Bool}
    (h : applyGen ops limit b s d stop j = .ok (d1, stop1)) (hd : P d.core stop) :
    P d1.core stop1 ∧ d1.pos = d.pos ∧ d1.nrgens = d.nrgens := by
  have hm : ∀ {d1 stop1}, multiply ops limit d b s j stop = .ok (d1, stop1) →
      P d1.core stop1 ∧ d1.pos = d.pos ∧ d1.nrgens = d.nrgens := by
    intro d1 stop1 hmul
    obtain ⟨hp, hg, hc⟩ := multiply_core hmul
    refine ⟨?_, hp, hg⟩
    rcases hc with ⟨hc, hs⟩ | ⟨tmp, hnone, hc, hs⟩
    · rw [hc, hs]; exact hd
    · rw [hc, hs]; exact hP _ _ _ hd hnone
  unfold applyGen at h
  split at h
  · exact hm h
  · split at h
    · cases h
    · split at h
      · split at h
        · cases h
        · rename_i d2 hsc
          cases h
          obtain ⟨hc, hp, hg⟩ := shortcut_core hsc
          exact ⟨by rw [hc]; exact hd, hp, hg⟩
      · exact hm h

theorem applyGens_stable {α H : Type} [DecidableEq H] {ops : ElementOps α H} {limit : Nat}
    {P : Core α H → Bool → Prop} (hP : PushStable ops limit P) {b s : Nat} :
    ∀ (js : List Nat) {d d1 : Data α H} {stop stop1 : Bool},
      applyGens ops limit b s js d stop = .ok (d1, stop1) → P d.core stop →
      P d1.core stop1 ∧ d1.pos = d.pos ∧ d1.nrgens = d.nrgens := by
  intro js
  induction js with
  | nil =>
    intro d d1 stop stop1 h hd
    simp only [applyGens] at h
    cases h
    exact ⟨hd, rfl, rfl⟩
  | cons j js ih =>
    intro d d1 stop stop1 h hd
    simp only [applyGens] at h
    split at h
    · cases h
    · rename_i d2 stop2 hstep
      obtain ⟨h2, hp2, hg2⟩ := applyGen_stable hP hstep hd
      obtain ⟨h3, hp3, hg3⟩ := ih h h2
      exact ⟨h3, hp3.trans hp2, hg3.trans hg2⟩

theorem processPos_stable {α H : Type} [DecidableEq H] {ops : ElementOps α H} {limit : Nat}
    {P : Core α H → Bool → Prop} (hP : PushStable ops limit P)
    {d d1 : Data α H} {stop stop1 : Bool}
    (h : processPos ops limit d stop = .ok (d1, stop1)) (hd : P d.core stop) :
    P d1.core stop1 ∧ d1.pos = d.pos + 1 := by
  unfold processPos at h
  simp only [bind_ok_iff] at h
  obtain ⟨b, -, s, -, ⟨d2, stop2⟩, hgens, h⟩ := h
  cases h
  obtain ⟨h2, hp2, -⟩ := applyGens_stable hP _ hgens hd
  exact ⟨h2, by simp [hp2]⟩

theorem enumInner_stable {α H : Type} [DecidableEq H] {ops : ElementOps α H} {limit : Nat}
    {P : Core α H → Bool → Prop} (hP : PushStable ops limit P) :
    ∀ (fuel : Nat) {d d1 : Data α H} {stop stop1 : Bool},
      enumInner ops limit fuel d stop = .ok (d1, stop1) → P d.core stop → P d1.core stop1 := by
  intro fuel
  induction fuel with
  | zero =>
    intro d d1 stop stop1 h hd
    simp only [enumInner] at h
    split at h
    · cases h
    · split at h
      · cases h
      · cases h; exact hd
  | succ fuel ih =>
    intro d d1 stop stop1 h hd
    simp only [enumInner] at h
    split at h
    · cases h
    · split at h
      · split at h
        · cases h
        · rename_i d2 stop2 hstep
          exact ih h (processPos_stable hP hstep hd).1
      · cases h; exact hd

theorem fillLeftLong_core {α H : Type} {p b i : Nat} :
    ∀ (js : List Nat) {d d1 : Data α H}, fillLeftLong p b i js d = .ok d1 →
      d1.core = d.core ∧ d1.pos = d.pos ∧ d1.wordlen = d.wordlen := by
  intro js
  induction js with
  | nil => intro d d1 h; simp only [fillLeftLong] at h; cases h; exact ⟨rfl, rfl, rfl⟩
  | cons j js ih =>
    intro d d1 h
    simp only [fillLeftLong] at h
    split at h
    · cases h
    · have h1 := ih h
      exact h1

theorem fillLeftShort_core {α H : Type} {b i : Nat} :
    ∀ (js : List Nat) {d d1 : Data α H}, fillLeftShort b i js d = .ok d1 →
      d1.core = d.core ∧ d1.pos = d.pos ∧ d1.wordlen = d.wordlen := by
  intro js
  induction js with
  | nil => intro d d1 h; simp only [fillLeftShort] at h; cases h; exact ⟨rfl, rfl, rfl⟩
  | cons j js ih =>
    intro d d1 h
    simp only [fillLeftShort] at h
    split at h
    · cases h
    · have h1 := ih h
      exact h1

theorem closeLong_core {α H : Type} :
    ∀ (is : List Nat) {d d1 : Data α H}, closeLong is d = .ok d1 →
      d1.core = d.core ∧ d1.pos = d.pos ∧ d1.wordlen = d.wordlen := by
  intro is
  induction is with
  | nil => intro d d1 h; simp only [closeLong] at h; cases h; exact ⟨rfl, rfl, rfl⟩
  | cons i is ih =>
    intro d d1 h
    simp only [closeLong] at h
    split at h
    · cases h
    · rename_i d2 hrow
      simp only [bind_ok_iff] at hrow
      obtain ⟨p, -, b, -, hrow⟩ := hrow
      obtain ⟨h1, h2, h3⟩ := fillLeftLong_core _ hrow
      obtain ⟨h4, h5, h6⟩ := ih h
      exact ⟨h4.trans h1, h5.trans h2, h6.trans h3⟩

theorem closeShort_core {α H : Type} :
    ∀ (is : List Nat) {d d1 : Data α H}, closeShort is d = .ok d1 →
      d1.core = d.core ∧ d1.pos = d.pos ∧ d1.wordlen = d.wordlen := by
  intro is
  induction is with
  | nil => intro d d1 h; simp only [closeShort] at h; cases h; exact ⟨rfl, rfl, rfl⟩
  | cons i is ih =>
    intro d d1 h
    simp only [closeShort] at h
    split at h
    · cases h
    · rename_i d2 hrow
      simp only [bind_ok_iff] at hrow
      obtain ⟨b, -, hrow⟩ := hrow
      obtain ⟨h1, h2, h3⟩ := fillLeftShort_core _ hrow
      obtain ⟨h4, h5, h6⟩ := ih h
      exact ⟨h4.trans h1, h5.trans h2, h6.trans h3⟩

theorem closeLevel_core {α H : Type} {d d1 : Data α H} (h : closeLevel d = .ok d1) :
    d1.core = d.core ∧ d1.pos = d.pos := by
  unfold closeLevel at h
  split at h
  · cases h
  · cases h; exact ⟨rfl, rfl⟩
  · split at h
    · split at h
      · cases h
      · split at h
        · cases h
        · rename_i d2 hc
          cases h
          obtain ⟨h1, h2, -⟩ := closeLong_core _ hc
          exact ⟨h1, h2⟩
    · split at h
      · split at h
        · cases h
        · split at h
          · cases h
          · rename_i d2 hc
            cases h
            obtain ⟨h1, h2, -⟩ := closeShort_core _ hc
            exact ⟨h1, h2⟩
      · cases h; exact ⟨rfl, rfl⟩

theorem enumOuter_stable {α H : Type} [DecidableEq H] {ops : ElementOps α H} {limit : Nat}
    {P : Core α H → Bool → Prop} (hP : PushStable ops limit P) (fuel : Nat) :
    ∀ (k : Nat) {d d1 : Data α H} {stop : Bool},
      enumOuter ops limit fuel k d stop = .ok d1 → P d.core stop →
      ∃ stop1, P d1.core stop1 ∧ ¬ (d1.pos < d1.nr ∧ stop1 = false) := by
  intro k
  induction k with
  | zero =>
    intro d d1 stop h hd
    simp only [enumOuter] at h
    split at h
    · cases h
    · rename_i hc
      cases h
      exact ⟨stop, hd, by simpa using hc⟩
  | succ k ih =>
    intro d d1 stop h hd
    simp only [enumOuter] at h
    split at h
    · split at h
      · cases h
      · rename_i d2 stop2 hin
        split at h
        · cases h
        · rename_i d3 hcl
          have h2 := enumInner_stable hP fuel hin hd
          rw [← (closeLevel_core hcl).1] at h2
          exact ih h h2
    · rename_i hc
      cases h
      exact ⟨stop, hd, by simpa using hc⟩

theorem enumerate_stable {α H : Type} [DecidableEq H] {ops : ElementOps α H} {limit : Nat}
    {P : Core α H → Bool → Prop} (hP : PushStable ops limit P) {fuel : Nat}
    {d d1 : Data α H} (h : Data.enumerate ops fuel d limit = .ok d1) (hd : P d.core false) :
    ∃ stop1, P d1.core stop1 ∧ ¬ (d1.pos < d1.nr ∧ stop1 = false) := by
  unfold Data.enumerate at h
  split at h
  · rename_i hgt
    cases h
    exact ⟨false, hd, by omega⟩
  · exact enumOuter_stable hP fuel fuel h hd

/-! ## The enumerator: hash index, return condition, closed states -/

theorem mapFind_append {H : Type} [DecidableEq H] (m m1 : List (H × Nat)) (h : H) :
    mapFind (m ++ m1) h = (mapFind m h).orElse (fun _ => mapFind m1 h) := by
  induction m with
  | nil => simp [mapFind]
  | cons e m ih =>
    obtain ⟨k, p⟩ := e
    simp only [List.cons_append, mapFind]
    split
    · simp
    · exact ih

theorem hashIndexed_iff {α H : Type} [DecidableEq H] (ops : ElementOps α H) (d : Data α H) :
    HashIndexed ops d ↔ d.core.Indexed ops := by
  constructor
  · rintro ⟨h1, -, h3, h4⟩
    exact ⟨h1, h3, h4⟩
  · rintro ⟨h1, h3, h4⟩
    refine ⟨h1, ?_, h3, h4⟩
    intro i j x hi hj
    have a := h3 i x hi
    have b := h3 j x hj
    rw [a] at b
    exact Option.some.inj b

theorem Core.indexed_push {α H : Type} [DecidableEq H] (ops : ElementOps α H)
    (c : Core α H) (tmp : α) (hc : c.Indexed ops)
    (hnone : mapFind c.map (ops.hash tmp) = none) : (c.push ops tmp).Indexed ops := by
  obtain ⟨h1, h3, h4⟩ := hc
  refine ⟨by simp [Core.push, h1], ?_, ?_⟩
  · intro i x hi
    simp only [Core.push, mapInsert, mapFind_append] at hi ⊢
    by_cases hlt : i < c.elements.length
    · rw [List.getElem?_append_left hlt] at hi
      rw [h3 i x hi]
      rfl
    · rw [List.getElem?_append_right (by omega)] at hi
      have hi0 : i - c.elements.length = 0 := by
        by_contra hne
        obtain ⟨k, hk⟩ := Nat.exists_eq_succ_of_ne_zero hne
        rw [hk] at hi
        simp at hi
      rw [hi0] at hi
      simp only [List.getElem?_cons_zero, Option.some.injEq] at hi
      subst hi
      rw [hnone]
      simp only [Option.orElse, mapFind, if_true]
      congr 1
      omega
  · intro h p hp
    simp only [Core.push, mapInsert, mapFind_append] at hp ⊢
    cases hm : mapFind c.map h with
    | some q =>
      rw [hm] at hp
      simp only [Option.orElse] at hp
      obtain rfl : q = p := Option.some.inj hp
      obtain ⟨x, hx, hh⟩ := h4 h q hm
      refine ⟨x, ?_, hh⟩
      have hlt : q < c.elements.length := by
        by_contra hge
        rw [List.getElem?_eq_none (by omega)] at hx
        cases hx
      rw [List.getElem?_append_left hlt]
      exact hx
    | none =>
      rw [hm] at hp
      simp only [Option.orElse, mapFind] at hp
      split at hp
      · rename_i heq
        cases hp
        refine ⟨tmp, ?_, heq⟩
        rw [← h1, List.getElem?_append_right (le_refl _)]
        simp
      · cases hp

theorem pushStable_indexed {α H : Type} [DecidableEq H] (ops : ElementOps α H) (limit : Nat) :
    PushStable ops limit (fun c _ => c.Indexed ops) :=
  fun c _ tmp hc hnone => Core.indexed_push ops c tmp hc hnone

theorem pushStable_limit {α H : Type} [DecidableEq H] (ops : ElementOps α H) (limit : Nat) :
    PushStable ops limit (fun c stop => stop = true → limit ≤ c.nr) := by
  intro c stop tmp _ _ hs
  simpa [Core.push] using hs

theorem addGenerator_indexed {α H : Type} [DecidableEq H] {ops : ElementOps α H}
    {d d1 : Data α H} {i : Nat} (h : addGenerator ops d i = .ok d1)
    (hd : d.core.Indexed ops) : d1.core.Indexed ops := by
  unfold addGenerator at h
  split at h
  · cases h
  · split at h
    · split at h
      · cases h
      · cases h; exact hd
    · rename_i x _ _ hnone
      split at h
      · cases h
      · cases h
        exact Core.indexed_push ops d.core x hd hnone

theorem addGenerators_indexed {α H : Type} [DecidableEq H] {ops : ElementOps α H} :
    ∀ (is : List Nat) {d d1 : Data α H}, addGenerators ops is d = .ok d1 →
      d.core.Indexed ops → d1.core.Indexed ops := by
  intro is
  induction is with
  | nil => intro d d1 h hd; simp only [addGenerators] at h; cases h; exact hd
  | cons i is ih =>
    intro d d1 h hd
    simp only [addGenerators] at h
    split at h
    · cases h
    · rename_i d2 hstep
      exact ih h (addGenerator_indexed hstep hd)

theorem new_indexed {α H : Type} [DecidableEq H] {ops : ElementOps α H} {gens : List α}
    {d : Data α H} (h : Data.new ops gens = .ok d) : d.core.Indexed ops := by
  unfold Data.new at h
  split at h
  · cases h
  · simp only at h
    split at h
    · cases h
    · rename_i d2 hgen
      cases h
      have h0 := addGenerators_indexed _ hgen
        ⟨rfl, by intro i x hi; simp [Data.core] at hi, by intro h p hp; simp [Data.core, mapFind] at hp⟩
      exact h0

/-- C8. After construction and after every `enumerate` call that returns, `elements` has
`nr` entries no two of which are equal, the hash map sends the hash of the element at
position `i` to `i`, and every key of the map is the hash of a stored element. -/
theorem hashIndexed_invariant {α H : Type} [DecidableEq H] (ops : ElementOps α H) :
    (∀ (gens : List α) (d : Data α H), Data.new ops gens = .ok d → HashIndexed ops d) ∧
    (∀ (fuel limit : Nat) (d d1 : Data α H), HashIndexed ops d →
      Data.enumerate ops fuel d limit = .ok d1 → HashIndexed ops d1) := by
  constructor
  · intro gens d h
    exact (hashIndexed_iff ops d).2 (new_indexed h)
  · intro fuel limit d d1 hd h
    obtain ⟨_, h1, -⟩ := enumerate_stable (pushStable_indexed ops limit) h
      ((hashIndexed_iff ops d).1 hd)
    exact (hashIndexed_iff ops d1).2 h1

/-- C9. Whenever `enumerate (limit)` returns, the cursor has passed every discovered
element (`pos ≥ nr`) or the number of elements has reached the limit (`nr ≥ limit`). -/
theorem enumerate_closed_or_limit {α H : Type} [DecidableEq H] (ops : ElementOps α H)
    (fuel limit : Nat) (d d1 : Data α H) (h : Data.enumerate ops fuel d limit = .ok d1) :
    d1.pos ≥ d1.nr ∨ d1.nr ≥ limit := by
  obtain ⟨stop1, h1, h2⟩ := enumerate_stable (pushStable_limit ops limit) h (by simp)
  by_cases hlt : d1.pos < d1.nr
  · right
    cases stop1 with
    | false => exact absurd ⟨hlt, rfl⟩ h2
    | true => exact h1 rfl
  · left; omega

/-- C10. On a closed state (`pos ≥ nr`) a call of `enumerate`, with any limit, returns at
once and leaves every field of the state as it was. -/
theorem enumerate_closed_unchanged {α H : Type} [DecidableEq H] (ops : ElementOps α H)
    (fuel limit : Nat) (d : Data α H) (h : d.pos ≥ d.nr) :
    Data.enumerate ops fuel d limit = .ok d := by
  unfold Data.enumerate
  split
  · rfl
  · have hc : (decide (d.pos < d.nr) && !false) = false := by simp; omega
    cases fuel with
    | zero => simp only [enumOuter, hc]; rfl
    | succ k => simp only [enumOuter, hc]; rfl

/-! ## The enumerator on a freshly constructed state -/

theorem ok_bind {ε β γ : Type} (a : β) (f : β → Except ε γ) :
    ((Except.ok a : Except ε β) >>= f) = f a := rfl

theorem RecVec.get_const {T : Type} (t : RecVec T) (n m : Nat) (x : T)
    (h : t.rows = List.replicate n (List.replicate m x)) (i j : Nat) (hi : i < n)
    (hj : j < m) : t.get i j = .ok x := by
  unfold RecVec.get
  rw [h]
  simp [List.getElem?_replicate, hi, hj]

theorem vecAt_eq_ok {T : Type} (v : List T) (i : Nat) (x : T) (h : v[i]? = some x) :
    vecAt v i = .ok x := by
  unfold vecAt
  rw [h]

theorem vecAt_ok_iff {T : Type} (v : List T) (i : Nat) (x : T) :
    vecAt v i = .ok x ↔ v[i]? = some x := by
  unfold vecAt
  cases h : v[i]? with
  | none => simp
  | some y => simp

theorem addGenerator_seeded {α H : Type} [DecidableEq H] (ops : ElementOps α H)
    (d d1 : Data α H) (i : Nat) (hd : Seeded d) (hi : d.nr ≤ i)
    (h : addGenerator ops d i = .ok d1) :
    Seeded d1 ∧ d1.nr ≤ i + 1 ∧ d1.lenindex = d.lenindex ∧ d1.pos = d.pos := by
  unfold addGenerator at h
  split at h
  · cases h
  · rename_i x hx
    have hlt : i < d.gens.length := by
      rw [vecAt_ok_iff] at hx
      exact (List.getElem?_eq_some.1 hx).1
    split at h
    · split at h
      · cases h
      · cases h
        exact ⟨⟨hd.nrgens_eq, hd.first_eq, hd.final_eq, hd.prefix_eq, hd.nr_eq, hd.right_eq,
          hd.left_eq, hd.reduced_eq, hd.head, hd.lower, hd.upper, hd.wordlen_eq⟩,
          Nat.le_succ_of_le hi, rfl, rfl⟩
    · split at h
      · cases h
      · cases h
        refine ⟨⟨hd.nrgens_eq, ?_, ?_, ?_, ?_, ?_, ?_, ?_, ?_, ?_, ?_, hd.wordlen_eq⟩,
          Nat.succ_le_succ hi, rfl, rfl⟩
        · show d.first ++ [i + 1] = d.suffix ++ [i + 1]
          rw [hd.first_eq]
        · show d.final ++ [i + 1] = d.suffix ++ [i + 1]
          rw [hd.final_eq]
        · show d.prefix_ ++ [i + 1] = d.suffix ++ [i + 1]
          rw [hd.prefix_eq]
        · show d.nr + 1 = (d.suffix ++ [i + 1]).length
          rw [List.length_append, hd.nr_eq]
          rfl
        · show d.right.expand = ⟨d.nrgens, 0, List.replicate (d.nr + 1) _⟩
          rw [hd.right_eq, List.replicate_succ']
          rfl
        · show d.left.expand = ⟨d.nrgens, 0, List.replicate (d.nr + 1) _⟩
          rw [hd.left_eq, List.replicate_succ']
          rfl
        · show d.reduced.expand = ⟨d.nrgens, false, List.replicate (d.nr + 1) _⟩
          rw [hd.reduced_eq, List.replicate_succ']
          rfl
        · show (d.suffix ++ [i + 1])[0]? = some 1
          have h0 := hd.head
          have hlen : 0 < d.suffix.length := (List.getElem?_eq_some.1 h0).1
          rw [List.getElem?_append_left hlen]
          exact h0
        · intro p x hpx
          change (d.suffix ++ [i + 1])[p]? = some x at hpx
          by_cases hp : p < d.suffix.length
          · rw [List.getElem?_append_left hp] at hpx
            exact hd.lower p x hpx
          · have hp1 : d.suffix.length ≤ p := Nat.le_of_not_lt hp
            rw [List.getElem?_append_right hp1] at hpx
            have hp2 : p - d.suffix.length = 0 := by
              by_contra hne
              obtain ⟨k, hk⟩ := Nat.exists_eq_succ_of_ne_zero hne
              rw [hk] at hpx
              simp at hpx
            rw [hp2] at hpx
            simp at hpx
            have := hd.nr_eq
            omega
        · intro p x hpx
          change (d.suffix ++ [i + 1])[p]? = some x at hpx
          show x ≤ d.nrgens
          by_cases hp : p < d.suffix.length
          · rw [List.getElem?_append_left hp] at hpx
            exact hd.upper p x hpx
          · have hp1 : d.suffix.length ≤ p := Nat.le_of_not_lt hp
            rw [List.getElem?_append_right hp1] at hpx
            have hp2 : p - d.suffix.length = 0 := by
              by_contra hne
              obtain ⟨k, hk⟩ := Nat.exists_eq_succ_of_ne_zero hne
              rw [hk] at hpx
              simp at hpx
            rw [hp2] at hpx
            simp at hpx
            have := hd.nrgens_eq
            omega

theorem addGenerators_seeded {α H : Type} [DecidableEq H] (ops : ElementOps α H)
    (m : Nat) : ∀ (a : Nat) (d d1 : Data α H), Seeded d → d.nr ≤ a →
      addGenerators ops (List.range' a m) d = .ok d1 →
      Seeded d1 ∧ d1.lenindex = d.lenindex ∧ d1.pos = d.pos := by
  induction m with
  | zero =>
    intro a d d1 hd _ h
    cases h
    exact ⟨hd, rfl, rfl⟩
  | succ m ih =>
    intro a d d1 hd ha h
    rw [List.range'_succ] at h
    unfold addGenerators at h
    split at h
    · cases h
    · rename_i d2 h2
      obtain ⟨hs, hn, hl, hp⟩ := addGenerator_seeded ops d d2 a hd ha h2
      obtain ⟨hs1, hl1, hp1⟩ := ih (a + 1) d2 d1 hs hn h
      exact ⟨hs1, hl1.trans hl, hp1.trans hp⟩

/-- The constructor leaves a seeded state at position 0 with `lenindex = [0, nr]`. -/
theorem new_seeded {α H : Type} [DecidableEq H] (ops : ElementOps α H) (gens : List α)
    (d : Data α H) (h : Data.new ops gens = .ok d) :
    Seeded d ∧ d.lenindex = [0, d.nr] ∧ d.pos = 0 := by
  unfold Data.new at h
  cases gens with
  | nil => cases h
  | cons g0 rest =>
    simp only [vecAt, List.getElem?_cons_zero, List.length_cons] at h
    rw [List.range_eq_range', List.range'_succ] at h
    simp only [addGenerators] at h
    split at h
    · cases h
    · rename_i d2 h2
      cases h
      split at h2
      · cases h2
      · rename_i d1 h1
        have hs1 : Seeded d1 ∧ d1.nr ≤ 1 ∧ d1.lenindex = [0] ∧ d1.pos = 0 := by
          simp only [addGenerator, vecAt, List.getElem?_cons_zero, mapFind, vecSet,
            List.length_replicate, Nat.zero_lt_succ, if_true, mapInsert, RecVec.expand,
            RecVec.new, List.nil_append, Except.ok.injEq] at h1
          subst h1
          refine ⟨⟨rfl, rfl, rfl, rfl, rfl, rfl, rfl, rfl, rfl, ?_, ?_, rfl⟩, Nat.le_refl _,
            rfl, rfl⟩
          · intro p x hpx
            cases p with
            | zero => cases hpx; exact Nat.le_refl _
            | succ k => cases hpx
          · intro p x hpx
            cases p with
            | zero => cases hpx; exact Nat.succ_le_succ (Nat.zero_le _)
            | succ k => cases hpx
        obtain ⟨hs, hl, hp⟩ := addGenerators_seeded ops rest.length (0 + 1) d1 d2 hs1.1
          hs1.2.1 h2
        refine ⟨⟨hs.nrgens_eq, hs.first_eq, hs.final_eq, hs.prefix_eq, hs.nr_eq, hs.right_eq,
          hs.left_eq, hs.reduced_eq, hs.head, hs.lower, hs.upper, hs.wordlen_eq⟩, ?_, ?_⟩
        · show d2.lenindex ++ [d2.nr] = [0, d2.nr]
          rw [hl, hs1.2.2.1]
          rfl
        · show d2.pos = 0
          rw [hp, hs1.2.2.2]

/-- Witness of C8: the state built from the generator `1` of `cyclic3` is hash-indexed, and
so is the state `enumerate` returns from `cyclicSeed` with limit 2. -/
theorem hashIndexed_invariant_witness :
    (∃ d, Data.new cyclic3 [1] = .ok d ∧ HashIndexed cyclic3 d) ∧
    (∃ d1, Data.enumerate cyclic3 3 cyclicSeed 2 = .ok d1 ∧ d1.nr = 2 ∧
      HashIndexed cyclic3 d1) :=
  ⟨⟨_, rfl, (hashIndexed_invariant cyclic3).1 [1] _ rfl⟩,
   ⟨_, rfl, rfl, (hashIndexed_invariant cyclic3).2 3 2 cyclicSeed _
      (show HashIndexed cyclic3 cyclicSeed from
        (hashIndexed_invariant cyclic3).1 [1] { cyclicSeed with prefix_ := [1], suffix := [1] } rfl)
      rfl⟩⟩

/-- Witness of C9: from `cyclicSeed`, `enumerate` with limit 2 returns with two elements. -/
theorem enumerate_closed_or_limit_witness :
    ∃ d1, Data.enumerate cyclic3 3 cyclicSeed 2 = .ok d1 ∧ d1.nr = 2 ∧
      (d1.pos ≥ d1.nr ∨ d1.nr ≥ 2) :=
  ⟨_, rfl, rfl, enumerate_closed_or_limit cyclic3 3 2 cyclicSeed _ rfl⟩

/-- Witness of C10: `enumerate` closes `trivialSeed`, and a second call changes nothing. -/
theorem enumerate_closed_unchanged_witness :
    ∃ d, Data.enumerate cyclic3 3 trivialSeed 10 = .ok d ∧ d.pos ≥ d.nr ∧
      Data.enumerate cyclic3 5 d 7 = .ok d :=
  ⟨_, rfl, by decide, enumerate_closed_unchanged cyclic3 5 7 _ (by decide)⟩

/-- C6 (the code at the failing input). For the single generator `1` of the cyclic group of
order 3 the constructor stores one element with `suffix = [1]`, and `enumerate` on that
state returns no state, whatever the limit and the budget: `nr` never becomes 3. -/
theorem enumerate_cyclic3_no_result :
    ∃ d, Data.new cyclic3 [1] = .ok d ∧ d.nr = 1 ∧ d.suffix = [1] ∧
      ∀ fuel limit d1, Data.enumerate cyclic3 fuel d limit ≠ .ok d1 := by
  refine ⟨_, rfl, rfl, rfl, ?_⟩
  intro fuel limit d1
  cases fuel with
  | zero => intro h; cases h
  | succ k => intro h; cases h

/-- C7 (the code at the failing input). For the generators `1, 2` of the cyclic group of
order 3, the first pass of the inner loop of `enumerate` on the constructed state takes the
table branch for both generators: it leaves `pos = 1` and `right[0][0] = 0`, although the
product of `elements[0]` and `gens[0]` is `elements[1]`, not `elements[0]`; the call then
fails at position 1. -/
theorem enumerate_two_generators_wrong_right :
    ∃ d d1, Data.new cyclic3 [1, 2] = .ok d ∧
      (∀ limit, processPos cyclic3 limit d false = .ok (d1, false)) ∧
      d1.pos = 1 ∧ d1.right.get 0 0 = .ok 0 ∧
      d1.elements = [1, 2] ∧ d1.gens = [1, 2] ∧ cyclic3.mul 1 1 = 2 ∧
      ∀ fuel limit d2, Data.enumerate cyclic3 fuel d limit ≠ .ok d2 := by
  refine ⟨_, _, rfl, fun _ => rfl, rfl, rfl, rfl, rfl, rfl, ?_⟩
  intro fuel limit d2
  cases fuel with
  | zero => intro h; cases h
  | succ k =>
    cases k with
    | zero => intro h; cases h
    | succ k => intro h; cases h

/-! ## The graph routines on no vertices -/

/-- C20. On an input with zero vertices each of the three graph routines returns the
record with empty `id` and empty `comps`: `GABOW_SCC` on the empty digraph,
`SCC_UNION_LEFT_RIGHT_CAYLEY_GRAPHS` on a first record with empty `id` (whatever its `comps`
and whatever the second record) and `FIND_HCLASSES` on a `right` record with empty `id`. -/
theorem zero_vertices_empty_record :
    GABOW_SCC [] = .ok { id := [], comps := [] } ∧
    (∀ (comps1 : List (List Nat)) (scc2 : SCCResult),
      SCC_UNION_LEFT_RIGHT_CAYLEY_GRAPHS { id := [], comps := comps1 } scc2 =
        .ok { id := [], comps := [] }) ∧
    (∀ (comps : List (List Nat)) (left : SCCResult),
      FIND_HCLASSES { id := [], comps := comps } left = { id := [], comps := [] }) :=
  ⟨rfl, fun _ _ => rfl, fun _ _ => rfl⟩

/-! ## The constructor -/

theorem freshGens_succ {α H : Type} [DecidableEq H] (ops : ElementOps α H) (gens : List α)
    (i : Nat) : freshGens ops gens (i + 1) =
      if seenBefore ops gens i then freshGens ops gens i else freshGens ops gens i ++ [i] := by
  unfold freshGens
  rw [List.range_succ, List.filter_append]
  cases h : seenBefore ops gens i <;> simp [List.filter, h]

theorem dupGens_succ {α H : Type} [DecidableEq H] (ops : ElementOps α H) (gens : List α)
    (i : Nat) : dupGens ops gens (i + 1) =
      if seenBefore ops gens i then dupGens ops gens i ++ [i] else dupGens ops gens i := by
  unfold dupGens
  rw [List.range_succ, List.filter_append]
  cases h : seenBefore ops gens i <;> simp [List.filter, h]

theorem mem_dupGens {α H : Type} [DecidableEq H] (ops : ElementOps α H) (gens : List α)
    (i g : Nat) : g ∈ dupGens ops gens i ↔ g < i ∧ seenBefore ops gens g = true := by
  unfold dupGens
  simp [List.mem_filter]

theorem mem_freshGens {α H : Type} [DecidableEq H] (ops : ElementOps α H) (gens : List α)
    (i g : Nat) : g ∈ freshGens ops gens i ↔ g < i ∧ seenBefore ops gens g = false := by
  unfold freshGens
  simp [List.mem_filter]

theorem fresh_add_dup {α H : Type} [DecidableEq H] (ops : ElementOps α H) (gens : List α)
    (i : Nat) : (freshGens ops gens i).length + (dupGens ops gens i).length = i := by
  induction i with
  | zero => rfl
  | succ i ih =>
    rw [freshGens_succ, dupGens_succ]
    cases h : seenBefore ops gens i <;> simp <;> omega

theorem seenBefore_iff {α H : Type} [DecidableEq H] (ops : ElementOps α H) (gens : List α)
    (g : Nat) (x : α) (hx : gens[g]? = some x) :
    seenBefore ops gens g = true ↔ ops.hash x ∈ (gens.take g).map ops.hash := by
  unfold seenBefore
  rw [hx]
  simp

theorem take_succ_hash {α H : Type} (ops : ElementOps α H) (gens : List α)
    (g : Nat) (x : α) (hx : gens[g]? = some x) :
    (gens.take (g + 1)).map ops.hash = (gens.take g).map ops.hash ++ [ops.hash x] := by
  rw [List.take_succ, hx]
  simp

theorem mem_of_getElem?_some {T : Type} {l : List T} {m : Nat} {a : T}
    (h : l[m]? = some a) : a ∈ l := by
  obtain ⟨hlt, rfl⟩ := List.getElem?_eq_some.1 h
  exact List.getElem_mem hlt

theorem mapFind_ne_none_append {H : Type} [DecidableEq H] (m : List (H × Nat)) (k h : H)
    (p : Nat) : mapFind (m ++ [(k, p)]) h ≠ none ↔ mapFind m h ≠ none ∨ h = k := by
  rw [mapFind_append]
  cases hm : mapFind m h with
  | some q => simp
  | none =>
    simp only [Option.orElse, mapFind, ne_eq, not_true_eq_false, false_or]
    by_cases hk : k = h
    · simp [hk]
    · simp [hk, Ne.symm hk]

theorem mapFind_append_some {H : Type} [DecidableEq H] (m m1 : List (H × Nat)) (h : H)
    (p : Nat) (hp : mapFind m h = some p) : mapFind (m ++ m1) h = some p := by
  rw [mapFind_append, hp]
  rfl

theorem addGenerator_ctor {α H : Type} [DecidableEq H] (ops : ElementOps α H)
    (gens : List α) (i : Nat) (d : Data α H) (hd : CtorInv ops gens i d)
    (hi : i < gens.length) :
    ∃ d1, addGenerator ops d i = .ok d1 ∧ CtorInv ops gens (i + 1) d1 ∧
      d1.lenindex = d.lenindex ∧ d1.degree = d.degree := by
  have hx : gens[i]? = some gens[i] := List.getElem?_eq_getElem hi
  generalize gens[i] = x at hx
  have hv : vecAt d.gens i = .ok x := by rw [hd.gens_eq]; exact vecAt_eq_ok _ _ _ hx
  have hlk : i < d.genslookup.length := by rw [hd.lookup_len]; exact hi
  have htake := take_succ_hash ops gens i x hx
  cases hm : mapFind d.map (ops.hash x) with
  | some p =>
    have hs : seenBefore ops gens i = true :=
      (seenBefore_iff ops gens i x hx).2 ((hd.keys _).1 (by rw [hm]; simp))
    have hf := freshGens_succ ops gens i
    have hdp := dupGens_succ ops gens i
    rw [hs] at hf hdp
    simp only [if_true] at hf hdp
    refine ⟨{ d with genslookup := d.genslookup.set i p, nrrules := d.nrrules + 1,
                     rules := d.rules ++ [[d.undefined, i, p]] }, ?_, ?_, rfl, rfl⟩
    · unfold addGenerator
      rw [hv]
      simp only [hm, vecSet, hlk, if_true]
    · refine ⟨hd.gens_eq, hd.nrgens_eq, hd.undefined_eq, ?_, ?_, ?_, ?_, ?_, ?_, ?_, ?_, ?_,
        ?_, hd.indexed, ?_, ?_, ?_, ?_, hd.right_eq, hd.left_eq, hd.reduced_eq,
        hd.found_one_eq, hd.pos_one_eq, hd.pos_eq, hd.wordlen_eq⟩
      · show (d.genslookup.set i p).length = gens.length
        rw [List.length_set]; exact hd.lookup_len
      · rw [hf]; exact hd.schreiergen_eq
      · rw [hf]; exact hd.nr_eq
      · rw [hf]; exact hd.first_eq
      · rw [hf]; exact hd.final_eq
      · rw [hf]; exact hd.prefix_eq
      · rw [hf]; exact hd.suffix_eq
      · rw [hf]; exact hd.schreierpos_eq
      · rw [hf]; exact hd.elements_eq
      · intro h
        rw [htake, List.mem_append, List.mem_singleton]
        constructor
        · intro hh; exact Or.inl ((hd.keys h).1 hh)
        · rintro (hh | hh)
          · exact (hd.keys h).2 hh
          · rw [hh, hm]; simp
      · show d.nrrules + 1 = (d.rules ++ [[d.undefined, i, p]]).length
        rw [List.length_append, hd.nrrules_eq]; rfl
      · show (d.rules ++ [[d.undefined, i, p]]).length = _
        rw [hdp, List.length_append, List.length_append, hd.rules_len]
        rfl
      · intro m g hmg
        rw [hdp] at hmg
        show ∃ x p1, gens[g]? = some x ∧ mapFind d.map (ops.hash x) = some p1 ∧
          (d.rules ++ [[d.undefined, i, p]])[m]? = some [gens.length + 1, g, p1] ∧
          (d.genslookup.set i p)[g]? = some p1
        by_cases hlt : m < (dupGens ops gens i).length
        · rw [List.getElem?_append_left hlt] at hmg
          obtain ⟨y, q, h1, h2, h3, h4⟩ := hd.rules_at m g hmg
          have hgi : g < i :=
            ((mem_dupGens ops gens i g).1 (mem_of_getElem?_some hmg)).1
          refine ⟨y, q, h1, h2, ?_, ?_⟩
          · rw [List.getElem?_append_left (by rw [hd.rules_len]; exact hlt)]
            exact h3
          · rw [List.getElem?_set_ne (by omega)]
            exact h4
        · have hge : (dupGens ops gens i).length ≤ m := Nat.le_of_not_lt hlt
          rw [List.getElem?_append_right hge] at hmg
          have hm0 : m - (dupGens ops gens i).length = 0 := by
            by_contra hne
            obtain ⟨k, hk⟩ := Nat.exists_eq_succ_of_ne_zero hne
            rw [hk] at hmg
            simp at hmg
          rw [hm0] at hmg
          simp only [List.getElem?_cons_zero, Option.some.injEq] at hmg
          subst hmg
          refine ⟨x, p, hx, hm, ?_, ?_⟩
          · rw [List.getElem?_append_right (by rw [hd.rules_len]; exact hge), hd.rules_len,
              hm0, hd.undefined_eq]
            rfl
          · rw [List.getElem?_set_self hlk]
      · intro g hg hsg
        show (d.genslookup.set i p)[g]? = _
        have hne : g ≠ i := by
          rintro rfl
          rw [hs] at hsg
          cases hsg
        rw [List.getElem?_set_ne (Ne.symm hne)]
        exact hd.lookup_fresh g (by omega) hsg
  | none =>
    have hs : seenBefore ops gens i = false := by
      cases hsb : seenBefore ops gens i with
      | false => rfl
      | true =>
        exfalso
        exact (hd.keys _).2 ((seenBefore_iff ops gens i x hx).1 hsb) hm
    have hf := freshGens_succ ops gens i
    have hdp := dupGens_succ ops gens i
    rw [hs] at hf hdp
    simp only [Bool.false_eq_true, if_false] at hf hdp
    refine ⟨{ d with
              genslookup := d.genslookup.set i d.nr,
              map := mapInsert d.map (ops.hash x) d.nr,
              elements := d.elements ++ [x],
              schreiergen := d.schreiergen ++ [i],
              schreierpos := d.schreierpos ++ [0],
              first := d.first ++ [i + 1],
              final := d.final ++ [i + 1],
              prefix_ := d.prefix_ ++ [i + 1],
              suffix := d.suffix ++ [i + 1],
              left := d.left.expand,
              right := d.right.expand,
              reduced := d.reduced.expand,
              nr := d.nr + 1 }, ?_, ?_, rfl, rfl⟩
    · unfold addGenerator
      rw [hv]
      simp only [hm, vecSet, hlk, if_true]
    · refine ⟨hd.gens_eq, hd.nrgens_eq, hd.undefined_eq, ?_, ?_, ?_, ?_, ?_, ?_, ?_, ?_, ?_,
        ?_, Core.indexed_push ops d.core x hd.indexed hm, hd.nrrules_eq, ?_, ?_, ?_, ?_, ?_,
        ?_, hd.found_one_eq, hd.pos_one_eq, hd.pos_eq, hd.wordlen_eq⟩
      · show (d.genslookup.set i d.nr).length = gens.length
        rw [List.length_set]; exact hd.lookup_len
      · show d.schreiergen ++ [i] = _
        rw [hf, hd.schreiergen_eq]
      · show d.nr + 1 = _
        rw [hf, List.length_append, hd.nr_eq]; rfl
      · show d.first ++ [i + 1] = _
        rw [hf, List.map_append, hd.first_eq]; rfl
      · show d.final ++ [i + 1] = _
        rw [hf, List.map_append, hd.final_eq]; rfl
      · show d.prefix_ ++ [i + 1] = _
        rw [hf, List.map_append, hd.prefix_eq]; rfl
      · show d.suffix ++ [i + 1] = _
        rw [hf, List.map_append, hd.suffix_eq]; rfl
      · show d.schreierpos ++ [0] = _
        rw [hf, List.map_append, hd.schreierpos_eq]; rfl
      · show (d.elements ++ [x]).map some = _
        rw [hf, List.map_append, List.map_append, hd.elements_eq]
        simp [hx]
      · intro h
        show mapFind (d.map ++ [(ops.hash x, d.nr)]) h ≠ none ↔ _
        rw [htake, List.mem_append, List.mem_singleton, mapFind_ne_none_append, hd.keys h]
      · show d.rules.length = _
        rw [hdp]; exact hd.rules_len
      · intro m g hmg
        rw [hdp] at hmg
        obtain ⟨y, q, h1, h2, h3, h4⟩ := hd.rules_at m g hmg
        have hgi : g < i := ((mem_dupGens ops gens i g).1 (mem_of_getElem?_some hmg)).1
        refine ⟨y, q, h1, mapFind_append_some _ _ _ _ h2, h3, ?_⟩
        show (d.genslookup.set i d.nr)[g]? = some q
        rw [List.getElem?_set_ne (by omega)]
        exact h4
      · intro g hg hsg
        show (d.genslookup.set i d.nr)[g]? = _
        by_cases hgi : g = i
        · subst hgi
          rw [List.getElem?_set_self hlk, hd.nr_eq]
        · rw [List.getElem?_set_ne (Ne.symm hgi)]
          exact hd.lookup_fresh g (by omega) hsg
      · show d.right.expand = ⟨gens.length, 0, List.replicate (d.nr + 1) _⟩
        rw [hd.right_eq, List.replicate_succ']
        rfl
      · show d.left.expand = ⟨gens.length, 0, List.replicate (d.nr + 1) _⟩
        rw [hd.left_eq, List.replicate_succ']
        rfl
      · show d.reduced.expand = ⟨gens.length, false, List.replicate (d.nr + 1) _⟩
        rw [hd.reduced_eq, List.replicate_succ']
        rfl

theorem addGenerators_ctor {α H : Type} [DecidableEq H] (ops : ElementOps α H)
    (gens : List α) (m : Nat) : ∀ (i : Nat) (d : Data α H), CtorInv ops gens i d →
      i + m ≤ gens.length →
      ∃ d1, addGenerators ops (List.range' i m) d = .ok d1 ∧ CtorInv ops gens (i + m) d1 ∧
        d1.lenindex = d.lenindex ∧ d1.degree = d.degree := by
  induction m with
  | zero =>
    intro i d hd _
    exact ⟨d, rfl, hd, rfl, rfl⟩
  | succ m ih =>
    intro i d hd him
    obtain ⟨d1, h1, hc1, hl1, hg1⟩ := addGenerator_ctor ops gens i d hd (by omega)
    obtain ⟨d2, h2, hc2, hl2, hg2⟩ := ih (i + 1) d1 hc1 (by omega)
    refine ⟨d2, ?_, ?_, hl2.trans hl1, hg2.trans hg1⟩
    · rw [List.range'_succ]
      unfold addGenerators
      rw [h1]
      exact h2
    · have : i + (m + 1) = i + 1 + m := by omega
      rw [this]
      exact hc2

theorem CtorInv.with_lenindex {α H : Type} [DecidableEq H] {ops : ElementOps α H}
    {gens : List α} {i : Nat} {d : Data α H} (hd : CtorInv ops gens i d) (l : List Nat) :
    CtorInv ops gens i { d with lenindex := l } :=
  ⟨hd.gens_eq, hd.nrgens_eq, hd.undefined_eq, hd.lookup_len, hd.schreiergen_eq, hd.nr_eq,
    hd.first_eq, hd.final_eq, hd.prefix_eq, hd.suffix_eq, hd.schreierpos_eq, hd.elements_eq,
    hd.keys, hd.indexed, hd.nrrules_eq, hd.rules_len, hd.rules_at, hd.lookup_fresh,
    hd.right_eq, hd.left_eq, hd.reduced_eq, hd.found_one_eq, hd.pos_one_eq, hd.pos_eq,
    hd.wordlen_eq⟩

/-- The constructor returns a state for every non-empty generator list, and the state is
the one `CtorInv` describes with all generators handled. -/
theorem new_spec {α H : Type} [DecidableEq H] (ops : ElementOps α H) (g0 : α)
    (rest : List α) :
    ∃ d, Data.new ops (g0 :: rest) = .ok d ∧
      CtorInv ops (g0 :: rest) (g0 :: rest).length d ∧ d.lenindex = [0, d.nr] ∧
      d.degree = ops.degree g0 := by
  have h0 : CtorInv ops (g0 :: rest) 0
      { degree := ops.degree g0, elements := [], final := [], first := [],
        found_one := false, gens := g0 :: rest,
        genslookup := List.replicate (g0 :: rest).length 0,
        left := RecVec.new (g0 :: rest).length 0, lenindex := [0], map := [], nr := 0,
        nrgens := (g0 :: rest).length, nrrules := 0, pos := 0, pos_one := 0, prefix_ := [],
        reduced := RecVec.new (g0 :: rest).length false,
        right := RecVec.new (g0 :: rest).length 0,
        rules := [], schreiergen := [], schreierpos := [], suffix := [],
        undefined := (g0 :: rest).length + 1, wordlen := 0 } := by
    refine ⟨rfl, rfl, rfl, List.length_replicate _ _, rfl, rfl, rfl, rfl, rfl, rfl, rfl, rfl,
      ?_, ⟨rfl, ?_, ?_⟩, rfl, rfl, ?_, ?_, rfl, rfl, rfl, rfl, rfl, rfl, rfl⟩
    · intro h
      simp [mapFind]
    · intro i x hi
      simp [Data.core] at hi
    · intro h p hp
      simp [Data.core, mapFind] at hp
    · intro m g hmg
      simp [dupGens] at hmg
    · intro g hg
      omega
  obtain ⟨d1, h1, hc1, hl1, hg1⟩ :=
    addGenerators_ctor ops (g0 :: rest) (g0 :: rest).length 0 _ h0 (by omega)
  refine ⟨{ d1 with lenindex := d1.lenindex ++ [d1.nr] }, ?_, ?_, ?_, hg1⟩
  · unfold Data.new
    simp only [vecAt, List.getElem?_cons_zero]
    rw [List.range_eq_range', h1]
  · have := hc1.with_lenindex (d1.lenindex ++ [d1.nr])
    rw [Nat.zero_add] at this
    exact this
  · show d1.lenindex ++ [d1.nr] = [0, d1.nr]
    rw [hl1]
    rfl

/-! ## What the constructor stores -/

theorem new_ctorInv {α H : Type} [DecidableEq H] (ops : ElementOps α H) (gens : List α)
    (d : Data α H) (h : Data.new ops gens = .ok d) :
    CtorInv ops gens gens.length d ∧ d.lenindex = [0, d.nr] ∧ gens ≠ [] := by
  cases gens with
  | nil => cases h
  | cons g0 rest =>
    obtain ⟨d1, h1, hc, hl, -⟩ := new_spec ops g0 rest
    rw [h1] at h
    cases h
    exact ⟨hc, hl, by simp⟩

theorem freshGens_append {α H : Type} [DecidableEq H] (ops : ElementOps α H)
    (gens : List α) (i k : Nat) :
    ∃ t, freshGens ops gens (i + k) = freshGens ops gens i ++ t := by
  unfold freshGens
  rw [List.range_add, List.filter_append]
  exact ⟨_, rfl⟩

theorem freshGens_at {α H : Type} [DecidableEq H] (ops : ElementOps α H) (gens : List α)
    (n g : Nat) (hg : g < n) (hnew : seenBefore ops gens g = false) :
    (freshGens ops gens n)[(freshGens ops gens g).length]? = some g := by
  obtain ⟨t, ht⟩ := freshGens_append ops gens (g + 1) (n - (g + 1))
  have hn : g + 1 + (n - (g + 1)) = n := by omega
  rw [hn] at ht
  have hf := freshGens_succ ops gens g
  rw [hnew] at hf
  simp only [Bool.false_eq_true, if_false] at hf
  rw [ht, hf, List.append_assoc, List.getElem?_append_right (Nat.le_refl _), Nat.sub_self]
  simp

theorem getElem?_of_map_eq {T U V : Type} (l : List T) (l1 : List U) (f : T → V)
    (f1 : U → V) (h : l.map f = l1.map f1) (p : Nat) (u : U) (hu : l1[p]? = some u) :
    ∃ t, l[p]? = some t ∧ f t = f1 u := by
  have h1 : (l.map f)[p]? = (l1.map f1)[p]? := by rw [h]
  rw [List.getElem?_map, List.getElem?_map, hu] at h1
  cases ht : l[p]? with
  | none => rw [ht] at h1; cases h1
  | some t =>
    rw [ht] at h1
    exact ⟨t, rfl, Option.some.inj h1⟩

/-- C12 (what the constructor stores for a new generator). For every generator list on
which the constructor returns and every generator index `g` whose hash value is not that of
an earlier generator, the generator is stored at position `p`, the number of generators
stored before it, with `genslookup[g] = p`, `first[p] = final[p] = g + 1`,
`schreierpos[p] = 0` and `schreiergen[p] = g`; but `prefix_[p]` and `suffix[p]` are
`g + 1`, which is never `0`. -/
theorem constructor_new_generator {α H : Type} [DecidableEq H] (ops : ElementOps α H)
    (gens : List α) (d : Data α H) (h : Data.new ops gens = .ok d) (g : Nat) (x : α)
    (hx : gens[g]? = some x) (hnew : seenBefore ops gens g = false) :
    ∃ p, p = (freshGens ops gens g).length ∧ p < d.nr ∧ d.genslookup[g]? = some p ∧
      d.elements[p]? = some x ∧ d.first[p]? = some (g + 1) ∧ d.final[p]? = some (g + 1) ∧
      d.schreierpos[p]? = some 0 ∧ d.schreiergen[p]? = some g ∧
      d.prefix_[p]? = some (g + 1) ∧ d.suffix[p]? = some (g + 1) ∧ g + 1 ≠ 0 := by
  obtain ⟨hc, -, -⟩ := new_ctorInv ops gens d h
  have hg : g < gens.length := (List.getElem?_eq_some.1 hx).1
  have hat := freshGens_at ops gens gens.length g hg hnew
  have hmap : ∀ f : Nat → Nat,
      ((freshGens ops gens gens.length).map f)[(freshGens ops gens g).length]? =
        some (f g) := by
    intro f
    rw [List.getElem?_map, hat]
    rfl
  refine ⟨_, rfl, ?_, hc.lookup_fresh g hg hnew, ?_, ?_, ?_, ?_, ?_, ?_, ?_,
    Nat.succ_ne_zero g⟩
  · rw [hc.nr_eq]
    exact (List.getElem?_eq_some.1 hat).1
  · obtain ⟨t, ht, hs⟩ := getElem?_of_map_eq _ _ _ _ hc.elements_eq _ g hat
    rw [hx] at hs
    rw [ht, hs]
  · rw [hc.first_eq]; exact hmap _
  · rw [hc.final_eq]; exact hmap _
  · rw [hc.schreierpos_eq]; exact hmap _
  · rw [hc.schreiergen_eq]; exact hat
  · rw [hc.prefix_eq]; exact hmap _
  · rw [hc.suffix_eq]; exact hmap _

/-- C13 (amended). For every non-empty generator list the constructor returns a state in
which `lenindex` is the two-element list `[0, nr]`, where `nr` is the number of stored
elements and of the generators that repeat no earlier one, `pos = 0` and `wordlen = 0`. -/
theorem constructor_initial_level {α H : Type} [DecidableEq H] (ops : ElementOps α H)
    (gens : List α) (hne : gens ≠ []) :
    ∃ d, Data.new ops gens = .ok d ∧ d.lenindex = [0, d.nr] ∧
      d.nr = d.elements.length ∧ d.nr = (freshGens ops gens gens.length).length ∧
      d.pos = 0 ∧ d.wordlen = 0 := by
  cases gens with
  | nil => exact absurd rfl hne
  | cons g0 rest =>
    obtain ⟨d, h, hc, hl, -⟩ := new_spec ops g0 rest
    exact ⟨d, h, hl, hc.indexed.1.symm, hc.nr_eq, hc.pos_eq, hc.wordlen_eq⟩

/-- C14. When the constructor reaches a generator index `g` whose hash value is in the hash
map at position `p`, it appends the one rule `[undefined, g, p]`, sets `genslookup[g] = p`
and changes nothing else; after construction the rules are, in order, one rule
`[undefined, g, p]` for each generator `g` that repeats an earlier one, with `p` the position
of the stored element of equal hash value and `genslookup[g] = p`, and their number is the
number of such generators. -/
theorem constructor_duplicate_generator {α H : Type} [DecidableEq H]
    (ops : ElementOps α H) :
    (∀ (d : Data α H) (g : Nat) (x : α) (p : Nat), vecAt d.gens g = .ok x →
      mapFind d.map (ops.hash x) = some p → g < d.genslookup.length →
      addGenerator ops d g = .ok { d with genslookup := d.genslookup.set g p,
                                          nrrules := d.nrrules + 1,
                                          rules := d.rules ++ [[d.undefined, g, p]] }) ∧
    (∀ (gens : List α) (d : Data α H), Data.new ops gens = .ok d →
      d.undefined = gens.length + 1 ∧
      d.rules.length = (dupGens ops gens gens.length).length ∧
      d.nrrules = d.rules.length ∧ d.nr + d.rules.length = gens.length ∧
      ∀ (m g : Nat), (dupGens ops gens gens.length)[m]? = some g →
        ∃ x p y, gens[g]? = some x ∧ d.elements[p]? = some y ∧ ops.hash y = ops.hash x ∧
          d.rules[m]? = some [d.undefined, g, p] ∧ d.genslookup[g]? = some p) := by
  constructor
  · intro d g x p hv hm hlt
    unfold addGenerator
    rw [hv]
    simp only [hm, vecSet, hlt, if_true]
  · intro gens d h
    obtain ⟨hc, -, -⟩ := new_ctorInv ops gens d h
    refine ⟨hc.undefined_eq, hc.rules_len, hc.nrrules_eq, ?_, ?_⟩
    · rw [hc.rules_len, hc.nr_eq]
      exact fresh_add_dup ops gens gens.length
    · intro m g hmg
      obtain ⟨x, p, h1, h2, h3, h4⟩ := hc.rules_at m g hmg
      obtain ⟨y, hy, hh⟩ := hc.indexed.2.2 _ _ h2
      refine ⟨x, p, y, h1, hy, hh, ?_, h4⟩
      rw [hc.undefined_eq]
      exact h3

/-- C19 (amended). The constructor fails on the empty generator list and on no other: for
every non-empty list it returns a state, whose `degree` is the degree of the first
generator; the degrees of the other generators are not looked at. -/
theorem constructor_fails_only_on_empty {α H : Type} [DecidableEq H]
    (ops : ElementOps α H) :
    Data.new ops ([] : List α) = .error .outOfRange ∧
    ∀ (g0 : α) (rest : List α), ∃ d, Data.new ops (g0 :: rest) = .ok d ∧
      d.degree = ops.degree g0 ∧ d.gens = g0 :: rest := by
  refine ⟨rfl, ?_⟩
  intro g0 rest
  obtain ⟨d, h, hc, -, hdeg⟩ := new_spec ops g0 rest
  exact ⟨d, h, hdeg, hc.gens_eq⟩

/-! ## Worked examples for the constructor -/

/-- Witness of C12: of the generators `1, 1, 2` of `cyclic3` the third repeats no earlier
one; it is stored at position 1 with `first = final = 3`, and with `prefix_ = suffix = 3`. -/
theorem constructor_new_generator_witness :
    ∃ d, Data.new cyclic3 [1, 1, 2] = .ok d ∧ seenBefore cyclic3 [1, 1, 2] 2 = false ∧
      d.suffix = [1, 3] ∧ d.prefix_ = [1, 3] ∧
      ∃ p, p = (freshGens cyclic3 [1, 1, 2] 2).length ∧ p < d.nr ∧
        d.genslookup[2]? = some p ∧
        d.elements[p]? = some 2 ∧ d.first[p]? = some (2 + 1) ∧ d.final[p]? = some (2 + 1) ∧
        d.schreierpos[p]? = some 0 ∧ d.schreiergen[p]? = some 2 ∧
        d.prefix_[p]? = some (2 + 1) ∧ d.suffix[p]? = some (2 + 1) ∧ 2 + 1 ≠ 0 :=
  ⟨_, rfl, by decide, rfl, rfl,
    constructor_new_generator cyclic3 [1, 1, 2] _ (by rfl) 2 2 rfl (by decide)⟩

/-- Counterexample to C13 as stated: for the single generator `1` of `cyclic3` the
constructor leaves `lenindex = [0, 1]` and `pos = 0`, but `wordlen = 0`, not `1`. -/
theorem constructor_wordlen_counterexample :
    ∃ d, Data.new cyclic3 [1] = .ok d ∧ d.lenindex = [0, 1] ∧ d.nr = 1 ∧ d.pos = 0 ∧
      d.wordlen = 0 ∧ d.wordlen ≠ 1 :=
  ⟨_, rfl, rfl, rfl, rfl, rfl, by decide⟩

/-- Witness of C13 (amended), at the generators `1, 1, 2` of `cyclic3`. -/
theorem constructor_initial_level_witness :
    [1, 1, 2] ≠ ([] : List Nat) ∧
    ∃ d, Data.new cyclic3 [1, 1, 2] = .ok d ∧ d.lenindex = [0, d.nr] ∧
      d.nr = d.elements.length ∧ d.nr = (freshGens cyclic3 [1, 1, 2] [1, 1, 2].length).length ∧
      d.pos = 0 ∧ d.wordlen = 0 :=
  ⟨by decide, constructor_initial_level cyclic3 [1, 1, 2] (by decide)⟩

/-- Witness of C14: of the generators `1, 1, 2` of `cyclic3` the second repeats the first;
the constructor records the one rule `[4, 1, 0]`. -/
theorem constructor_duplicate_generator_witness :
    ∃ d, Data.new cyclic3 [1, 1, 2] = .ok d ∧ d.rules = [[4, 1, 0]] ∧
      d.genslookup = [0, 0, 1] ∧ d.elements = [1, 2] ∧
      dupGens cyclic3 [1, 1, 2] [1, 1, 2].length = [1] ∧
      (d.undefined = [1, 1, 2].length + 1 ∧
       d.rules.length = (dupGens cyclic3 [1, 1, 2] [1, 1, 2].length).length ∧
       d.nrrules = d.rules.length ∧ d.nr + d.rules.length = [1, 1, 2].length ∧
       ∀ (m g : Nat), (dupGens cyclic3 [1, 1, 2] [1, 1, 2].length)[m]? = some g →
         ∃ x p y, [1, 1, 2][g]? = some x ∧ d.elements[p]? = some y ∧
           cyclic3.hash y = cyclic3.hash x ∧
           d.rules[m]? = some [d.undefined, g, p] ∧ d.genslookup[g]? = some p) :=
  ⟨_, rfl, rfl, rfl, rfl, by decide,
    (constructor_duplicate_generator cyclic3).2 [1, 1, 2] _ rfl⟩

/-- Counterexample to C19 as stated: the generators `1` and `2` of `mixedDegree` have
different degrees, and the constructor returns a state for them. -/
theorem constructor_mixed_degree_counterexample :
    mixedDegree.degree 2 ≠ mixedDegree.degree 1 ∧
    ∃ d, Data.new mixedDegree [1, 2] = .ok d ∧ d.degree = 1 ∧ d.elements = [1, 2] :=
  ⟨by decide, _, rfl, rfl, rfl⟩

/-! ## Loop invariants of `enumerate` -/

theorem applyGens_induct {α H : Type} [DecidableEq H] (ops : ElementOps α H) (limit : Nat)
    (b s n : Nat) (J : Nat → Data α H → Prop)
    (hstep : ∀ (j : Nat) (d d1 : Data α H) (stop stop1 : Bool), J j d → j < n →
      applyGen ops limit b s d stop j = .ok (d1, stop1) → J (j + 1) d1) :
    ∀ (m j : Nat) (d d1 : Data α H) (stop stop1 : Bool), j + m = n → J j d →
      applyGens ops limit b s (List.range' j m) d stop = .ok (d1, stop1) → J n d1 := by
  intro m
  induction m with
  | zero =>
    intro j d d1 stop stop1 hjm hd h
    simp only [List.range'_zero, applyGens] at h
    cases h
    rw [← hjm]
    exact hd
  | succ m ih =>
    intro j d d1 stop stop1 hjm hd h
    rw [List.range'_succ] at h
    simp only [applyGens] at h
    split at h
    · cases h
    · rename_i d2 stop2 hs
      exact ih (j + 1) d2 d1 stop2 stop1 (by omega) (hstep j d d2 stop stop2 hd (by omega) hs) h

/-- An invariant `I` of the states between two passes of the inner loop body holds after
the body, if a family `J n j` (state before generator `j` of `n`) carries it through the
generator loop. -/
theorem processPos_induct {α H : Type} [DecidableEq H] (ops : ElementOps α H) (limit : Nat)
    (I : Data α H → Prop) (J : Nat → Nat → Data α H → Prop)
    (h0 : ∀ d, I d → J d.nrgens 0 d)
    (hstep : ∀ (n b s j : Nat) (d d1 : Data α H) (stop stop1 : Bool), J n j d → j < n →
      applyGen ops limit b s d stop j = .ok (d1, stop1) → J n (j + 1) d1)
    (hend : ∀ n d, J n n d → I { d with pos := d.pos + 1 })
    (d d1 : Data α H) (stop stop1 : Bool) (hd : I d)
    (h : processPos ops limit d stop = .ok (d1, stop1)) : I d1 := by
  unfold processPos at h
  simp only [bind_ok_iff] at h
  obtain ⟨b, -, s, -, ⟨d2, stop2⟩, hgens, h⟩ := h
  cases h
  rw [List.range_eq_range'] at hgens
  exact hend _ _ (applyGens_induct ops limit b s d.nrgens (J d.nrgens)
    (fun j e e1 st st1 he hj hs => hstep d.nrgens b s j e e1 st st1 he hj hs)
    d.nrgens 0 d d2 stop stop2 (by omega) (h0 d hd) hgens)

theorem enumInner_induct {α H : Type} [DecidableEq H] (ops : ElementOps α H) (limit : Nat)
    (I : Data α H → Prop)
    (hpos : ∀ (d d1 : Data α H) (stop stop1 : Bool), I d →
      processPos ops limit d stop = .ok (d1, stop1) → I d1) :
    ∀ (fuel : Nat) (d d1 : Data α H) (stop stop1 : Bool),
      enumInner ops limit fuel d stop = .ok (d1, stop1) → I d → I d1 := by
  intro fuel
  induction fuel with
  | zero =>
    intro d d1 stop stop1 h hd
    simp only [enumInner] at h
    split at h
    · cases h
    · split at h
      · cases h
      · cases h; exact hd
  | succ fuel ih =>
    intro d d1 stop stop1 h hd
    simp only [enumInner] at h
    split at h
    · cases h
    · split at h
      · split at h
        · cases h
        · rename_i d2 stop2 hstep
          exact ih d2 d1 stop2 stop1 h (hpos d d2 stop stop2 hd hstep)
      · cases h; exact hd

/-- An invariant of the inner loop body and of the level-closing step is an invariant of
`enumerate`. -/
theorem enumerate_induct {α H : Type} [DecidableEq H] (ops : ElementOps α H) (limit : Nat)
    (I : Data α H → Prop)
    (hpos : ∀ (d d1 : Data α H) (stop stop1 : Bool), I d →
      processPos ops limit d stop = .ok (d1, stop1) → I d1)
    (hclose : ∀ (d d1 : Data α H), I d → closeLevel d = .ok d1 → I d1)
    (fuel : Nat) (d d1 : Data α H) (hd : I d)
    (h : Data.enumerate ops fuel d limit = .ok d1) : I d1 := by
  have houter : ∀ (k : Nat) (d d1 : Data α H) (stop : Bool),
      enumOuter ops limit fuel k d stop = .ok d1 → I d → I d1 := by
    intro k
    induction k with
    | zero =>
      intro d d1 stop h hd
      simp only [enumOuter] at h
      split at h
      · cases h
      · cases h; exact hd
    | succ k ih =>
      intro d d1 stop h hd
      simp only [enumOuter] at h
      split at h
      · split at h
        · cases h
        · rename_i d2 stop2 hin
          split at h
          · cases h
          · rename_i d3 hcl
            exact ih d3 d1 stop2 h
              (hclose d2 d3 (enumInner_induct ops limit I hpos fuel d d2 stop stop2 hin hd) hcl)
      · cases h; exact hd
  unfold Data.enumerate at h
  split at h
  · cases h; exact hd
  · exact houter fuel d d1 false h hd

/-! ## What one step of `enumerate` changes -/

theorem applyGen_cases {α H : Type} [DecidableEq H] {ops : ElementOps α H} {limit : Nat}
    {d d1 : Data α H} {b s j : Nat} {stop stop1 : Bool}
    (h : applyGen ops limit b s d stop j = .ok (d1, stop1)) :
    (shortcut d b s j = .ok d1 ∧ stop1 = stop) ∨
      multiply ops limit d b s j stop = .ok (d1, stop1) := by
  unfold applyGen at h
  split at h
  · exact Or.inr h
  · split at h
    · cases h
    · split at h
      · split at h
        · cases h
        · rename_i d2 hsc
          cases h
          exact Or.inl ⟨hsc, rfl⟩
      · exact Or.inr h

/-- The table branch writes `false` at `reduced[pos][j]` and some value at `right[pos][j]`,
and nothing else. -/
theorem shortcut_effect {α H : Type} {d d1 : Data α H} {b s j : Nat}
    (h : shortcut d b s j = .ok d1) :
    ∃ x red rt, d.reduced.set d.pos j false = .ok red ∧ d.right.set d.pos j x = .ok rt ∧
      d1 = { d with reduced := red, right := rt } := by
  unfold shortcut at h
  simp only [bind_ok_iff] at h
  obtain ⟨r, -, red, hred, p, -, h⟩ := h
  split at h
  · simp only [bind_ok_iff] at h
    obtain ⟨l, -, f, -, x, -, rt, hrt, h⟩ := h
    cases h
    exact ⟨x, red, rt, hred, hrt, rfl⟩
  · split at h
    · simp only [bind_ok_iff] at h
      obtain ⟨x, -, rt, hrt, h⟩ := h
      cases h
      exact ⟨x, red, rt, hred, hrt, rfl⟩
    · simp only [bind_ok_iff] at h
      obtain ⟨g, -, f, -, x, -, rt, hrt, h⟩ := h
      cases h
      exact ⟨x, red, rt, hred, hrt, rfl⟩

/-- The multiplication branch: on a hit one rule is appended and `right[pos][j]` is
written; on a miss the new element is appended with its bookkeeping entries. -/
theorem multiply_effect {α H : Type} [DecidableEq H] {ops : ElementOps α H} {limit : Nat}
    {d d1 : Data α H} {b s j : Nat} {stop stop1 : Bool}
    (h : multiply ops limit d b s j stop = .ok (d1, stop1)) :
    ∃ x g, vecAt d.elements d.pos = .ok x ∧ vecAt d.gens j = .ok g ∧
      ((∃ p rt, mapFind d.map (ops.hash (ops.mul x g)) = some p ∧
          d.right.set d.pos j p = .ok rt ∧ stop1 = stop ∧
          d1 = { d with nrrules := d.nrrules + 1, rules := d.rules ++ [[d.pos, j, p]],
                        right := rt }) ∨
       (mapFind d.map (ops.hash (ops.mul x g)) = none ∧
        ∃ suf red rt, newSuffix d s j = .ok suf ∧ d.reduced.set d.pos j true = .ok red ∧
          d.right.set d.pos j d.nr = .ok rt ∧ stop1 = decide (d.nr + 1 ≥ limit) ∧
          d1 = { d with
            lenindex := (if d.lenindex.length ≤ d.wordlen + 1 then d.lenindex ++ [d.nr]
                         else d.lenindex) ++ [d.pos],
            map := mapInsert d.map (ops.hash (ops.mul x g)) d.nr,
            elements := d.elements ++ [ops.mul x g],
            schreiergen := d.schreiergen ++ [j],
            schreierpos := d.schreierpos ++ [d.pos + 1],
            first := d.first ++ [b],
            final := d.final ++ [j + 1],
            prefix_ := d.prefix_ ++ [d.pos + 1],
            suffix := d.suffix ++ [suf],
            reduced := red.expand,
            right := rt.expand,
            left := d.left.expand,
            nr := d.nr + 1 })) := by
  unfold multiply at h
  simp only [bind_ok_iff] at h
  obtain ⟨x, hx, g, hg, h⟩ := h
  refine ⟨x, g, hx, hg, ?_⟩
  split at h
  · rename_i p hp
    obtain ⟨rt, hrt, h⟩ := (bind_ok_iff _ _ _).1 h
    cases h
    exact Or.inl ⟨p, rt, hp, hrt, rfl, rfl⟩
  · rename_i hnone
    obtain ⟨suf, hsuf, h⟩ := (bind_ok_iff _ _ _).1 h
    obtain ⟨red, hred, h⟩ := (bind_ok_iff _ _ _).1 h
    obtain ⟨rt, hrt, h⟩ := (bind_ok_iff _ _ _).1 h
    cases h
    exact Or.inr ⟨hnone, suf, red, rt, hsuf, hred, hrt, rfl, rfl⟩

theorem fillLeftLong_effect {α H : Type} {p b i : Nat} :
    ∀ (js : List Nat) {d d1 : Data α H}, fillLeftLong p b i js d = .ok d1 →
      ∃ l, d1 = { d with left := l } := by
  intro js
  induction js with
  | nil => intro d d1 h; simp only [fillLeftLong] at h; cases h; exact ⟨_, rfl⟩
  | cons j js ih =>
    intro d d1 h
    simp only [fillLeftLong] at h
    split at h
    · cases h
    · obtain ⟨l, hl⟩ := ih h
      exact ⟨l, hl⟩

theorem fillLeftShort_effect {α H : Type} {b i : Nat} :
    ∀ (js : List Nat) {d d1 : Data α H}, fillLeftShort b i js d = .ok d1 →
      ∃ l, d1 = { d with left := l } := by
  intro js
  induction js with
  | nil => intro d d1 h; simp only [fillLeftShort] at h; cases h; exact ⟨_, rfl⟩
  | cons j js ih =>
    intro d d1 h
    simp only [fillLeftShort] at h
    split at h
    · cases h
    · obtain ⟨l, hl⟩ := ih h
      exact ⟨l, hl⟩

theorem closeLong_effect {α H : Type} :
    ∀ (is : List Nat) {d d1 : Data α H}, closeLong is d = .ok d1 →
      ∃ l, d1 = { d with left := l } := by
  intro is
  induction is with
  | nil => intro d d1 h; simp only [closeLong] at h; cases h; exact ⟨_, rfl⟩
  | cons i is ih =>
    intro d d1 h
    simp only [closeLong] at h
    split at h
    · cases h
    · rename_i d2 hrow
      simp only [bind_ok_iff] at hrow
      obtain ⟨p, -, b, -, hrow⟩ := hrow
      obtain ⟨l, hl⟩ := fillLeftLong_effect _ hrow
      obtain ⟨l1, hl1⟩ := ih h
      subst hl
      exact ⟨l1, hl1⟩

theorem closeShort_effect {α H : Type} :
    ∀ (is : List Nat) {d d1 : Data α H}, closeShort is d = .ok d1 →
      ∃ l, d1 = { d with left := l } := by
  intro is
  induction is with
  | nil => intro d d1 h; simp only [closeShort] at h; cases h; exact ⟨_, rfl⟩
  | cons i is ih =>
    intro d d1 h
    simp only [closeShort] at h
    split at h
    · cases h
    · rename_i d2 hrow
      simp only [bind_ok_iff] at hrow
      obtain ⟨b, -, hrow⟩ := hrow
      obtain ⟨l, hl⟩ := fillLeftShort_effect _ hrow
      obtain ⟨l1, hl1⟩ := ih h
      subst hl
      exact ⟨l1, hl1⟩

/-- The level-closing step changes only `left` and `wordlen`. -/
theorem closeLevel_effect {α H : Type} {d d1 : Data α H} (h : closeLevel d = .ok d1) :
    ∃ l w, d1 = { d with left := l, wordlen := w } := by
  unfold closeLevel at h
  split at h
  · cases h
  · cases h; exact ⟨_, _, rfl⟩
  · split at h
    · split at h
      · cases h
      · split at h
        · cases h
        · rename_i d2 hc
          cases h
          obtain ⟨l, hl⟩ := closeLong_effect _ hc
          subst hl
          exact ⟨l, _, rfl⟩
    · split at h
      · split at h
        · cases h
        · split at h
          · cases h
          · rename_i d2 hc
            cases h
            obtain ⟨l, hl⟩ := closeShort_effect _ hc
            subst hl
            exact ⟨l, _, rfl⟩
      · cases h; exact ⟨_, _, rfl⟩

/-! ## Members that `enumerate` never writes -/

/-- No step of `enumerate` writes `gens`, `nrgens`, `genslookup`, `undefined`, `degree`,
`found_one` or `pos_one`. -/
theorem enumerate_frame {α H : Type} [DecidableEq H] (ops : ElementOps α H)
    (fuel limit : Nat) (d d1 : Data α H) (h : Data.enumerate ops fuel d limit = .ok d1) :
    d1.gens = d.gens ∧ d1.nrgens = d.nrgens ∧ d1.genslookup = d.genslookup ∧
      d1.undefined = d.undefined ∧ d1.degree = d.degree ∧ d1.found_one = d.found_one ∧
      d1.pos_one = d.pos_one := by
  refine enumerate_induct ops limit
    (fun e => e.gens = d.gens ∧ e.nrgens = d.nrgens ∧ e.genslookup = d.genslookup ∧
      e.undefined = d.undefined ∧ e.degree = d.degree ∧ e.found_one = d.found_one ∧
      e.pos_one = d.pos_one) ?_ ?_ fuel d d1 ⟨rfl, rfl, rfl, rfl, rfl, rfl, rfl⟩ h
  · intro e e1 stop stop1 he hp
    refine processPos_induct ops limit _
      (fun _ _ e => e.gens = d.gens ∧ e.nrgens = d.nrgens ∧ e.genslookup = d.genslookup ∧
        e.undefined = d.undefined ∧ e.degree = d.degree ∧ e.found_one = d.found_one ∧
        e.pos_one = d.pos_one) (fun _ hI => hI) ?_ (fun _ _ hJ => hJ) e e1 stop stop1 he hp
    intro n b s j a a1 st st1 ha _ hs
    rcases applyGen_cases hs with ⟨hsc, -⟩ | hmul
    · obtain ⟨x, red, rt, -, -, rfl⟩ := shortcut_effect hsc
      exact ha
    · obtain ⟨x, g, -, -, hc⟩ := multiply_effect hmul
      rcases hc with ⟨p, rt, -, -, -, rfl⟩ | ⟨-, suf, red, rt, -, -, -, -, rfl⟩
      · exact ha
      · exact ha
  · intro e e1 he hc
    obtain ⟨l, w, rfl⟩ := closeLevel_effect hc
    exact he

/-- C15 (what the code records). The constructor returns with `found_one = false` and
`pos_one = 0` whatever the generators are, and `enumerate` returns with the `found_one` and
`pos_one` it was called with: no identity is ever recorded. -/
theorem identity_never_recorded {α H : Type} [DecidableEq H] (ops : ElementOps α H) :
    (∀ (gens : List α) (d : Data α H), Data.new ops gens = .ok d →
      d.found_one = false ∧ d.pos_one = 0) ∧
    (∀ (fuel limit : Nat) (d d1 : Data α H), Data.enumerate ops fuel d limit = .ok d1 →
      d1.found_one = d.found_one ∧ d1.pos_one = d.pos_one) := by
  constructor
  · intro gens d h
    obtain ⟨hc, -, -⟩ := new_ctorInv ops gens d h
    exact ⟨hc.found_one_eq, hc.pos_one_eq⟩
  · intro fuel limit d d1 h
    obtain ⟨-, -, -, -, -, h1, h2⟩ := enumerate_frame ops fuel limit d d1 h
    exact ⟨h1, h2⟩

/-- Witness of C15: `0` is the identity of `cyclic3`. Given as only generator it is stored
at position 0 and `found_one` stays `false`; and when `enumerate` discovers it as the
product of the generators `1` and `2`, at position 2, `found_one` stays `false`. -/
theorem identity_never_recorded_witness :
    (∀ a, a < 3 → cyclic3.mul 0 a = a ∧ cyclic3.mul a 0 = a) ∧
    (∃ d, Data.new cyclic3 [0] = .ok d ∧ d.elements = [0] ∧
      d.found_one = false ∧ d.pos_one = 0) ∧
    (∃ d1, Data.enumerate cyclic3 3 pairSeed 3 = .ok d1 ∧ d1.elements = [1, 2, 0] ∧
      d1.found_one = pairSeed.found_one ∧ d1.pos_one = pairSeed.pos_one) :=
  ⟨by decide, ⟨_, rfl, rfl, (identity_never_recorded cyclic3).1 [0] _ (by rfl)⟩,
    ⟨_, rfl, rfl, (identity_never_recorded cyclic3).2 3 3 pairSeed _ (by rfl)⟩⟩

/-! ## A hand-seeded state on which the outer loop spins -/

theorem enumOuter_cyclicStuck (limit fuel : Nat) :
    ∀ k, enumOuter cyclic3 limit fuel k cyclicStuck false = .error .outOfFuel := by
  intro k
  induction k with
  | zero => rfl
  | succ k ih =>
    have hin : enumInner cyclic3 limit fuel cyclicStuck false = .ok (cyclicStuck, false) := by
      cases fuel <;> rfl
    unfold enumOuter
    rw [hin]
    exact ih

/-- From the seeded state of the generator of `cyclic3`, `enumerate` with a limit above 2
uses up every iteration budget: after the first new element `lenindex[wordlen + 1]` is the
position pushed by `_lenindex.push_back(_pos)`, the inner loop no longer runs and the outer
loop no longer advances. -/
theorem enumerate_cyclicSeed_spins (fuel limit : Nat) (hl : 3 ≤ limit) :
    Data.enumerate cyclic3 fuel cyclicSeed limit = .error .outOfFuel := by
  cases fuel with
  | zero => rfl
  | succ k =>
    have hstop : decide (1 + 1 ≥ limit) = false := by
      rw [decide_eq_false_iff_not]
      omega
    have hpos : processPos cyclic3 limit cyclicSeed false =
        .ok ({ cyclicStuck with wordlen := 0 }, decide (1 + 1 ≥ limit)) := rfl
    rw [hstop] at hpos
    have hin : enumInner cyclic3 limit (k + 1) cyclicSeed false =
        .ok ({ cyclicStuck with wordlen := 0 }, false) := by
      show (match processPos cyclic3 limit cyclicSeed false with
        | Except.error e => Except.error e
        | Except.ok (d1, stop1) => enumInner cyclic3 limit k d1 stop1) = _
      rw [hpos]
      cases k <;> rfl
    unfold Data.enumerate
    rw [if_neg (by decide)]
    unfold enumOuter
    rw [if_pos (by decide), hin]
    exact enumOuter_cyclicStuck limit (k + 1) k

/-- The push `_lenindex.push_back(_pos)` on a hand-seeded state. The state `cyclicSeed` is
returned by no call of the constructor (which stores `i + 1`, never `0`, in `suffix`). From
it `enumerate` with limit 2 reaches the branch of a new element: it stores `2` at position
1 and returns with `lenindex = [0, 1, 0]`, the entry appended being the cursor `pos = 0` at
the time of the discovery. -/
theorem enumerate_cyclicSeed_lenindex :
    ∃ d1, Data.enumerate cyclic3 3 cyclicSeed 2 = .ok d1 ∧ d1.elements = [1, 2] ∧
      cyclicSeed.lenindex = [0, 1] ∧ d1.lenindex = [0, 1, 0] ∧
      ∀ gens, Data.new cyclic3 gens ≠ .ok cyclicSeed :=
  ⟨_, rfl, rfl, rfl, rfl, fun gens h => by
    have h0 := (new_seeded cyclic3 gens cyclicSeed h).1.head
    cases h0⟩

/-! ## Reading a table after a write -/

theorem RecVec.set_ok {T : Type} {t t1 : RecVec T} {i j : Nat} {v : T}
    (h : t.set i j v = .ok t1) :
    ∃ row, t.rows[i]? = some row ∧ j < row.length ∧
      t1 = { t with rows := t.rows.set i (row.set j v) } := by
  unfold RecVec.set at h
  split at h
  · cases h
  · rename_i row hrow
    split at h
    · rename_i hj
      cases h
      exact ⟨row, hrow, hj, rfl⟩
    · cases h

theorem RecVec.get_set {T : Type} {t t1 : RecVec T} {i j : Nat} {v : T}
    (h : t.set i j v = .ok t1) (i1 j1 : Nat) :
    t1.get i1 j1 = if i1 = i ∧ j1 = j then .ok v else t.get i1 j1 := by
  obtain ⟨row, hrow, hj, rfl⟩ := RecVec.set_ok h
  have hi : i < t.rows.length := (List.getElem?_eq_some.1 hrow).1
  unfold RecVec.get
  simp only [List.getElem?_set]
  by_cases hi1 : i = i1
  · subst hi1
    simp only [hi, if_true, true_and, hrow, List.getElem?_set]
    by_cases hj1 : j = j1
    · subst hj1
      simp [hj]
    · simp [hj1, Ne.symm hj1]
  · simp [hi1, Ne.symm hi1]

theorem RecVec.set_shape {T : Type} {t t1 : RecVec T} {i j : Nat} {v : T}
    (h : t.set i j v = .ok t1) :
    t1.dflt = t.dflt ∧ t1.nrcols = t.nrcols ∧ t1.rows.length = t.rows.length := by
  obtain ⟨row, -, -, rfl⟩ := RecVec.set_ok h
  exact ⟨rfl, rfl, by simp⟩

theorem RecVec.defined_of_set {T : Type} {t t1 : RecVec T} {i j : Nat} {v : T}
    (h : t.set i j v = .ok t1) : t.Defined i j := by
  obtain ⟨row, hrow, hj, -⟩ := RecVec.set_ok h
  unfold RecVec.Defined RecVec.get
  rw [hrow]
  simp only [List.getElem?_eq_getElem hj]
  exact ⟨_, rfl⟩

theorem RecVec.defined_set {T : Type} {t t1 : RecVec T} {i j : Nat} {v : T}
    (h : t.set i j v = .ok t1) (i1 j1 : Nat) : t1.Defined i1 j1 ↔ t.Defined i1 j1 := by
  unfold RecVec.Defined
  rw [RecVec.get_set h]
  by_cases hc : i1 = i ∧ j1 = j
  · simp only [hc, and_self, if_true]
    obtain ⟨h1, h2⟩ := hc
    have := RecVec.defined_of_set h
    constructor
    · intro _; exact this
    · intro _; exact ⟨v, rfl⟩
  · simp only [hc, if_false]

theorem RecVec.get_expand {T : Type} (t : RecVec T) (i j : Nat) :
    t.expand.get i j =
      if i < t.rows.length then t.get i j
      else if i = t.rows.length ∧ j < t.nrcols then .ok t.dflt else .error .outOfRange := by
  unfold RecVec.get RecVec.expand
  by_cases hi : i < t.rows.length
  · simp only [hi, if_true, List.getElem?_append_left hi]
  · simp only [hi, if_false]
    have hge : t.rows.length ≤ i := Nat.le_of_not_lt hi
    rw [List.getElem?_append_right hge]
    by_cases he : i = t.rows.length
    · subst he
      simp only [Nat.sub_self, List.getElem?_cons_zero, true_and, List.getElem?_replicate]
      by_cases hj : j < t.nrcols
      · simp [hj]
      · simp [hj]
    · have : i - t.rows.length ≠ 0 := by omega
      obtain ⟨k, hk⟩ := Nat.exists_eq_succ_of_ne_zero this
      simp [hk, he]

theorem RecVec.get_expand_of_ok {T : Type} (t : RecVec T) (i j : Nat) (v : T)
    (h : t.get i j = .ok v) : t.expand.get i j = .ok v := by
  have hi : i < t.rows.length := by
    unfold RecVec.get at h
    cases hr : t.rows[i]? with
    | none => rw [hr] at h; cases h
    | some row => exact (List.getElem?_eq_some.1 hr).1
  rw [RecVec.get_expand, if_pos hi]
  exact h

theorem RecVec.get_expand_ok {T : Type} (t : RecVec T) (i j : Nat) (v : T)
    (h : t.expand.get i j = .ok v) :
    t.get i j = .ok v ∨ (i = t.rows.length ∧ j < t.nrcols ∧ v = t.dflt) := by
  rw [RecVec.get_expand] at h
  split at h
  · exact Or.inl h
  · split at h
    · rename_i hc
      cases h
      exact Or.inr ⟨hc.1, hc.2, rfl⟩
    · cases h

/-! ## Reduced entries are edges of the Schreier tree -/

theorem treeAt_shortcut {α H : Type} {j : Nat} {d d1 : Data α H} {b s : Nat}
    (hd : TreeAt j d) (h : shortcut d b s j = .ok d1) : TreeAt (j + 1) d1 := by
  obtain ⟨x, red, rt, hred, hrt, rfl⟩ := shortcut_effect h
  refine ⟨?_, hd.pos_len, hd.gen_len, ?_⟩
  · show red.dflt = false
    rw [(RecVec.set_shape hred).1]
    exact hd.dflt
  · intro i g hig
    change red.get i g = .ok true at hig
    rw [RecVec.get_set hred] at hig
    by_cases hc : i = d.pos ∧ g = j
    · rw [if_pos hc] at hig
      cases hig
    · rw [if_neg hc] at hig
      obtain ⟨h1, r, h2, h3, h4⟩ := hd.tree i g hig
      refine ⟨?_, r, ?_, h3, h4⟩
      · show i < d.pos ∨ (i = d.pos ∧ g < j + 1)
        rcases h1 with h1 | ⟨h1, h5⟩
        · exact Or.inl h1
        · exact Or.inr ⟨h1, by omega⟩
      · show rt.get i g = .ok r
        rw [RecVec.get_set hrt, if_neg hc]
        exact h2

theorem treeAt_multiply {α H : Type} [DecidableEq H] {ops : ElementOps α H} {limit : Nat}
    {j : Nat} {d d1 : Data α H} {b s : Nat} {stop stop1 : Bool}
    (hd : TreeAt j d) (h : multiply ops limit d b s j stop = .ok (d1, stop1)) :
    TreeAt (j + 1) d1 := by
  obtain ⟨x, g0, -, -, hc⟩ := multiply_effect h
  rcases hc with ⟨p, rt, -, hrt, -, rfl⟩ | ⟨-, suf, red, rt, -, hred, hrt, -, rfl⟩
  · refine ⟨hd.dflt, hd.pos_len, hd.gen_len, ?_⟩
    intro i g hig
    obtain ⟨h1, r, h2, h3, h4⟩ := hd.tree i g hig
    have hne : ¬ (i = d.pos ∧ g = j) := by
      rintro ⟨rfl, rfl⟩
      rcases h1 with h1 | ⟨-, h1⟩ <;> omega
    refine ⟨?_, r, ?_, h3, h4⟩
    · show i < d.pos ∨ (i = d.pos ∧ g < j + 1)
      rcases h1 with h1 | ⟨h1, h5⟩
      · exact Or.inl h1
      · exact Or.inr ⟨h1, by omega⟩
    · show rt.get i g = .ok r
      rw [RecVec.get_set hrt, if_neg hne]
      exact h2
  · refine ⟨?_, ?_, ?_, ?_⟩
    · show red.expand.dflt = false
      show red.dflt = false
      rw [(RecVec.set_shape hred).1]
      exact hd.dflt
    · show (d.schreierpos ++ [d.pos + 1]).length = d.nr + 1
      rw [List.length_append, hd.pos_len]; rfl
    · show (d.schreiergen ++ [j]).length = d.nr + 1
      rw [List.length_append, hd.gen_len]; rfl
    · intro i g hig
      change red.expand.get i g = .ok true at hig
      show (i < d.pos ∨ (i = d.pos ∧ g < j + 1)) ∧
        ∃ r, rt.expand.get i g = .ok r ∧ (d.schreierpos ++ [d.pos + 1])[r]? = some (i + 1) ∧
          (d.schreiergen ++ [j])[r]? = some g
      rcases RecVec.get_expand_ok red i g true hig with hig1 | ⟨-, -, hfalse⟩
      · rw [RecVec.get_set hred] at hig1
        by_cases hc : i = d.pos ∧ g = j
        · obtain ⟨rfl, rfl⟩ := hc
          refine ⟨Or.inr ⟨rfl, by omega⟩, d.nr, ?_, ?_, ?_⟩
          · apply RecVec.get_expand_of_ok
            rw [RecVec.get_set hrt, if_pos ⟨rfl, rfl⟩]
          · rw [List.getElem?_append_right (by rw [hd.pos_len]), hd.pos_len, Nat.sub_self]
            rfl
          · rw [List.getElem?_append_right (by rw [hd.gen_len]), hd.gen_len, Nat.sub_self]
            rfl
        · rw [if_neg hc] at hig1
          obtain ⟨h1, r, h2, h3, h4⟩ := hd.tree i g hig1
          refine ⟨?_, r, ?_, ?_, ?_⟩
          · rcases h1 with h1 | ⟨h1, h5⟩
            · exact Or.inl h1
            · exact Or.inr ⟨h1, by omega⟩
          · apply RecVec.get_expand_of_ok
            rw [RecVec.get_set hrt, if_neg hc]
            exact h2
          · rw [List.getElem?_append_left (List.getElem?_eq_some.1 h3).1]
            exact h3
          · rw [List.getElem?_append_left (List.getElem?_eq_some.1 h4).1]
            exact h4
      · rw [(RecVec.set_shape hred).1, hd.dflt] at hfalse
        cases hfalse

theorem schreierTree_enumerate {α H : Type} [DecidableEq H] (ops : ElementOps α H)
    (fuel limit : Nat) (d d1 : Data α H) (hd : SchreierTree d)
    (h : Data.enumerate ops fuel d limit = .ok d1) : SchreierTree d1 := by
  refine enumerate_induct ops limit SchreierTree ?_ ?_ fuel d d1 hd h
  · intro e e1 stop stop1 he hp
    refine processPos_induct ops limit SchreierTree (fun _ j a => TreeAt j a)
      (fun _ hI => hI) ?_ ?_ e e1 stop stop1 he hp
    · intro n b s j a a1 st st1 ha _ hs
      rcases applyGen_cases hs with ⟨hsc, -⟩ | hmul
      · exact treeAt_shortcut ha hsc
      · exact treeAt_multiply ha hmul
    · intro n a ha
      refine ⟨ha.dflt, ha.pos_len, ha.gen_len, ?_⟩
      intro i g hig
      obtain ⟨h1, hr⟩ := ha.tree i g hig
      refine ⟨Or.inl ?_, hr⟩
      show i < a.pos + 1
      rcases h1 with h1 | ⟨h1, -⟩ <;> omega
  · intro e e1 he hc
    obtain ⟨l, w, rfl⟩ := closeLevel_effect hc
    exact ⟨he.dflt, he.pos_len, he.gen_len, he.tree⟩

theorem schreierTree_of_all_false {α H : Type} (d : Data α H) (h0 : d.reduced.dflt = false)
    (h1 : d.schreierpos.length = d.nr) (h2 : d.schreiergen.length = d.nr)
    (h3 : ∀ row ∈ d.reduced.rows, ∀ x ∈ row, x = false) : SchreierTree d := by
  refine ⟨h0, h1, h2, ?_⟩
  intro i g hig
  exfalso
  unfold RecVec.get at hig
  cases hr : d.reduced.rows[i]? with
  | none => rw [hr] at hig; cases hig
  | some row =>
    rw [hr] at hig
    simp only at hig
    cases hx : row[g]? with
    | none => rw [hx] at hig; cases hig
    | some x =>
      rw [hx] at hig
      have := h3 row (mem_of_getElem?_some hr) x (mem_of_getElem?_some hx)
      subst this
      cases hig

theorem schreierTree_new {α H : Type} [DecidableEq H] (ops : ElementOps α H)
    (gens : List α) (d : Data α H) (h : Data.new ops gens = .ok d) : SchreierTree d := by
  obtain ⟨hc, -, -⟩ := new_ctorInv ops gens d h
  refine schreierTree_of_all_false d ?_ ?_ ?_ ?_
  · rw [hc.reduced_eq]
  · rw [hc.schreierpos_eq, List.length_map, hc.nr_eq]
  · rw [hc.schreiergen_eq, hc.nr_eq]
  · rw [hc.reduced_eq]
    intro row hrow x hx
    rw [List.eq_of_mem_replicate hrow] at hx
    exact List.eq_of_mem_replicate hx

/-- C16. After construction and after every `enumerate` call that returns, from a state in
which it holds, every entry `reduced[i][g]` that is `true` is an edge of the Schreier tree:
`schreierpos[right[i][g]] = i + 1` (so `schreierpos[right[i][g]] - 1 = i`) and
`schreiergen[right[i][g]] = g`. The invariant `SchreierTree` that carries this also says
that such an entry belongs to a position already handled. -/
theorem reduced_edge_in_schreier_tree {α H : Type} [DecidableEq H] (ops : ElementOps α H) :
    (∀ (gens : List α) (d : Data α H), Data.new ops gens = .ok d → SchreierTree d) ∧
    (∀ (fuel limit : Nat) (d d1 : Data α H), SchreierTree d →
      Data.enumerate ops fuel d limit = .ok d1 → SchreierTree d1) ∧
    (∀ (d : Data α H), SchreierTree d → ∀ (i g : Nat), i < d.nr → g < d.nrgens →
      d.reduced.get i g = .ok true →
      ∃ r, d.right.get i g = .ok r ∧ d.schreierpos[r]? = some (i + 1) ∧
        (i + 1) - 1 = i ∧ d.schreiergen[r]? = some g) := by
  refine ⟨schreierTree_new ops, schreierTree_enumerate ops, ?_⟩
  intro d hd i g _ _ hig
  obtain ⟨-, r, h2, h3, h4⟩ := hd.tree i g hig
  exact ⟨r, h2, h3, rfl, h4⟩

/-- Witness of C16: from the seeded state of the generators `1, 2` of `cyclic3`,
`enumerate` with limit 3 discovers `0` as the product of position 0 and generator 1, stores
it at position 2 and sets `reduced[0][1]`; the Schreier entries of position 2 are
`schreierpos = 1` and `schreiergen = 1`. -/
theorem reduced_edge_in_schreier_tree_witness :
    ∃ d1, Data.enumerate cyclic3 3 pairSeed 3 = .ok d1 ∧ d1.reduced.get 0 1 = .ok true ∧
      d1.right.get 0 1 = .ok 2 ∧ d1.schreierpos = [0, 0, 1] ∧ d1.schreiergen = [0, 1, 1] ∧
      ∃ r, d1.right.get 0 1 = .ok r ∧ d1.schreierpos[r]? = some (0 + 1) ∧
        (0 + 1) - 1 = 0 ∧ d1.schreiergen[r]? = some 1 :=
  ⟨_, rfl, rfl, rfl, rfl, rfl,
    (reduced_edge_in_schreier_tree cyclic3).2.2 _
      ((reduced_edge_in_schreier_tree cyclic3).2.1 3 3 pairSeed _
        (schreierTree_of_all_false pairSeed rfl rfl rfl (by decide)) (by rfl))
      0 1 (by decide) (by decide) (by rfl)⟩

/-! ## The rules that `enumerate` appends -/

theorem RecVec.defined_expand {T : Type} (t : RecVec T) (i j : Nat) :
    t.expand.Defined i j ↔ t.Defined i j ∨ (i = t.rows.length ∧ j < t.nrcols) := by
  unfold RecVec.Defined
  rw [RecVec.get_expand]
  by_cases hi : i < t.rows.length
  · rw [if_pos hi]
    constructor
    · intro h; exact Or.inl h
    · rintro (h | ⟨h, -⟩)
      · exact h
      · omega
  · rw [if_neg hi]
    have hnone : ¬ ∃ v, t.get i j = .ok v := by
      rintro ⟨v, hv⟩
      unfold RecVec.get at hv
      rw [List.getElem?_eq_none (Nat.le_of_not_lt hi)] at hv
      cases hv
    by_cases hc : i = t.rows.length ∧ j < t.nrcols
    · rw [if_pos hc]
      constructor
      · intro _; exact Or.inr hc
      · intro _; exact ⟨_, rfl⟩
    · rw [if_neg hc]
      constructor
      · rintro ⟨v, hv⟩; cases hv
      · rintro (h | h)
        · exact absurd h hnone
        · exact absurd h hc

theorem handled_succ {i g pos j : Nat} (h : i < pos ∨ (i = pos ∧ g < j)) :
    i < pos ∨ (i = pos ∧ g < j + 1) := by
  rcases h with h | ⟨h1, h2⟩
  · exact Or.inl h
  · exact Or.inr ⟨h1, by omega⟩

theorem handled_ne {i g pos j : Nat} (h : i < pos ∨ (i = pos ∧ g < j)) :
    ¬ (i = pos ∧ g = j) := by
  rintro ⟨rfl, rfl⟩
  rcases h with h | ⟨-, h⟩ <;> omega

theorem rulesAt_shortcut {α H : Type} {k n j : Nat} {d d1 : Data α H} {b s : Nat}
    (hd : RulesAt k n j d) (h : shortcut d b s j = .ok d1) : RulesAt k n (j + 1) d1 := by
  obtain ⟨x, red, rt, hred, hrt, rfl⟩ := shortcut_effect h
  obtain ⟨s1, s2, s3⟩ := RecVec.set_shape hred
  obtain ⟨t1, t2, t3⟩ := RecVec.set_shape hrt
  refine ⟨?_, hd.nrgens_eq, ?_, ?_, ?_, hd.k_le, ?_, ?_, hd.distinct⟩
  · show red.dflt = false
    rw [s1]; exact hd.dflt
  · show rt.nrcols = red.nrcols
    rw [t2, s2]; exact hd.cols
  · show rt.rows.length = red.rows.length
    rw [t3, s3]; exact hd.rows_len
  · intro i g
    show rt.Defined i g ↔ red.Defined i g
    rw [RecVec.defined_set hrt, RecVec.defined_set hred]
    exact hd.shape i g
  · intro i g hig
    change red.get i g = .ok true at hig
    rw [RecVec.get_set hred] at hig
    by_cases hc : i = d.pos ∧ g = j
    · rw [if_pos hc] at hig; cases hig
    · rw [if_neg hc] at hig
      exact handled_succ (hd.handled i g hig)
  · intro m t hm ht
    obtain ⟨i, g, r, h1, h2, h3, h4, h5⟩ := hd.rule m t hm ht
    have hne := handled_ne h2
    refine ⟨i, g, r, h1, handled_succ h2, h3, ?_, ?_⟩
    · show red.get i g = .ok false
      rw [RecVec.get_set hred, if_neg hne]; exact h4
    · show rt.get i g = .ok r
      rw [RecVec.get_set hrt, if_neg hne]; exact h5

theorem getElem?_snoc {T : Type} (l : List T) (a b : T) (m : Nat)
    (h : (l ++ [a])[m]? = some b) : l[m]? = some b ∨ (m = l.length ∧ b = a) := by
  by_cases hm : m < l.length
  · rw [List.getElem?_append_left hm] at h
    exact Or.inl h
  · have hge : l.length ≤ m := Nat.le_of_not_lt hm
    rw [List.getElem?_append_right hge] at h
    have h0 : m - l.length = 0 := by
      by_contra hne
      obtain ⟨q, hq⟩ := Nat.exists_eq_succ_of_ne_zero hne
      rw [hq] at h
      simp at h
    rw [h0] at h
    simp only [List.getElem?_cons_zero, Option.some.injEq] at h
    exact Or.inr ⟨by omega, h.symm⟩

theorem rulesAt_multiply {α H : Type} [DecidableEq H] {ops : ElementOps α H} {limit : Nat}
    {k n j : Nat} {d d1 : Data α H} {b s : Nat} {stop stop1 : Bool}
    (hd : RulesAt k n j d) (hj : j < n)
    (h : multiply ops limit d b s j stop = .ok (d1, stop1)) : RulesAt k n (j + 1) d1 := by
  obtain ⟨x, g0, -, -, hc⟩ := multiply_effect h
  rcases hc with ⟨p, rt, -, hrt, -, rfl⟩ | ⟨-, suf, red, rt, -, hred, hrt, -, rfl⟩
  · obtain ⟨t1, t2, t3⟩ := RecVec.set_shape hrt
    have hfalse : d.reduced.get d.pos j = .ok false := by
      obtain ⟨v, hv⟩ := (hd.shape d.pos j).1 (RecVec.defined_of_set hrt)
      cases v with
      | false => exact hv
      | true =>
        exfalso
        rcases hd.handled d.pos j hv with h1 | ⟨-, h1⟩ <;> omega
    refine ⟨hd.dflt, hd.nrgens_eq, ?_, ?_, ?_, ?_, ?_, ?_, ?_⟩
    · show rt.nrcols = d.reduced.nrcols
      rw [t2]; exact hd.cols
    · show rt.rows.length = d.reduced.rows.length
      rw [t3]; exact hd.rows_len
    · intro i g
      show rt.Defined i g ↔ d.reduced.Defined i g
      rw [RecVec.defined_set hrt]
      exact hd.shape i g
    · show k ≤ (d.rules ++ [[d.pos, j, p]]).length
      rw [List.length_append]
      exact Nat.le_trans hd.k_le (Nat.le_add_right _ _)
    · intro i g hig
      exact handled_succ (hd.handled i g hig)
    · intro m t hm ht
      change (d.rules ++ [[d.pos, j, p]])[m]? = some t at ht
      show ∃ i g r, t = [i, g, r] ∧ (i < d.pos ∨ (i = d.pos ∧ g < j + 1)) ∧ g < n ∧
        d.reduced.get i g = .ok false ∧ rt.get i g = .ok r
      rcases getElem?_snoc _ _ _ _ ht with hold | ⟨-, rfl⟩
      · obtain ⟨i, g, r, h1, h2, h3, h4, h5⟩ := hd.rule m t hm hold
        refine ⟨i, g, r, h1, handled_succ h2, h3, h4, ?_⟩
        rw [RecVec.get_set hrt, if_neg (handled_ne h2)]; exact h5
      · refine ⟨d.pos, j, p, rfl, Or.inr ⟨rfl, by omega⟩, hj, hfalse, ?_⟩
        rw [RecVec.get_set hrt, if_pos ⟨rfl, rfl⟩]
    · intro m m1 i g r r1 hm hm1 ht ht1
      change (d.rules ++ [[d.pos, j, p]])[m]? = some [i, g, r] at ht
      change (d.rules ++ [[d.pos, j, p]])[m1]? = some [i, g, r1] at ht1
      rcases getElem?_snoc _ _ _ _ ht with hold | ⟨hlen, heq⟩
      · rcases getElem?_snoc _ _ _ _ ht1 with hold1 | ⟨hlen1, heq1⟩
        · exact hd.distinct m m1 i g r r1 hm hm1 hold hold1
        · exfalso
          obtain ⟨i2, g2, r2, h1, h2, -⟩ := hd.rule m _ hm hold
          simp only [List.cons.injEq, and_true] at h1 heq1
          obtain ⟨rfl, rfl, -⟩ := h1
          exact handled_ne h2 ⟨heq1.1, heq1.2.1⟩
      · rcases getElem?_snoc _ _ _ _ ht1 with hold1 | ⟨hlen1, heq1⟩
        · exfalso
          obtain ⟨i2, g2, r2, h1, h2, -⟩ := hd.rule m1 _ hm1 hold1
          simp only [List.cons.injEq, and_true] at h1 heq
          obtain ⟨rfl, rfl, -⟩ := h1
          exact handled_ne h2 ⟨heq.1, heq.2.1⟩
        · rw [hlen, hlen1]
  · obtain ⟨s1, s2, s3⟩ := RecVec.set_shape hred
    obtain ⟨t1, t2, t3⟩ := RecVec.set_shape hrt
    refine ⟨?_, hd.nrgens_eq, ?_, ?_, ?_, hd.k_le, ?_, ?_, hd.distinct⟩
    · show red.dflt = false
      rw [s1]; exact hd.dflt
    · show rt.nrcols = red.nrcols
      rw [t2, s2]; exact hd.cols
    · show (rt.rows ++ _).length = (red.rows ++ _).length
      rw [List.length_append, List.length_append, t3, s3, hd.rows_len]
      rfl
    · intro i g
      show rt.expand.Defined i g ↔ red.expand.Defined i g
      rw [RecVec.defined_expand, RecVec.defined_expand, RecVec.defined_set hrt,
        RecVec.defined_set hred, hd.shape i g, t3, s3, t2, s2, hd.rows_len, hd.cols]
    · intro i g hig
      change red.expand.get i g = .ok true at hig
      show i < d.pos ∨ (i = d.pos ∧ g < j + 1)
      rcases RecVec.get_expand_ok red i g true hig with hig1 | ⟨-, -, hf⟩
      · rw [RecVec.get_set hred] at hig1
        by_cases hc : i = d.pos ∧ g = j
        · exact Or.inr ⟨hc.1, by omega⟩
        · rw [if_neg hc] at hig1
          exact handled_succ (hd.handled i g hig1)
      · rw [s1, hd.dflt] at hf
        cases hf
    · intro m t hm ht
      obtain ⟨i, g, r, h1, h2, h3, h4, h5⟩ := hd.rule m t hm ht
      have hne := handled_ne h2
      refine ⟨i, g, r, h1, handled_succ h2, h3, ?_, ?_⟩
      · show red.expand.get i g = .ok false
        apply RecVec.get_expand_of_ok
        rw [RecVec.get_set hred, if_neg hne]; exact h4
      · show rt.expand.get i g = .ok r
        apply RecVec.get_expand_of_ok
        rw [RecVec.get_set hrt, if_neg hne]; exact h5

theorem rulesFrom_enumerate {α H : Type} [DecidableEq H] (ops : ElementOps α H)
    (fuel limit k : Nat) (d d1 : Data α H) (hd : RulesFrom k d)
    (h : Data.enumerate ops fuel d limit = .ok d1) : RulesFrom k d1 := by
  refine enumerate_induct ops limit (RulesFrom k) ?_ ?_ fuel d d1 hd h
  · intro e e1 stop stop1 he hp
    refine processPos_induct ops limit (RulesFrom k) (fun n j a => RulesAt k n j a)
      (fun _ hI => hI) ?_ ?_ e e1 stop stop1 he hp
    · intro n b s j a a1 st st1 ha hj hs
      rcases applyGen_cases hs with ⟨hsc, -⟩ | hmul
      · exact rulesAt_shortcut ha hsc
      · exact rulesAt_multiply ha hj hmul
    · intro n a ha
      refine ⟨ha.dflt, rfl, ha.cols, ha.rows_len, ha.shape, ha.k_le, ?_, ?_, ha.distinct⟩
      · intro i g hig
        refine Or.inl ?_
        show i < a.pos + 1
        rcases ha.handled i g hig with h1 | ⟨h1, -⟩ <;> omega
      · intro m t hm ht
        obtain ⟨i, g, r, h1, h2, h3, h4, h5⟩ := ha.rule m t hm ht
        refine ⟨i, g, r, h1, Or.inl ?_, ?_, h4, h5⟩
        · show i < a.pos + 1
          rcases h2 with h2 | ⟨h2, -⟩ <;> omega
        · show g < a.nrgens
          rw [ha.nrgens_eq]; exact h3
  · intro e e1 he hc
    obtain ⟨l, w, rfl⟩ := closeLevel_effect hc
    exact ⟨he.dflt, he.nrgens_eq, he.cols, he.rows_len, he.shape, he.k_le, he.handled,
      he.rule, he.distinct⟩

/-! ## The rules after construction and after `enumerate` -/

theorem RecVec.defined_const {T : Type} (t : RecVec T) (a b : Nat) (x : T)
    (h : t.rows = List.replicate a (List.replicate b x)) (i j : Nat) :
    t.Defined i j ↔ i < a ∧ j < b := by
  unfold RecVec.Defined
  constructor
  · rintro ⟨v, hv⟩
    unfold RecVec.get at hv
    rw [h] at hv
    cases hr : (List.replicate a (List.replicate b x))[i]? with
    | none => rw [hr] at hv; cases hv
    | some row =>
      rw [hr] at hv
      simp only at hv
      have hia : i < a := by
        have := (List.getElem?_eq_some.1 hr).1
        simpa using this
      have hrow : row = List.replicate b x :=
        List.eq_of_mem_replicate (mem_of_getElem?_some hr)
      subst hrow
      cases hx : (List.replicate b x)[j]? with
      | none => rw [hx] at hv; cases hv
      | some y =>
        have := (List.getElem?_eq_some.1 hx).1
        exact ⟨hia, by simpa using this⟩
  · rintro ⟨hi, hj⟩
    exact ⟨x, RecVec.get_const t a b x h i j hi hj⟩

/-- A state whose tables `right` and `reduced` hold only their initial entries has no rule
to account for from index `rules.length` on. -/
theorem rulesFrom_initial {α H : Type} (d : Data α H) (a b : Nat) (x : Nat)
    (hR : d.right.rows = List.replicate a (List.replicate b x))
    (hB : d.reduced.rows = List.replicate a (List.replicate b false))
    (hdflt : d.reduced.dflt = false) (hcols : d.right.nrcols = d.reduced.nrcols) :
    RulesFrom d.rules.length d := by
  have hnone : ∀ m, d.rules.length ≤ m → d.rules[m]? = none :=
    fun m hm => List.getElem?_eq_none hm
  refine ⟨hdflt, rfl, hcols, ?_, ?_, Nat.le_refl _, ?_, ?_, ?_⟩
  · rw [hR, hB, List.length_replicate, List.length_replicate]
  · intro i g
    rw [RecVec.defined_const _ a b x hR, RecVec.defined_const _ a b false hB]
  · intro i g hig
    exfalso
    have hdef : d.reduced.Defined i g := ⟨true, hig⟩
    rw [RecVec.defined_const _ a b false hB] at hdef
    rw [RecVec.get_const _ a b false hB i g hdef.1 hdef.2] at hig
    cases hig
  · intro m t hm ht
    rw [hnone m hm] at ht
    cases ht
  · intro m m1 i g r r1 hm _ ht _
    rw [hnone m hm] at ht
    cases ht

theorem rulesFrom_new {α H : Type} [DecidableEq H] (ops : ElementOps α H)
    (gens : List α) (d : Data α H) (h : Data.new ops gens = .ok d) :
    RulesFrom d.rules.length d := by
  obtain ⟨hc, -, -⟩ := new_ctorInv ops gens d h
  refine rulesFrom_initial d d.nr gens.length 0 ?_ ?_ ?_ ?_
  · rw [hc.right_eq]
  · rw [hc.reduced_eq]
  · rw [hc.reduced_eq]
  · rw [hc.right_eq, hc.reduced_eq]

/-- C17 (amended). After construction no rule is one that `enumerate` appended (`k` is the
number of rules then), and `enumerate` keeps the following true of the rules from index
`k` on: each is a triple `[i, g, r]` with `i < pos`, `g < nrgens`, `reduced[i][g]` false and
`right[i][g] = r`, and no two of them have the same `i` and `g`. -/
theorem rules_of_enumerate {α H : Type} [DecidableEq H] (ops : ElementOps α H) :
    (∀ (gens : List α) (d : Data α H), Data.new ops gens = .ok d →
      RulesFrom d.rules.length d) ∧
    (∀ (fuel limit k : Nat) (d d1 : Data α H), RulesFrom k d →
      Data.enumerate ops fuel d limit = .ok d1 → RulesFrom k d1) ∧
    (∀ (k : Nat) (d : Data α H), RulesFrom k d →
      (∀ (m : Nat) (t : List Nat), k ≤ m → d.rules[m]? = some t →
        ∃ i g r, t = [i, g, r] ∧ i < d.pos ∧ g < d.nrgens ∧
          d.reduced.get i g = .ok false ∧ d.right.get i g = .ok r) ∧
      (∀ (m m1 i g r r1 : Nat), k ≤ m → k ≤ m1 → d.rules[m]? = some [i, g, r] →
        d.rules[m1]? = some [i, g, r1] → m = m1)) := by
  refine ⟨rulesFrom_new ops, fun fuel limit k => rulesFrom_enumerate ops fuel limit k, ?_⟩
  intro k d hd
  refine ⟨?_, hd.distinct⟩
  intro m t hm ht
  obtain ⟨i, g, r, h1, h2, h3, h4, h5⟩ := hd.rule m t hm ht
  refine ⟨i, g, r, h1, ?_, h3, h4, h5⟩
  rcases h2 with h2 | ⟨-, h2⟩
  · exact h2
  · omega

/-- Counterexample to C17 as stated: after construction from the single generator `1` of
`cyclic3` there is one element and one generator, `reduced[0][0]` is false, and `rules` is
empty, so no rule has `(0, 0)` as its first two entries. -/
theorem rules_counterexample :
    ∃ d, Data.new cyclic3 [1] = .ok d ∧ d.nr = 1 ∧ d.nrgens = 1 ∧
      d.reduced.get 0 0 = .ok false ∧ d.rules = [] ∧
      ¬ ∃ t, t ∈ d.rules ∧ ∃ r, t = [0, 0, r] :=
  ⟨_, rfl, rfl, rfl, rfl, rfl, by simp⟩

/-- Witness of C17 (amended): from the seeded state of the generators `1, 2` of `cyclic3`,
`enumerate` with limit 3 finds `1 + 1 = 2` stored at position 1 and appends the rule
`[0, 0, 1]`; `reduced[0][0]` is false and `right[0][0] = 1`. -/
theorem rules_of_enumerate_witness :
    ∃ d1, Data.enumerate cyclic3 3 pairSeed 3 = .ok d1 ∧ d1.rules = [[0, 0, 1]] ∧
      d1.pos = 1 ∧
      (∀ (m : Nat) (t : List Nat), 0 ≤ m → d1.rules[m]? = some t →
        ∃ i g r, t = [i, g, r] ∧ i < d1.pos ∧ g < d1.nrgens ∧
          d1.reduced.get i g = .ok false ∧ d1.right.get i g = .ok r) ∧
      (∀ (m m1 i g r r1 : Nat), 0 ≤ m → 0 ≤ m1 → d1.rules[m]? = some [i, g, r] →
        d1.rules[m1]? = some [i, g, r1] → m = m1) :=
  ⟨_, rfl, rfl, rfl,
    (rules_of_enumerate cyclic3).2.2 0 _
      ((rules_of_enumerate cyclic3).2.1 3 3 0 pairSeed _
        (rulesFrom_initial pairSeed 2 2 0 rfl rfl rfl rfl) (by rfl))⟩

/-! ## The scenarios of the graph routines -/

/-- C21. On the digraph `[[2,3],[1],[2]]` (edges 1→2, 1→3, 2→1, 3→2) `GABOW_SCC` returns
`id = [1, 1, 1]` and exactly one component, and the vertices of that component are 1, 2
and 3. -/
theorem GABOW_SCC_triangle :
    ∃ c, GABOW_SCC [[2, 3], [1], [2]] = .ok { id := [1, 1, 1], comps := [c] } ∧
      c.length = 3 ∧ ∀ x, x ∈ c ↔ (x = 1 ∨ x = 2 ∨ x = 3) := by
  refine ⟨[1, 2, 3], rfl, rfl, ?_⟩
  intro x
  simp

/-- C22. On the right record with components `[[1,2],[3,4]]` (id `[1,1,2,2]`) and the left
record with components `[[1,3],[2,4]]` (id `[1,2,1,2]`) `FIND_HCLASSES` returns four
components, the singletons of 1, 2, 3 and 4, and four distinct ids. -/
theorem FIND_HCLASSES_four_singletons :
    FIND_HCLASSES { id := [1, 1, 2, 2], comps := [[1, 2], [3, 4]] }
        { id := [1, 2, 1, 2], comps := [[1, 3], [2, 4]] } =
      { id := [1, 2, 3, 4], comps := [[1], [2], [3], [4]] } ∧
    ([1, 2, 3, 4] : List Nat).Nodup :=
  ⟨rfl, by decide⟩

/-- C23. For valid SCC records `scc1` and `scc2` over the vertices `1..n` whose partitions
commute: when `scc2` has fewer than `n` components, the loop that initialises `seen` for
`i = 1..n` leaves its `length(comps2)+1` words and `SCC_UNION_LEFT_RIGHT_CAYLEY_GRAPHS`
returns no record; when `scc2` has `n` components, the routine returns a record that gives
every vertex `v` a non-zero id, at most the number of components, with `v` in
`comps[id[v]]`, and in which two vertices `u` and `v` have the same id exactly when some
vertex shares an `scc1` component with `u` and an `scc2` component with `v`. -/
theorem SCC_UNION_bridged_or_fault (n : Nat) (scc1 scc2 : SCCResult) (h1 : ValidSCC n scc1)
    (h2 : ValidSCC n scc2) (hc : Commuting n scc1 scc2) :
    (scc2.comps.length < n →
      SCC_UNION_LEFT_RIGHT_CAYLEY_GRAPHS scc1 scc2 = .error .outOfRange) ∧
    (n ≤ scc2.comps.length →
      ∃ r, SCC_UNION_LEFT_RIGHT_CAYLEY_GRAPHS scc1 scc2 = .ok r ∧
        (∀ v, 1 ≤ v → v ≤ n →
          ELM_PLIST r.id v ≠ 0 ∧ ELM_PLIST r.id v ≤ r.comps.length ∧
          v ∈ ELM_PLIST2 r.comps (ELM_PLIST r.id v)) ∧
        (∀ u v, 1 ≤ u → u ≤ n → 1 ≤ v → v ≤ n →
          (ELM_PLIST r.id u = ELM_PLIST r.id v ↔
            ∃ x, 1 ≤ x ∧ x ≤ n ∧ ELM_PLIST scc1.id u = ELM_PLIST scc1.id x ∧
              ELM_PLIST scc2.id x = ELM_PLIST scc2.id v))) := by
  constructor
  · intro hlt
    exact SCC_UNION_fault scc1 scc2 (by rw [h1.1]; exact hlt)
  · intro hlen
    obtain ⟨r, e, a, b⟩ := union_spec h1 h2 hc hlen
    refine ⟨r, e, ?_, ?_⟩
    · intro v v1 v2
      obtain ⟨a1, a2, a3⟩ := a v v1 v2
      exact ⟨by omega, a2, a3⟩
    · intro u v u1 u2 v1 v2
      exact b u v u1 u2 v1 v2

/-- Witness of C23: the partitions `{1,2},{3,4}` and `{1,3},{2,4}` are valid and commute,
the vertices 1 and 4 are bridged by the vertex 2, and the routine returns no record: the
loop that initialises `seen` writes the word 3 of a bag of 3 words (the words 0 to 2). -/
theorem SCC_UNION_bridged_or_fault_witness :
    ValidSCC 4 rowsSCC ∧ ValidSCC 4 colsSCC ∧ Commuting 4 rowsSCC colsSCC ∧
    (∃ x, 1 ≤ x ∧ x ≤ 4 ∧ ELM_PLIST rowsSCC.id 1 = ELM_PLIST rowsSCC.id x ∧
      ELM_PLIST colsSCC.id x = ELM_PLIST colsSCC.id 4) ∧
    SCC_UNION_LEFT_RIGHT_CAYLEY_GRAPHS rowsSCC colsSCC = .error .outOfRange :=
  ⟨checkSCC_sound (by decide), checkSCC_sound (by decide), checkCommuting_sound (by decide),
    ⟨2, by decide⟩,
    (SCC_UNION_bridged_or_fault 4 rowsSCC colsSCC (checkSCC_sound (by decide))
      (checkSCC_sound (by decide)) (checkCommuting_sound (by decide))).1 (by decide)⟩

/-! ## GABOW_SCC: the states of the search -/

theorem gabowStep_frames {g : List (List Nat)} {s s1 : GabowState} {brk : Bool}
    (h : gabowStep g s = .ok (s1, brk)) : s.frames ≠ [] := by
  intro hf
  unfold gabowStep at h
  rw [hf] at h
  cases h

/-- Every state of the search satisfies the two invariants, and between two roots the
stacks are empty. -/
theorem visits_inv {g : List (List Nat)} (hg : ValidDigraph g) {s : GabowState}
    (hv : Visits g s) :
    GInv g s ∧ GSem g s ∧ (s.frames = [] → s.stack1 = [] ∧ s.stack2 = []) := by
  induction hv with
  | start =>
    have h := rootInv_init g
    exact ⟨h.inv, h.sem, fun _ => ⟨rfl, rfl⟩⟩
  | root s v _ hfr v1 v2 hv0 ih =>
    obtain ⟨h1, h2, h3⟩ := ih
    have hr : RootInv g s := ⟨h1, h2, hfr, (h3 hfr).1, (h3 hfr).2⟩
    obtain ⟨a, b, c, -⟩ := gabowPush_inv hr v1 v2 hv0
    exact ⟨a, b, fun e => absurd e c⟩
  | step s s1 brk _ hstep ih =>
    obtain ⟨h1, h2, -⟩ := ih
    obtain ⟨s', brk', hs', a, b, -, c, d⟩ := gabowStep_inv hg h1 h2 (gabowStep_frames hstep)
    rw [hstep] at hs'
    cases hs'
    refine ⟨a, b, ?_⟩
    intro e
    cases brk with
    | true => exact (c rfl).2
    | false => exact absurd e (d rfl).1

theorem finOrder_set {g : List (List Nat)} {s : GabowState} (h : GInv g s) (hs : GSem g s)
    (ho : FinOrder g s) (w p : Nat) (w1 : 1 ≤ w) (w2 : w ≤ g.length)
    (hw0 : ELM_PLIST s.id w = 0) (hp : p ≤ g.length) {s1 : GabowState}
    (hid : s1.id = SET_ELM_PLIST s.id w p) : FinOrder g s1 := by
  have hother : ∀ u, u ≠ w → ELM_PLIST s1.id u = ELM_PLIST s.id u := by
    intro u hu
    rw [hid]
    exact ELM_SET_other _ _ _ _ hu
  have hsame : ELM_PLIST s1.id w = p := by
    rw [hid]
    exact ELM_SET_same _ _ _ w1 (by rw [h.idlen]; exact w2)
  intro x y x1 x2 hy hx
  have hxw : x ≠ w := by
    rintro rfl
    rw [hsame] at hx
    omega
  rw [hother x hxw] at hx ⊢
  have hfin := hs.fin_closed x x1 x2 hx y hy
  have hyw : y ≠ w := by
    rintro rfl
    rw [hw0] at hfin
    omega
  rw [hother y hyw]
  exact ho x y x1 x2 hy hx

theorem finOrder_popped {g : List (List Nat)} {s : GabowState} (hg : ValidDigraph g)
    (h : GInv g s) (hs : GSem g s) (ho : FinOrder g s)
    {f : Frame} {fs : List Frame} (hfr : s.frames = f :: fs)
    (hidx : f.idx > f.adj.length) {a rest bs : List Nat}
    (hst1 : s.stack1 = a ++ f.v :: rest) (hst2 : s.stack2 = ELM_PLIST s.id f.v :: bs) :
    FinOrder g (poppedState s fs a f.v rest bs) := by
  have hs1 := GSem.after_pop hg h hs hfr hidx hst1 hst2
  have hid := GInv.popped_id h hst1
  have hcomp : ∀ u, u ∈ a ++ [f.v] → u ∈ s.stack1 := by
    intro u hu
    rw [hst1]
    simp only [List.mem_append, List.mem_cons, List.mem_singleton, List.not_mem_nil,
      or_false] at hu ⊢
    rcases hu with hu | hu
    · exact Or.inl hu
    · exact Or.inr (Or.inl hu)
  have hstack : ∀ u, u ∈ s.stack1 → ELM_PLIST s.id u ≤ g.length := by
    intro u hu
    have := h.mem_stack hu
    have := h.stack_len
    omega
  intro x y x1 x2 hy hx
  have hfy := hs1.fin_closed x x1 x2 hx y hy
  have hy12 := hg.adj_range hy
  change g.length < ELM_PLIST (setAll s.id (a ++ [f.v]) (s.count + 1)) x at hx
  change g.length < ELM_PLIST (setAll s.id (a ++ [f.v]) (s.count + 1)) y at hfy
  show ELM_PLIST (setAll s.id (a ++ [f.v]) (s.count + 1)) y ≤
    ELM_PLIST (setAll s.id (a ++ [f.v]) (s.count + 1)) x
  rw [hid x] at hx ⊢
  rw [hid y] at hfy ⊢
  by_cases hxc : x ∈ a ++ [f.v]
  · rw [if_pos hxc]
    by_cases hyc : y ∈ a ++ [f.v]
    · rw [if_pos hyc]
    · rw [if_neg hyc] at hfy ⊢
      rcases h.cls y hy12.1 hy12.2 with h0 | hst | ⟨-, hle⟩
      · omega
      · have := hstack y hst
        omega
      · omega
  · rw [if_neg hxc] at hx ⊢
    have hyfin := hs.fin_closed x x1 x2 hx y hy
    have hyc : y ∉ a ++ [f.v] := by
      intro hyc
      have := hstack y (hcomp y hyc)
      omega
    rw [if_neg hyc]
    exact ho x y x1 x2 hy hx

/-- Every state of the search has its finished vertices in the order of `FinOrder`. -/
theorem visits_order {g : List (List Nat)} (hg : ValidDigraph g) {s : GabowState}
    (hv : Visits g s) : FinOrder g s := by
  induction hv with
  | start =>
    intro x y _ _ _ hx
    simp only [ELM_replicate] at hx
    omega
  | root s v hvs hfr v1 v2 hv0 ih =>
    obtain ⟨h1, h2, h3⟩ := visits_inv hg hvs
    have hr : RootInv g s := ⟨h1, h2, hfr, (h3 hfr).1, (h3 hfr).2⟩
    refine finOrder_set h1 h2 ih v 1 v1 v2 hv0 (by omega) ?_
    rw [gabowPush_eq hr v]
  | step s s1 brk hvs hstep ih =>
    obtain ⟨h1, h2, -⟩ := visits_inv hg hvs
    obtain ⟨f, fs, hfr⟩ : ∃ f fs, s.frames = f :: fs := by
      cases hf : s.frames with
      | nil => exact absurd hf (gabowStep_frames hstep)
      | cons f fs => exact ⟨f, fs, rfl⟩
    obtain ⟨hfst, hfadj, hf1⟩ := h1.f_stack f (by rw [hfr]; simp)
    rcases gabowStep_cases h1 hfr with ⟨hidx, hw0, hst⟩ | ⟨hidx, hw0, hst⟩ |
        ⟨hidx, -, hst⟩ | ⟨hidx, a, rest, bs, hst1, hst2, hst⟩
    · rw [hst] at hstep
      cases hstep
      have hw : ELM_PLIST f.adj f.idx ∈ ELM_PLIST2 g f.v := by
        rw [← hfadj]
        exact ELM_PLIST_mem_of_idx _ _ hf1 hidx
      have hw12 := hg.adj_range hw
      have hlen := (GInv.pushed h1 hfr hw12.1 hw12.2 hw0).stack_len
      refine finOrder_set h1 h2 ih (ELM_PLIST f.adj f.idx) (s.stack1.length + 1)
        hw12.1 hw12.2 hw0 ?_ rfl
      simpa [pushedState] using hlen
    · rw [hst] at hstep
      cases hstep
      exact ih
    · rw [hst] at hstep
      cases hstep
      exact ih
    · rw [hst] at hstep
      cases hstep
      exact finOrder_popped hg h1 h2 ih hfr hidx hst1 hst2

theorem gabowStep_break {g : List (List Nat)} {s s1 : GabowState}
    (h : gabowStep g s = .ok (s1, true)) : s1.frames = [] := by
  unfold gabowStep at h
  split at h
  · cases h
  · rename_i f fs hfr
    split at h
    · split at h
      · cases h
      · split at h
        · split at h
          · cases h
          · simp only [Except.ok.injEq, Prod.mk.injEq, List.isEmpty_eq_true] at h
            obtain ⟨rfl, hfs⟩ := h
            exact hfs
        · simp only [Except.ok.injEq, Prod.mk.injEq, List.isEmpty_eq_true] at h
          obtain ⟨rfl, hfs⟩ := h
          exact hfs
    · simp only at h
      split at h
      · cases h
      · split at h
        · cases h
        · cases h

theorem gabowLoop_visits {g : List (List Nat)} :
    ∀ (fuel : Nat) (s s1 : GabowState), Visits g s → gabowLoop g fuel s = .ok s1 →
      Visits g s1 ∧ s1.frames = [] := by
  intro fuel
  induction fuel with
  | zero => intro s s1 _ h; cases h
  | succ fuel ih =>
    intro s s1 hv h
    unfold gabowLoop at h
    split at h
    · cases h
    · rename_i s2 hstep
      cases h
      exact ⟨Visits.step s _ true hv hstep, gabowStep_break hstep⟩
    · rename_i s2 hstep
      exact ih s2 s1 (Visits.step s s2 false hv hstep) h

theorem gabowRoots_visits {g : List (List Nat)} (fuel : Nat) :
    ∀ (vs : List Nat) (s s1 : GabowState), (∀ v ∈ vs, 1 ≤ v ∧ v ≤ g.length) →
      Visits g s → s.frames = [] → gabowRoots g fuel vs s = .ok s1 →
      Visits g s1 ∧ s1.frames = [] := by
  intro vs
  induction vs with
  | nil =>
    intro s s1 _ hv hfr h
    cases h
    exact ⟨hv, hfr⟩
  | cons v vs ih =>
    intro s s1 hvs hv hfr h
    obtain ⟨v1, v2⟩ := hvs v (List.mem_cons_self _ _)
    have hrest : ∀ u ∈ vs, 1 ≤ u ∧ u ≤ g.length :=
      fun u hu => hvs u (List.mem_cons_of_mem _ hu)
    unfold gabowRoots at h
    split at h
    · rename_i hv0
      split at h
      · cases h
      · rename_i s2 hloop
        obtain ⟨a, b⟩ := gabowLoop_visits fuel _ s2 (Visits.root s v hv hfr v1 v2 hv0) hloop
        exact ih s2 s1 hrest a b h
    · exact ih s s1 hrest hv hfr h

/-- The state from which `GABOW_SCC` builds its result is a state of the search in which
every vertex is finished. -/
theorem GABOW_SCC_visits {g : List (List Nat)} (hg : ValidDigraph g) (hn : g.length ≠ 0) :
    ∃ s, GABOW_SCC g = .ok { id := s.id.map (fun x => x - g.length), comps := s.comps } ∧
      Visits g s ∧ s.frames = [] ∧
      ∀ v, 1 ≤ v → v ≤ g.length → g.length < ELM_PLIST s.id v := by
  obtain ⟨s, hres, hroot, -, hall⟩ := gabowRoots_spec hg (List.range' 1 g.length) _
    (fun v hv => by rw [List.mem_range'_1] at hv; omega) (rootInv_init g)
  obtain ⟨hvis, hfr⟩ := gabowRoots_visits (gabowFuel g) (List.range' 1 g.length) _ s
    (fun v hv => by rw [List.mem_range'_1] at hv; omega) Visits.start rfl hres
  refine ⟨s, ?_, hvis, hfr, ?_⟩
  · unfold GABOW_SCC
    simp only [hn, if_false]
    rw [hres]
  · intro v v1 v2
    have h0 := hall v (by rw [List.mem_range'_1]; omega)
    rcases hroot.inv.cls v v1 v2 with h | h | h
    · exact absurd h h0
    · rw [hroot.stack1] at h
      cases h
    · exact h.1

/-- C26. For every digraph on the vertices `1..n` with adjacency entries in `1..n`,
`GABOW_SCC` returns a record, and for every edge `v → w` whose ends have different ids in
it, `id[w] < id[v]`: the components are numbered in reverse topological order. -/
theorem GABOW_SCC_reverse_topological (g : List (List Nat)) (hg : ValidDigraph g) :
    ∃ r, GABOW_SCC g = .ok r ∧
      ∀ v w, 1 ≤ v → v ≤ g.length → w ∈ ELM_PLIST2 g v →
        ELM_PLIST r.id v ≠ ELM_PLIST r.id w → ELM_PLIST r.id w < ELM_PLIST r.id v := by
  by_cases hn : g.length = 0
  · refine ⟨{ id := [], comps := [] }, by simp [GABOW_SCC, hn], ?_⟩
    intro v w v1 v2
    omega
  · obtain ⟨s, hres, hvis, -, hfin⟩ := GABOW_SCC_visits hg hn
    refine ⟨_, hres, ?_⟩
    intro v w v1 v2 hw hne
    have hw12 := hg.adj_range hw
    have ho := visits_order hg hvis v w v1 v2 hw (hfin v v1 v2)
    have hv := hfin v v1 v2
    have hwf := hfin w hw12.1 hw12.2
    simp only [ELM_map_sub] at hne ⊢
    omega

/-- Witness of C26: in the digraph `[[2],[3],[]]` (edges 1→2 and 2→3) the three vertices
are three components, and they are numbered 3, 2, 1. -/
theorem GABOW_SCC_reverse_topological_witness :
    GABOW_SCC [[2], [3], []] = .ok { id := [3, 2, 1], comps := [[3], [2], [1]] } ∧
    ∃ r, GABOW_SCC [[2], [3], []] = .ok r ∧
      ∀ v w, 1 ≤ v → v ≤ [[2], [3], ([] : List Nat)].length →
        w ∈ ELM_PLIST2 [[2], [3], []] v →
        ELM_PLIST r.id v ≠ ELM_PLIST r.id w → ELM_PLIST r.id w < ELM_PLIST r.id v :=
  ⟨rfl, GABOW_SCC_reverse_topological [[2], [3], []] (by
    intro adj hadj w hw
    simp only [List.mem_cons, List.mem_singleton, List.not_mem_nil, or_false] at hadj
    rcases hadj with rfl | rfl | rfl
    · simp only [List.mem_singleton] at hw; subst hw; decide
    · simp only [List.mem_singleton] at hw; subst hw; decide
    · cases hw)⟩

/-! ## GABOW_SCC: the heights of the stacks -/

theorem length_le_of_pairwise_gt {l : List Nat} {m : Nat} (hp : l.Pairwise (· > ·))
    (hr : ∀ b ∈ l, 1 ≤ b ∧ b ≤ m) : l.length ≤ m :=
  length_le_of_nodup_range (hp.imp (fun h => Nat.ne_of_gt h)) hr

theorem GInv.boundaries_le {g : List (List Nat)} {s : GabowState} (h : GInv g s) :
    s.stack2.length ≤ s.stack1.length :=
  length_le_of_pairwise_gt h.b_sorted (fun _ hb => h.boundary_le hb)

theorem GInv.frames_le {g : List (List Nat)} {s : GabowState} (h : GInv g s) :
    s.frames.length ≤ s.stack1.length := by
  have hp : (s.frames.map (fun f => ELM_PLIST s.id f.v)).Pairwise (· > ·) := by
    rw [List.pairwise_map]
    exact h.f_sorted
  have := length_le_of_pairwise_gt (m := s.stack1.length) hp (by
    intro b hb
    rw [List.mem_map] at hb
    obtain ⟨f, hf, rfl⟩ := hb
    have := h.frame_mem hf
    exact ⟨this.2.2.1, this.2.2.2⟩)
  simpa using this

theorem GInv.merge_stops {g : List (List Nat)} {s : GabowState} (h : GInv g s)
    (hne : s.frames ≠ []) (idw : Nat) (hidw : idw ≠ 0) :
    ∃ b bs, popBoundaries idw s.stack2 = .ok (b :: bs) := by
  have hone := h.b_one hne
  rw [popBoundaries_spec idw s.stack2 h.b_sorted ⟨1, hone, by omega⟩]
  have hmem : 1 ∈ s.stack2.filter (fun b => decide (b ≤ idw)) := by
    rw [List.mem_filter]
    exact ⟨hone, by simp; omega⟩
  cases hf : s.stack2.filter (fun b => decide (b ≤ idw)) with
  | nil => rw [hf] at hmem; cases hmem
  | cons b bs => exact ⟨b, bs, rfl⟩

/-- C25. In every state of the search of `GABOW_SCC` on a digraph with adjacency entries in
`1..n`: while a root's search is active (there is a frame) the heights satisfy
`1 ≤ end2 ≤ end1 ≤ n` and `level ≤ n`, the pass of the loop body from that state reads no
stack outside its live entries, and the merge loop stops on an entry of `stack2` for every
non-zero id; between two roots `stack1` and `stack2` are empty. -/
theorem GABOW_SCC_stack_bounds (g : List (List Nat)) (hg : ValidDigraph g)
    (s : GabowState) (hs : Visits g s) :
    (s.frames ≠ [] →
      1 ≤ s.stack2.length ∧ s.stack2.length ≤ s.stack1.length ∧
      s.stack1.length ≤ g.length ∧ 1 ≤ s.frames.length ∧ s.frames.length ≤ g.length ∧
      (∃ s1 brk, gabowStep g s = .ok (s1, brk)) ∧
      (∀ idw, idw ≠ 0 → ∃ b bs, popBoundaries idw s.stack2 = .ok (b :: bs))) ∧
    (s.frames = [] → s.stack1 = [] ∧ s.stack2 = []) := by
  obtain ⟨h1, h2, h3⟩ := visits_inv hg hs
  refine ⟨?_, h3⟩
  intro hne
  obtain ⟨s1, brk, hstep, -⟩ := gabowStep_inv hg h1 h2 hne
  have hone := h1.b_one hne
  refine ⟨List.length_pos_of_mem hone, h1.boundaries_le, h1.stack_len, ?_, ?_,
    ⟨s1, brk, hstep⟩, h1.merge_stops hne⟩
  · exact List.length_pos.2 hne
  · exact Nat.le_trans h1.frames_le h1.stack_len

/-- Witness of C25: the state of the search on `[[2,3],[1],[2]]` after the push of the
root 1 and the descent to its neighbour 2 has `end1 = end2 = level = 2`. -/
theorem GABOW_SCC_stack_bounds_witness :
    ∃ s, Visits triangle s ∧ s.stack1 = [2, 1] ∧ s.stack2 = [2, 1] ∧ s.frames.length = 2 ∧
      ((s.frames ≠ [] →
        1 ≤ s.stack2.length ∧ s.stack2.length ≤ s.stack1.length ∧
        s.stack1.length ≤ triangle.length ∧ 1 ≤ s.frames.length ∧
        s.frames.length ≤ triangle.length ∧
        (∃ s1 brk, gabowStep triangle s = .ok (s1, brk)) ∧
        (∀ idw, idw ≠ 0 → ∃ b bs, popBoundaries idw s.stack2 = .ok (b :: bs))) ∧
      (s.frames = [] → s.stack1 = [] ∧ s.stack2 = [])) :=
  have hv : Visits triangle
      { id := [1, 2, 0], stack1 := [2, 1], stack2 := [2, 1],
        frames := [{ v := 2, idx := 1, adj := [1] }, { v := 1, idx := 2, adj := [2, 3] }],
        count := 3, comps := [] } :=
    Visits.step _ _ false (Visits.root _ 1 Visits.start rfl (by decide) (by decide) rfl) rfl
  ⟨_, hv, rfl, rfl, rfl, GABOW_SCC_stack_bounds triangle validDigraph_triangle _ hv⟩

/-! ## The rule recorded when a product is already stored -/

theorem rulesSound_new {α H : Type} [DecidableEq H] (ops : ElementOps α H)
    (gens : List α) (d : Data α H) (h : Data.new ops gens = .ok d) : RulesSound ops d := by
  obtain ⟨hc, -, -⟩ := new_ctorInv ops gens d h
  refine ⟨hc.indexed, ?_⟩
  intro t ht
  obtain ⟨m, hm, rfl⟩ := List.getElem_of_mem ht
  have hm1 : m < (dupGens ops gens gens.length).length := by
    rw [← hc.rules_len]; exact hm
  obtain ⟨x, p, -, -, h3, -⟩ := hc.rules_at m _ (List.getElem?_eq_getElem hm1)
  rw [List.getElem?_eq_getElem hm] at h3
  refine ⟨gens.length + 1, _, p, Option.some.inj h3, ?_⟩
  intro hne
  exact absurd hc.undefined_eq.symm hne

theorem rulesSound_multiply {α H : Type} [DecidableEq H] {ops : ElementOps α H}
    {limit : Nat} {d d1 : Data α H} {b s j : Nat} {stop stop1 : Bool}
    (hd : RulesSound ops d) (h : multiply ops limit d b s j stop = .ok (d1, stop1)) :
    RulesSound ops d1 := by
  obtain ⟨hidx, hrules⟩ := hd
  obtain ⟨x, y, hx, hy, hc⟩ := multiply_effect h
  rw [vecAt_ok_iff] at hx hy
  rcases hc with ⟨p, rt, hp, -, -, rfl⟩ | ⟨hnone, suf, red, rt, -, -, -, -, rfl⟩
  · refine ⟨hidx, ?_⟩
    intro t ht
    change t ∈ d.rules ++ [[d.pos, j, p]] at ht
    rw [List.mem_append, List.mem_singleton] at ht
    rcases ht with ht | rfl
    · exact hrules t ht
    · refine ⟨d.pos, j, p, rfl, fun _ => ?_⟩
      obtain ⟨z, hz, hh⟩ := hidx.2.2 _ _ hp
      have hlt : p < d.nr := by
        have h1 : p < d.elements.length := (List.getElem?_eq_some.1 hz).1
        have h2 : d.elements.length = d.nr := hidx.1
        omega
      exact ⟨hlt, x, y, z, hx, hy, hz, hh⟩
  · refine ⟨Core.indexed_push ops d.core (ops.mul x y) hidx hnone, ?_⟩
    intro t ht
    obtain ⟨i, g, q, h1, h2⟩ := hrules t ht
    refine ⟨i, g, q, h1, ?_⟩
    intro hne
    obtain ⟨hlt, a, c, z, ha, hcg, hz, hh⟩ := h2 hne
    refine ⟨Nat.lt_succ_of_lt hlt, a, c, z, ?_, hcg, ?_, hh⟩
    · show (d.elements ++ [ops.mul x y])[i]? = some a
      rw [List.getElem?_append_left (List.getElem?_eq_some.1 ha).1]
      exact ha
    · show (d.elements ++ [ops.mul x y])[q]? = some z
      rw [List.getElem?_append_left (List.getElem?_eq_some.1 hz).1]
      exact hz

theorem rulesSound_enumerate {α H : Type} [DecidableEq H] (ops : ElementOps α H)
    (fuel limit : Nat) (d d1 : Data α H) (hd : RulesSound ops d)
    (h : Data.enumerate ops fuel d limit = .ok d1) : RulesSound ops d1 := by
  refine enumerate_induct ops limit (RulesSound ops) ?_ ?_ fuel d d1 hd h
  · intro e e1 stop stop1 he hp
    refine processPos_induct ops limit (RulesSound ops) (fun _ _ a => RulesSound ops a)
      (fun _ hI => hI) ?_ (fun _ _ hJ => hJ) e e1 stop stop1 he hp
    intro n b s j a a1 st st1 ha _ hs
    rcases applyGen_cases hs with ⟨hsc, -⟩ | hmul
    · obtain ⟨x, red, rt, -, -, rfl⟩ := shortcut_effect hsc
      exact ha
    · exact rulesSound_multiply ha hmul
  · intro e e1 he hc
    obtain ⟨l, w, rfl⟩ := closeLevel_effect hc
    exact he

/-- C24. When the multiplication path at the position `pos` and the generator `j` finds
the hash value of the product in the hash map at position `p`, the pass appends the one rule
`[pos, j, p]`, writes `right[pos][j] = p` and changes nothing else (in particular not
`reduced`, `elements`, `map` or `nr`). After construction and after every `enumerate` call
that returns, every rule `[i, g, j]` with `i ≠ undefined` has `j < nr`, and the element at
position `j` has the hash value of the product of the element at `i` and generator `g`. -/
theorem hit_records_rule {α H : Type} [DecidableEq H] (ops : ElementOps α H) :
    (∀ (limit : Nat) (d : Data α H) (b s j : Nat) (stop : Bool) (x y : α) (p : Nat)
        (rt : RecVec Nat), vecAt d.elements d.pos = .ok x → vecAt d.gens j = .ok y →
      mapFind d.map (ops.hash (ops.mul x y)) = some p → d.right.set d.pos j p = .ok rt →
      multiply ops limit d b s j stop =
        .ok ({ d with nrrules := d.nrrules + 1, rules := d.rules ++ [[d.pos, j, p]],
                      right := rt }, stop) ∧
      rt.get d.pos j = .ok p) ∧
    (∀ (gens : List α) (d : Data α H), Data.new ops gens = .ok d → RulesSound ops d) ∧
    (∀ (fuel limit : Nat) (d d1 : Data α H), RulesSound ops d →
      Data.enumerate ops fuel d limit = .ok d1 → RulesSound ops d1) ∧
    (∀ (d : Data α H), RulesSound ops d → ∀ (i g j : Nat), [i, g, j] ∈ d.rules →
      i ≠ d.undefined → j < d.nr ∧
        ∃ x y z, d.elements[i]? = some x ∧ d.gens[g]? = some y ∧ d.elements[j]? = some z ∧
          ops.hash z = ops.hash (ops.mul x y)) := by
  refine ⟨?_, rulesSound_new ops, rulesSound_enumerate ops, ?_⟩
  · intro limit d b s j stop x y p rt hx hy hp hrt
    refine ⟨?_, ?_⟩
    · unfold multiply
      rw [hx, ok_bind, hy, ok_bind]
      simp only [hp, hrt, ok_bind]
      rfl
    · rw [RecVec.get_set hrt, if_pos ⟨rfl, rfl⟩]
  · intro d hd i g j hmem hne
    obtain ⟨i1, g1, j1, h1, h2⟩ := hd.2 _ hmem
    simp only [List.cons.injEq, and_true] at h1
    obtain ⟨rfl, rfl, rfl⟩ := h1
    exact h2 hne

/-- Witness of C24: in the seeded state of the generators `1, 2` of `cyclic3` the product
of position 0 and generator 0 is `2`, stored at position 1; the pass appends the rule
`[0, 0, 1]`, and `enumerate` with limit 3 returns with that rule, which is sound. -/
theorem hit_records_rule_witness :
    (∃ rt, pairSeed.right.set pairSeed.pos 0 1 = .ok rt ∧
      multiply cyclic3 3 pairSeed 1 0 0 false =
        .ok ({ pairSeed with nrrules := pairSeed.nrrules + 1,
                             rules := pairSeed.rules ++ [[pairSeed.pos, 0, 1]],
                             right := rt }, false) ∧
      rt.get pairSeed.pos 0 = .ok 1) ∧
    (∃ d1, Data.enumerate cyclic3 3 pairSeed 3 = .ok d1 ∧ d1.rules = [[0, 0, 1]] ∧
      d1.elements = [1, 2, 0] ∧
      (0 ≠ d1.undefined → 1 < d1.nr ∧
        ∃ x y z, d1.elements[0]? = some x ∧ d1.gens[0]? = some y ∧
          d1.elements[1]? = some z ∧ cyclic3.hash z = cyclic3.hash (cyclic3.mul x y))) :=
  ⟨⟨_, rfl, (hit_records_rule cyclic3).1 3 pairSeed 1 0 0 false 1 1 1 _ rfl rfl rfl rfl⟩,
   ⟨_, rfl, rfl, rfl,
    (hit_records_rule cyclic3).2.2.2 _
      ((hit_records_rule cyclic3).2.2.1 3 3 pairSeed _
        ⟨show pairSeed.core.Indexed cyclic3 from
          (rulesSound_new cyclic3 [1, 2]
            { pairSeed with prefix_ := [1, 2], suffix := [1, 2] } (by rfl)).1,
         fun t ht => by cases ht⟩ (by rfl))
      0 0 1 (by decide)⟩⟩

/-- The state a call returns is one of the states the call passes through. -/
theorem enumerate_passes {α H : Type} [DecidableEq H] (ops : ElementOps α H)
    (fuel limit : Nat) (d d1 : Data α H) (h : Data.enumerate ops fuel d limit = .ok d1) :
    Passes ops limit d d1 :=
  enumerate_induct ops limit (Passes ops limit d)
    (fun e e1 stop stop1 he hs => Passes.pass e e1 stop stop1 he hs)
    (fun e e1 he hc => Passes.close e e1 he hc) fuel d d1 Passes.start h

end Semigroups
